import Mathlib

/-!
Verification of the `fheap` Fibonacci-heap package (Go).

The heap is a pointer structure of mutable nodes.  We embed it shallowly:
all nodes ever allocated live in an arena `Mem := List Node`, an `Entry`
pointer is an index into the arena, and each Go statement becomes a read
(`getN`) or a field update (`updN`) on the arena, sequenced exactly as in
the source.  Priorities in Go are `float64`; the code only ever compares
them and `Delete` uses `-Inf`, so we model them as integers extended with
a bottom element (`Prior.negInf`), which is order-isomorphic to the set of
values the package actually manipulates (finite doubles plus `-Inf`,
NaN excluded as in the package's own documentation).

Go loops over circular lists and the recursion in `cutNode` terminate
only on well-formed pointer structures, so each is translated with an
explicit fuel argument; `none` models divergence or a nil-pointer
dereference (the translation always passes fuel `arena length + 1`,
shown sufficient on well-formed states).
-/

/-- Priority keys: finite values (the caller's priorities) plus the
`-infinity` used internally by `Delete`. -/
inductive Prior where
  | negInf : Prior
  | fin : Int → Prior
deriving DecidableEq, Repr

/-- Go's `<` on the modelled priorities. -/
def Prior.blt : Prior → Prior → Bool
  | negInf, negInf => false
  | negInf, fin _ => true
  | fin _, negInf => false
  | fin a, fin b => decide (a < b)

/-- Go's `<=` on the modelled priorities. -/
def Prior.ble : Prior → Prior → Bool
  | negInf, _ => true
  | fin _, negInf => false
  | fin a, fin b => decide (a ≤ b)

/-- One heap node (Go struct `Entry`).  `next`/`prev` are indices into the
arena; `parent`/`child` are nullable pointers.  The payload `Element` is an
opaque `interface{}` in Go; claims never inspect it, we model it as `Nat`. -/
structure Node where
  degree : Nat
  marked : Bool
  next : Nat
  prev : Nat
  parent : Option Nat
  child : Option Nat
  element : Nat
  priority : Prior
deriving DecidableEq, Repr

instance : Inhabited Node :=
  ⟨{ degree := 0, marked := false, next := 0, prev := 0,
     parent := none, child := none, element := 0, priority := Prior.fin 0 }⟩

/-- The arena of all nodes ever allocated. -/
abbrev Mem := List Node

/-- Pointer dereference: read node `i`. -/
def getN (a : Mem) (i : Nat) : Node := List.getD a i default

/-- Pointer write: update node `i` by `f`. -/
def updN (a : Mem) (i : Nat) (f : Node → Node) : Mem :=
  List.set a i (f (getN a i))

def memLen (a : Mem) : Nat := List.length a

/-- Go struct `FibHeap`: the min pointer (nullable) and the cached size. -/
structure FibHeap where
  min : Option Nat
  size : Nat
deriving DecidableEq, Repr

/-- Source `newEntry`: a fresh singleton node (its ring points to itself);
`idx` is the address the allocator hands out (we always allocate at the end
of the arena). -/
def newEntry (element : Nat) (priority : Prior) (idx : Nat) : Node :=
  { degree := 0, marked := false, next := idx, prev := idx,
    parent := none, child := none, element := element, priority := priority }

/-- Source `checkPriority`: the Go body is entirely commented out, a no-op. -/
def checkPriority (_ : Prior) : Unit := ()

/-- Source `mergeLists`: splice two circular doubly-linked lists, returning
a pointer to the smaller of the two entry points.  Each Go assignment is one
`updN`, reading operands from the arena state at that program point. -/
def mergeLists (a : Mem) (one two : Option Nat) : Mem × Option Nat :=
  match one, two with
  | none, none => (a, none)
  | some o, none => (a, some o)
  | none, some t => (a, some t)
  | some o, some t =>
    let oneNext := (getN a o).next
    let a1 := updN a o fun n => { n with next := (getN a t).next }
    let a2 := updN a1 (getN a1 o).next fun n => { n with prev := o }
    let a3 := updN a2 t fun n => { n with next := oneNext }
    let a4 := updN a3 (getN a3 t).next fun n => { n with prev := t }
    if Prior.blt (getN a4 o).priority (getN a4 t).priority then (a4, some o)
    else (a4, some t)

/-- Source `Enqueue`: allocate a new entry, splice it into the root list,
bump the size.  Returns the new arena, heap and the entry's address. -/
def Enqueue (a : Mem) (f : FibHeap) (element : Nat) (priority : Prior) :
    Mem × FibHeap × Nat :=
  let _ := checkPriority priority
  let idx := memLen a
  let a1 : Mem := List.append a [newEntry element priority idx]
  let mr := mergeLists a1 f.min (some idx)
  (mr.1, { min := mr.2, size := f.size + 1 }, idx)

/-- Source `Min`: return the min pointer, no mutation. -/
def FibHeap.Min (f : FibHeap) : Option Nat := f.min

/-- Source `Len`: return the cached size. -/
def FibHeap.Len (f : FibHeap) : Nat := f.size

/-- Source `MergeFibHeap`: splice the two root lists into a fresh heap and
empty both inputs.  Returns (arena, result, one-after, two-after). -/
def MergeFibHeap (a : Mem) (one two : FibHeap) :
    Mem × FibHeap × FibHeap × FibHeap :=
  let mr := mergeLists a one.min two.min
  let result : FibHeap := { min := mr.2, size := one.size + two.size }
  (mr.1, result, { min := none, size := 0 }, { min := none, size := 0 })

/-- `DequeueMin` step: sever the min element from the root list
(`f.min.prev.next = f.min.next; f.min.next.prev = f.min.prev;
f.min = f.min.next`), or clear the min pointer when it is the sole root. -/
def removeMinFromRoots (a : Mem) (minElem : Nat) : Mem × Option Nat :=
  if (getN a minElem).next = minElem then (a, none)
  else
    let a1 := updN a (getN a minElem).prev fun n => { n with next := (getN a minElem).next }
    let a2 := updN a1 (getN a1 minElem).next fun n => { n with prev := (getN a1 minElem).prev }
    (a2, some (getN a2 minElem).next)

/-- `DequeueMin` step: the do-while loop clearing `parent` on every member
of the dequeued root's child ring (`curr.parent = nil; curr = curr.next`
until back at the start).  Fueled; `none` = the ring never closed. -/
def clearParents : Nat → Mem → Nat → Nat → Option Mem
  | 0, _, _, _ => none
  | fuel+1, a, curr, stop =>
    let a1 := updN a curr fun n => { n with parent := none }
    let curr2 := (getN a1 curr).next
    if curr2 = stop then some a1 else clearParents fuel a1 curr2 stop

/-- `DequeueMin` step: capture of `toVisit` — walk `next` pointers from
`f.min` collecting every root until the walk returns to the start. -/
def collectRing : Nat → Mem → Nat → Nat → Option (List Nat)
  | 0, _, _, _ => none
  | fuel+1, a, curr, start =>
    let nx := (getN a curr).next
    if nx = start then some [curr]
    else Option.map (fun l => curr :: l) (collectRing fuel a nx start)

/-- `DequeueMin` step: `for curr.degree >= len(treeTable) { append nil }`. -/
def growTable (tt : List (Option Nat)) (d : Nat) : List (Option Nat) :=
  List.append tt (List.replicate (d + 1 - tt.length) none)

/-- `DequeueMin` step: the inner consolidation loop for one visited root:
keep merging `curr` with the same-degree occupant of `treeTable` until a
free slot is found; returns the arena, table and the final `curr`. -/
def consolidateStep : Nat → Mem → List (Option Nat) → Nat →
    Option (Mem × List (Option Nat) × Nat)
  | 0, _, _, _ => none
  | fuel+1, a, tt, curr =>
    let tt1 := growTable tt (getN a curr).degree
    match List.getD tt1 (getN a curr).degree none with
    | none => some (a, List.set tt1 (getN a curr).degree (some curr), curr)
    | some other =>
      let tt2 := List.set tt1 (getN a curr).degree none
      let mn := if Prior.blt (getN a other).priority (getN a curr).priority
                then other else curr
      let mx := if Prior.blt (getN a other).priority (getN a curr).priority
                then curr else other
      -- max.next.prev = max.prev ; max.prev.next = max.next
      let a1 := updN a (getN a mx).next fun n => { n with prev := (getN a mx).prev }
      let a2 := updN a1 (getN a1 mx).prev fun n => { n with next := (getN a1 mx).next }
      -- max.next = max ; max.prev = max
      let a3 := updN a2 mx fun n => { n with next := mx, prev := mx }
      -- min.child = mergeLists(min.child, max)
      let mrg := mergeLists a3 (getN a3 mn).child (some mx)
      let a5 := updN mrg.1 mn fun n => { n with child := mrg.2 }
      -- max.parent = min ; max.marked = false
      let a6 := updN a5 mx fun n => { n with parent := some mn }
      let a7 := updN a6 mx fun n => { n with marked := false }
      -- min.degree += 1
      let a8 := updN a7 mn fun n => { n with degree := n.degree + 1 }
      consolidateStep fuel a8 tt2 mn

/-- `DequeueMin` step: the outer consolidation loop over the captured
`toVisit` list, updating `f.min` with `<=` after each entry. -/
def consolidateAll : Mem → List (Option Nat) → Nat → List Nat → Nat →
    Option (Mem × List (Option Nat) × Nat)
  | a, tt, fmin, [], _ => some (a, tt, fmin)
  | a, tt, fmin, v :: rest, fuel =>
    match consolidateStep fuel a tt v with
    | none => none
    | some (a1, tt1, curr) =>
      let fmin1 := if Prior.ble (getN a1 curr).priority (getN a1 fmin).priority
                   then curr else fmin
      consolidateAll a1 tt1 fmin1 rest fuel

/-- Source `DequeueMin`.  Returns `none` on divergence / nil dereference
(impossible on well-formed states); otherwise `some (arena, heap, result)`
where `result` is the extracted entry's address (`none` on an empty heap,
matching Go's `nil` return). -/
def DequeueMin (a : Mem) (f : FibHeap) : Option (Mem × FibHeap × Option Nat) :=
  if f.size = 0 then some (a, f, none)
  else
    match f.min with
    | none => none
    | some minElem =>
      let rm := removeMinFromRoots a minElem
      let a1 := rm.1
      let step2 : Option Mem :=
        match (getN a1 minElem).child with
        | none => some a1
        | some c => clearParents (memLen a1 + 1) a1 c c
      match step2 with
      | none => none
      | some a2 =>
        let mr3 := mergeLists a2 rm.2 (getN a2 minElem).child
        let a3 := mr3.1
        match mr3.2 with
        | none => some (a3, { min := none, size := f.size - 1 }, some minElem)
        | some m0 =>
          match collectRing (memLen a3 + 1) a3 m0 m0 with
          | none => none
          | some toVisit =>
            match consolidateAll a3 [] m0 toVisit (memLen a3 + 1) with
            | none => none
            | some (a4, _, fm) =>
              some (a4, { min := some fm, size := f.size - 1 }, some minElem)

/-- Source `cutNode`: detach `e` from its parent, splice it into the root
list, then mark the parent or cascade.  Fueled on the recursion
`f.cutNode(e.parent)`; carries `f.min` explicitly.  The Go `e.parent.degree
-= 1` is a count decrement on a node that owns `e`, hence positive on
well-formed states; `Nat` subtraction agrees with Go's `int` there. -/
def cutNode : Nat → Mem → Option Nat → Nat → Option (Mem × Option Nat)
  | 0, _, _, _ => none
  | fuel+1, a, fmin, e =>
    let a1 := updN a e fun n => { n with marked := false }
    match (getN a1 e).parent with
    | none => some (a1, fmin)
    | some p =>
      let a2 :=
        if (getN a1 e).next ≠ e then
          let x := updN a1 (getN a1 e).next fun n => { n with prev := (getN a1 e).prev }
          updN x (getN x e).prev fun n => { n with next := (getN x e).next }
        else a1
      let a3 :=
        if (getN a2 p).child = some e then
          if (getN a2 e).next ≠ e then
            updN a2 p fun n => { n with child := some (getN a2 e).next }
          else
            updN a2 p fun n => { n with child := none }
        else a2
      let a4 := updN a3 p fun n => { n with degree := n.degree - 1 }
      let a5 := updN a4 e fun n => { n with prev := e, next := e }
      let mr := mergeLists a5 fmin (some e)
      let a6 := mr.1
      if (getN a6 p).marked then
        match cutNode fuel a6 mr.2 p with
        | none => none
        | some r =>
          some (updN r.1 e fun n => { n with parent := none }, r.2)
      else
        let a7 := updN a6 p fun n => { n with marked := true }
        some (updN a7 e fun n => { n with parent := none }, mr.2)

/-- Source `decreaseKeyUnchecked`: set the priority, cut if the parent's
priority is no longer at most `e`'s, then update `f.min` by `<=`.  The Go
read `f.min.Priority` is a nil dereference when `f.min == nil`; that case
is `none`. -/
def decreaseKeyUnchecked (a : Mem) (f : FibHeap) (e : Nat) (priority : Prior) :
    Option (Mem × FibHeap) :=
  let a1 := updN a e fun n => { n with priority := priority }
  let step : Option (Mem × Option Nat) :=
    match (getN a1 e).parent with
    | some par =>
      if Prior.ble (getN a1 e).priority (getN a1 par).priority = true then
        cutNode (memLen a1 + 1) a1 f.min e
      else some (a1, f.min)
    | none => some (a1, f.min)
  match step with
  | none => none
  | some (a2, fmin) =>
    match fmin with
    | none => none
    | some m =>
      let fmin1 := if Prior.ble (getN a2 e).priority (getN a2 m).priority = true
                   then some e else fmin
      some (a2, { min := fmin1, size := f.size })

/-- Source error value returned when the new priority exceeds the old. -/
def ErrorExceedsPriority : String := "Error new priority exceeds old"

/-- Source `DecreaseKey`: validate, then delegate.  The third component is
the returned `error` (`none` = Go `nil`). -/
def DecreaseKey (a : Mem) (f : FibHeap) (e : Nat) (newPriority : Prior) :
    Option (Mem × FibHeap × Option String) :=
  let _ := checkPriority newPriority
  if Prior.blt (getN a e).priority newPriority then
    some (a, f, some ErrorExceedsPriority)
  else
    match decreaseKeyUnchecked a f e newPriority with
    | none => none
    | some (a1, f1) => some (a1, f1, none)

/-- Source `Delete`: decrease to `-infinity`, then `DequeueMin`. -/
def Delete (a : Mem) (f : FibHeap) (e : Nat) : Option (Mem × FibHeap) :=
  match decreaseKeyUnchecked a f e Prior.negInf with
  | none => none
  | some (a1, f1) =>
    match DequeueMin a1 f1 with
    | none => none
    | some (a2, f2, _) => some (a2, f2)

/-- The zero value `FibHeap{}` a Go client starts from. -/
def emptyHeap : FibHeap := { min := none, size := 0 }

/-! ### Circular doubly-linked rings

A ring is described by the list of its member indices in `next` order;
`lnk a i j` says `j` directly follows `i`. -/

def lnk (a : Mem) (i j : Nat) : Prop :=
  (getN a i).next = j ∧ (getN a j).prev = i

def isRing (a : Mem) : List Nat → Prop
  | [] => True
  | x :: xs => List.Chain (lnk a) x (xs ++ [x])

instance (a : Mem) (i j : Nat) : Decidable (lnk a i j) := by
  unfold lnk; infer_instance

instance (a : Mem) (l : List Nat) : Decidable (isRing a l) := by
  cases l with
  | nil => exact isTrue trivial
  | cons x xs => unfold isRing; infer_instance

/-! ### Well-formed heap states

A ghost assignment describes the forest structure a heap's pointer graph
is supposed to represent: the live node set `L`, the root ring in `next`
order (based at the min pointer), each live node's child ring in `next`
order, and a rank function that decreases from parents to children
(providing well-foundedness of the parent relation). -/

structure Ghost where
  L : Finset Nat
  roots : List Nat
  kids : Nat → List Nat
  rnk : Nat → Nat

structure ghostOK (a : Mem) (f : FibHeap) (g : Ghost) : Prop where
  partEq : ((g.roots : Multiset Nat) + ∑ i in g.L, ((g.kids i : Multiset Nat))) = g.L.val
  valid : ∀ i ∈ g.L, i < memLen a
  rootRing : isRing a g.roots
  kidRing : ∀ i ∈ g.L, isRing a (g.kids i)
  rootPar : ∀ i ∈ g.roots, (getN a i).parent = none
  kidPar : ∀ i ∈ g.L, ∀ j ∈ g.kids i, (getN a j).parent = some i
  childEq : ∀ i ∈ g.L, (getN a i).child = (g.kids i).head?
  degEq : ∀ i ∈ g.L, (getN a i).degree = (g.kids i).length
  rnkLt : ∀ i ∈ g.L, ∀ j ∈ g.kids i, g.rnk j < g.rnk i
  heapLe : ∀ i ∈ g.L, ∀ j ∈ g.kids i,
    Prior.ble (getN a i).priority (getN a j).priority = true
  minHead : f.min = g.roots.head?
  minLe : ∀ m ∈ g.roots.head?, ∀ j ∈ g.roots,
    Prior.ble (getN a m).priority (getN a j).priority = true
  sizeEq : f.size = g.L.card

/-- A heap state is well-formed when some ghost matches it. -/
def WF (a : Mem) (f : FibHeap) : Prop := ∃ g : Ghost, ghostOK a f g

/-! ### Marked flags: `Enqueue`, `DequeueMin` and `MergeFibHeap` never set
a mark (consolidation only clears them); only `cutNode` sets marks. -/

def allUnmarked (a : Mem) : Prop := ∀ k, (getN a k).marked = false

/-- The extraction driver the spec describes: repeatedly call `DequeueMin`,
recording each extracted entry's priority, until the heap is empty. -/
def extractAll : Nat → Mem → FibHeap → Option (List Prior)
  | 0, _, f => if f.size = 0 then some [] else none
  | fuel+1, a, f =>
    match DequeueMin a f with
    | none => none
    | some (_, _, none) => some []
    | some (a1, f1, some m) =>
      Option.map (fun l => (getN a1 m).priority :: l) (extractAll fuel a1 f1)

/-- The five-operation trace `Enqueue 1, Enqueue 2, Enqueue 3, DequeueMin,
DecreaseKey(entry 2, 0)`: consolidation makes node 2 a child of node 1, and
the decrease then cuts node 2, marking its parent node 1 — which is a root. -/
def markedRootTrace : Option (Mem × FibHeap) :=
  let e1 := Enqueue [] emptyHeap 0 (Prior.fin 1)
  let e2 := Enqueue e1.1 e1.2.1 0 (Prior.fin 2)
  let e3 := Enqueue e2.1 e2.2.1 0 (Prior.fin 3)
  match DequeueMin e3.1 e3.2.1 with
  | none => none
  | some r =>
    match DecreaseKey r.1 r.2.1 2 (Prior.fin 0) with
    | none => none
    | some s => some (s.1, s.2.1)

/-! ### The cascading cut

`cutOK` is the well-formedness carried through `cutNode`: like `ghostOK`
but with the min pointer passed explicitly, with the heap inequality
excused on the one edge into the node being cut (`x`), and with a set of
`stale` roots whose `parent` field has not yet been cleared (the Go code
clears `e.parent` only after the recursive cascading call returns). -/

structure cutOK (a : Mem) (fmin : Option Nat) (g : Ghost) (x : Nat)
    (stale : Finset Nat) : Prop where
  partEq : ((g.roots : Multiset Nat) + ∑ i in g.L, ((g.kids i : Multiset Nat))) = g.L.val
  valid : ∀ i ∈ g.L, i < memLen a
  rootRing : isRing a g.roots
  kidRing : ∀ i ∈ g.L, isRing a (g.kids i)
  rootPar : ∀ i ∈ g.roots, i ∉ stale → (getN a i).parent = none
  kidPar : ∀ i ∈ g.L, ∀ j ∈ g.kids i, (getN a j).parent = some i
  childEq : ∀ i ∈ g.L, (getN a i).child = (g.kids i).head?
  degEq : ∀ i ∈ g.L, (getN a i).degree = (g.kids i).length
  rnkLt : ∀ i ∈ g.L, ∀ j ∈ g.kids i, g.rnk j < g.rnk i
  heapLe : ∀ i ∈ g.L, ∀ j ∈ g.kids i, j ≠ x →
    Prior.ble (getN a i).priority (getN a j).priority = true
  minHead : fmin = g.roots.head?
  minLe : ∀ m ∈ g.roots.head?, ∀ j ∈ g.roots,
    Prior.ble (getN a m).priority (getN a j).priority = true

/-- The tail of `cutNode` after the sibling splice and child repoint:
degree decrement, singleton-making, root-list merge, and the mark or
cascade step.  Factored out so the two splice cases share one argument. -/
def cutTail (fuel : Nat) (a3 : Mem) (fmin : Option Nat) (e p : Nat) :
    Option (Mem × Option Nat) :=
  let a4 := updN a3 p fun n => { n with degree := n.degree - 1 }
  let a5 := updN a4 e fun n => { n with prev := e, next := e }
  let mr := mergeLists a5 fmin (some e)
  let a6 := mr.1
  if (getN a6 p).marked then
    match cutNode fuel a6 mr.2 p with
    | none => none
    | some r => some (updN r.1 e fun n => { n with parent := none }, r.2)
  else
    let a7 := updN a6 p fun n => { n with marked := true }
    some (updN a7 e fun n => { n with parent := none }, mr.2)

/-- The sibling splice and child repoint of `cutNode`, factored out of the
recursion so the unfolding of one call is a plain equation. -/
def cutSplice (a1 : Mem) (e p : Nat) : Mem :=
  let a2 :=
    if (getN a1 e).next ≠ e then
      let x := updN a1 (getN a1 e).next fun n => { n with prev := (getN a1 e).prev }
      updN x (getN x e).prev fun n => { n with next := (getN x e).next }
    else a1
  if (getN a2 p).child = some e then
    if (getN a2 e).next ≠ e then
      updN a2 p fun n => { n with child := some (getN a2 e).next }
    else
      updN a2 p fun n => { n with child := none }
  else a2

/-- A concrete one-node heap used to instantiate theorems with
hypotheses. -/
def demoA : Mem := [newEntry 7 (Prior.fin 5) 0]

def demoF : FibHeap := { min := some 0, size := 1 }

def demoG : Ghost := ⟨{0}, [0], fun _ => [], fun _ => 0⟩

/-! ### Consolidation

During `DequeueMin`'s consolidation pass the min pointer is carried
separately from the root ring, so the invariant is `ghostOK` without the
min-pointer fields. -/

structure forestOK (a : Mem) (g : Ghost) : Prop where
  partEq : ((g.roots : Multiset Nat) +
    ∑ i in g.L, ((g.kids i : Multiset Nat))) = g.L.val
  valid : ∀ i ∈ g.L, i < memLen a
  rootRing : isRing a g.roots
  kidRing : ∀ i ∈ g.L, isRing a (g.kids i)
  rootPar : ∀ i ∈ g.roots, (getN a i).parent = none
  kidPar : ∀ i ∈ g.L, ∀ j ∈ g.kids i, (getN a j).parent = some i
  childEq : ∀ i ∈ g.L, (getN a i).child = (g.kids i).head?
  degEq : ∀ i ∈ g.L, (getN a i).degree = (g.kids i).length
  rnkLt : ∀ i ∈ g.L, ∀ j ∈ g.kids i, g.rnk j < g.rnk i
  heapLe : ∀ i ∈ g.L, ∀ j ∈ g.kids i,
    Prior.ble (getN a i).priority (getN a j).priority = true

/-- The tree-link step of the consolidation inner loop: splice `mx` out of
the root ring, make it a singleton, merge it into `mn`'s child ring, point
its parent at `mn`, clear its mark, bump `mn`'s degree. -/
def consLink (a : Mem) (mn mx : Nat) : Mem :=
  let a1 := updN a (getN a mx).next fun n => { n with prev := (getN a mx).prev }
  let a2 := updN a1 (getN a1 mx).prev fun n => { n with next := (getN a1 mx).next }
  let a3 := updN a2 mx fun n => { n with next := mx, prev := mx }
  let mrg := mergeLists a3 (getN a3 mn).child (some mx)
  let a5 := updN mrg.1 mn fun n => { n with child := mrg.2 }
  let a6 := updN a5 mx fun n => { n with parent := some mn }
  let a7 := updN a6 mx fun n => { n with marked := false }
  updN a7 mn fun n => { n with degree := n.degree + 1 }

/-! ### The consolidation table -/

/-- Table invariant: every occupied slot holds a current root whose degree
equals the slot index. -/
def ttOK (a : Mem) (g : Ghost) (tt : List (Option Nat)) : Prop :=
  ∀ d x, tt.getD d none = some x → x ∈ g.roots ∧ (getN a x).degree = d

/-- A two-node arena holding two disjoint one-node heaps. -/
def demoA2 : Mem := [newEntry 7 (Prior.fin 5) 0, newEntry 8 (Prior.fin 3) 1]

def demoF2a : FibHeap := { min := some 0, size := 1 }

def demoF2b : FibHeap := { min := some 1, size := 1 }

def demoG2a : Ghost := ⟨{0}, [0], fun _ => [], fun _ => 0⟩

def demoG2b : Ghost := ⟨{1}, [1], fun _ => [], fun _ => 0⟩

theorem Prior.ble_refl (p : Prior) : ble p p = true := by
  cases p <;> simp [ble]

theorem Prior.ble_trans {p q r : Prior} (h1 : ble p q = true) (h2 : ble q r = true) :
    ble p r = true := by
  cases p <;> cases q <;> cases r <;> simp_all [ble] <;> omega

theorem Prior.ble_total (p q : Prior) : ble p q = true ∨ ble q p = true := by
  cases p <;> cases q <;> simp [ble] <;> omega

theorem Prior.not_blt (p q : Prior) : blt p q = false ↔ ble q p = true := by
  cases p <;> cases q <;> simp [blt, ble] <;> omega

theorem Prior.blt_ble {p q : Prior} (h : blt p q = true) : ble p q = true := by
  cases p <;> cases q <;> simp_all [blt, ble] <;> omega

theorem Prior.ble_of_not_blt {p q : Prior} (h : ¬ blt p q = true) : ble q p = true := by
  rw [Bool.not_eq_true] at h
  exact (not_blt p q).1 h

theorem Prior.negInf_ble (p : Prior) : ble negInf p = true := rfl

/-! ### Arena read/write lemmas -/

theorem memLen_updN (a : Mem) (i : Nat) (f : Node → Node) :
    memLen (updN a i f) = memLen a := by
  simp [memLen, updN]

theorem getN_updN_self (a : Mem) (i : Nat) (f : Node → Node) (h : i < memLen a) :
    getN (updN a i f) i = f (getN a i) := by
  simp [getN, updN, List.getD_eq_getElem?_getD, List.getElem?_set_eq_of_lt _ h]

theorem getN_updN_ne (a : Mem) (i j : Nat) (f : Node → Node) (h : j ≠ i) :
    getN (updN a i f) j = getN a j := by
  simp [getN, updN, List.getD_eq_getElem?_getD, List.getElem?_set_ne (Ne.symm h)]

theorem getN_updN_out (a : Mem) (i : Nat) (f : Node → Node) (h : memLen a ≤ i) :
    updN a i f = a := by
  simp [updN, List.set_eq_of_length_le h]

/-- A field untouched by the update function is untouched at every index. -/
theorem getN_updN_field {α : Type} (a : Mem) (i k : Nat) (f : Node → Node)
    (g : Node → α) (hf : ∀ n, g (f n) = g n) :
    g (getN (updN a i f) k) = g (getN a k) := by
  by_cases hk : k = i
  · subst hk
    by_cases hl : k < memLen a
    · rw [getN_updN_self a k f hl, hf]
    · rw [getN_updN_out a k f (Nat.le_of_not_lt hl)]
  · rw [getN_updN_ne a i k f hk]

/-! ### Field-preservation battery: one lemma per update shape and
untouched field, used to push `getN` through sequences of writes. -/

@[simp] theorem wN_degree (a : Mem) (i k : Nat) (v : Nat) :
    (getN (updN a i fun n => { n with next := v }) k).degree = (getN a k).degree :=
  getN_updN_field a i k (fun n => { n with next := v }) Node.degree (fun n => rfl)

@[simp] theorem wN_marked (a : Mem) (i k : Nat) (v : Nat) :
    (getN (updN a i fun n => { n with next := v }) k).marked = (getN a k).marked :=
  getN_updN_field a i k (fun n => { n with next := v }) Node.marked (fun n => rfl)

@[simp] theorem wN_prev (a : Mem) (i k : Nat) (v : Nat) :
    (getN (updN a i fun n => { n with next := v }) k).prev = (getN a k).prev :=
  getN_updN_field a i k (fun n => { n with next := v }) Node.prev (fun n => rfl)

@[simp] theorem wN_parent (a : Mem) (i k : Nat) (v : Nat) :
    (getN (updN a i fun n => { n with next := v }) k).parent = (getN a k).parent :=
  getN_updN_field a i k (fun n => { n with next := v }) Node.parent (fun n => rfl)

@[simp] theorem wN_child (a : Mem) (i k : Nat) (v : Nat) :
    (getN (updN a i fun n => { n with next := v }) k).child = (getN a k).child :=
  getN_updN_field a i k (fun n => { n with next := v }) Node.child (fun n => rfl)

@[simp] theorem wN_element (a : Mem) (i k : Nat) (v : Nat) :
    (getN (updN a i fun n => { n with next := v }) k).element = (getN a k).element :=
  getN_updN_field a i k (fun n => { n with next := v }) Node.element (fun n => rfl)

@[simp] theorem wN_priority (a : Mem) (i k : Nat) (v : Nat) :
    (getN (updN a i fun n => { n with next := v }) k).priority = (getN a k).priority :=
  getN_updN_field a i k (fun n => { n with next := v }) Node.priority (fun n => rfl)

@[simp] theorem wP_degree (a : Mem) (i k : Nat) (v : Nat) :
    (getN (updN a i fun n => { n with prev := v }) k).degree = (getN a k).degree :=
  getN_updN_field a i k (fun n => { n with prev := v }) Node.degree (fun n => rfl)

@[simp] theorem wP_marked (a : Mem) (i k : Nat) (v : Nat) :
    (getN (updN a i fun n => { n with prev := v }) k).marked = (getN a k).marked :=
  getN_updN_field a i k (fun n => { n with prev := v }) Node.marked (fun n => rfl)

@[simp] theorem wP_next (a : Mem) (i k : Nat) (v : Nat) :
    (getN (updN a i fun n => { n with prev := v }) k).next = (getN a k).next :=
  getN_updN_field a i k (fun n => { n with prev := v }) Node.next (fun n => rfl)

@[simp] theorem wP_parent (a : Mem) (i k : Nat) (v : Nat) :
    (getN (updN a i fun n => { n with prev := v }) k).parent = (getN a k).parent :=
  getN_updN_field a i k (fun n => { n with prev := v }) Node.parent (fun n => rfl)

@[simp] theorem wP_child (a : Mem) (i k : Nat) (v : Nat) :
    (getN (updN a i fun n => { n with prev := v }) k).child = (getN a k).child :=
  getN_updN_field a i k (fun n => { n with prev := v }) Node.child (fun n => rfl)

@[simp] theorem wP_element (a : Mem) (i k : Nat) (v : Nat) :
    (getN (updN a i fun n => { n with prev := v }) k).element = (getN a k).element :=
  getN_updN_field a i k (fun n => { n with prev := v }) Node.element (fun n => rfl)

@[simp] theorem wP_priority (a : Mem) (i k : Nat) (v : Nat) :
    (getN (updN a i fun n => { n with prev := v }) k).priority = (getN a k).priority :=
  getN_updN_field a i k (fun n => { n with prev := v }) Node.priority (fun n => rfl)

@[simp] theorem wNP_degree (a : Mem) (i k : Nat) (v : Nat) :
    (getN (updN a i fun n => { n with next := v, prev := v }) k).degree = (getN a k).degree :=
  getN_updN_field a i k (fun n => { n with next := v, prev := v }) Node.degree (fun n => rfl)

@[simp] theorem wNP_marked (a : Mem) (i k : Nat) (v : Nat) :
    (getN (updN a i fun n => { n with next := v, prev := v }) k).marked = (getN a k).marked :=
  getN_updN_field a i k (fun n => { n with next := v, prev := v }) Node.marked (fun n => rfl)

@[simp] theorem wNP_parent (a : Mem) (i k : Nat) (v : Nat) :
    (getN (updN a i fun n => { n with next := v, prev := v }) k).parent = (getN a k).parent :=
  getN_updN_field a i k (fun n => { n with next := v, prev := v }) Node.parent (fun n => rfl)

@[simp] theorem wNP_child (a : Mem) (i k : Nat) (v : Nat) :
    (getN (updN a i fun n => { n with next := v, prev := v }) k).child = (getN a k).child :=
  getN_updN_field a i k (fun n => { n with next := v, prev := v }) Node.child (fun n => rfl)

@[simp] theorem wNP_element (a : Mem) (i k : Nat) (v : Nat) :
    (getN (updN a i fun n => { n with next := v, prev := v }) k).element = (getN a k).element :=
  getN_updN_field a i k (fun n => { n with next := v, prev := v }) Node.element (fun n => rfl)

@[simp] theorem wNP_priority (a : Mem) (i k : Nat) (v : Nat) :
    (getN (updN a i fun n => { n with next := v, prev := v }) k).priority = (getN a k).priority :=
  getN_updN_field a i k (fun n => { n with next := v, prev := v }) Node.priority (fun n => rfl)

@[simp] theorem wPar_degree (a : Mem) (i k : Nat) (w : Option Nat) :
    (getN (updN a i fun n => { n with parent := w }) k).degree = (getN a k).degree :=
  getN_updN_field a i k (fun n => { n with parent := w }) Node.degree (fun n => rfl)

@[simp] theorem wPar_marked (a : Mem) (i k : Nat) (w : Option Nat) :
    (getN (updN a i fun n => { n with parent := w }) k).marked = (getN a k).marked :=
  getN_updN_field a i k (fun n => { n with parent := w }) Node.marked (fun n => rfl)

@[simp] theorem wPar_next (a : Mem) (i k : Nat) (w : Option Nat) :
    (getN (updN a i fun n => { n with parent := w }) k).next = (getN a k).next :=
  getN_updN_field a i k (fun n => { n with parent := w }) Node.next (fun n => rfl)

@[simp] theorem wPar_prev (a : Mem) (i k : Nat) (w : Option Nat) :
    (getN (updN a i fun n => { n with parent := w }) k).prev = (getN a k).prev :=
  getN_updN_field a i k (fun n => { n with parent := w }) Node.prev (fun n => rfl)

@[simp] theorem wPar_child (a : Mem) (i k : Nat) (w : Option Nat) :
    (getN (updN a i fun n => { n with parent := w }) k).child = (getN a k).child :=
  getN_updN_field a i k (fun n => { n with parent := w }) Node.child (fun n => rfl)

@[simp] theorem wPar_element (a : Mem) (i k : Nat) (w : Option Nat) :
    (getN (updN a i fun n => { n with parent := w }) k).element = (getN a k).element :=
  getN_updN_field a i k (fun n => { n with parent := w }) Node.element (fun n => rfl)

@[simp] theorem wPar_priority (a : Mem) (i k : Nat) (w : Option Nat) :
    (getN (updN a i fun n => { n with parent := w }) k).priority = (getN a k).priority :=
  getN_updN_field a i k (fun n => { n with parent := w }) Node.priority (fun n => rfl)

@[simp] theorem wC_degree (a : Mem) (i k : Nat) (c : Option Nat) :
    (getN (updN a i fun n => { n with child := c }) k).degree = (getN a k).degree :=
  getN_updN_field a i k (fun n => { n with child := c }) Node.degree (fun n => rfl)

@[simp] theorem wC_marked (a : Mem) (i k : Nat) (c : Option Nat) :
    (getN (updN a i fun n => { n with child := c }) k).marked = (getN a k).marked :=
  getN_updN_field a i k (fun n => { n with child := c }) Node.marked (fun n => rfl)

@[simp] theorem wC_next (a : Mem) (i k : Nat) (c : Option Nat) :
    (getN (updN a i fun n => { n with child := c }) k).next = (getN a k).next :=
  getN_updN_field a i k (fun n => { n with child := c }) Node.next (fun n => rfl)

@[simp] theorem wC_prev (a : Mem) (i k : Nat) (c : Option Nat) :
    (getN (updN a i fun n => { n with child := c }) k).prev = (getN a k).prev :=
  getN_updN_field a i k (fun n => { n with child := c }) Node.prev (fun n => rfl)

@[simp] theorem wC_parent (a : Mem) (i k : Nat) (c : Option Nat) :
    (getN (updN a i fun n => { n with child := c }) k).parent = (getN a k).parent :=
  getN_updN_field a i k (fun n => { n with child := c }) Node.parent (fun n => rfl)

@[simp] theorem wC_element (a : Mem) (i k : Nat) (c : Option Nat) :
    (getN (updN a i fun n => { n with child := c }) k).element = (getN a k).element :=
  getN_updN_field a i k (fun n => { n with child := c }) Node.element (fun n => rfl)

@[simp] theorem wC_priority (a : Mem) (i k : Nat) (c : Option Nat) :
    (getN (updN a i fun n => { n with child := c }) k).priority = (getN a k).priority :=
  getN_updN_field a i k (fun n => { n with child := c }) Node.priority (fun n => rfl)

@[simp] theorem wM_degree (a : Mem) (i k : Nat) (b : Bool) :
    (getN (updN a i fun n => { n with marked := b }) k).degree = (getN a k).degree :=
  getN_updN_field a i k (fun n => { n with marked := b }) Node.degree (fun n => rfl)

@[simp] theorem wM_next (a : Mem) (i k : Nat) (b : Bool) :
    (getN (updN a i fun n => { n with marked := b }) k).next = (getN a k).next :=
  getN_updN_field a i k (fun n => { n with marked := b }) Node.next (fun n => rfl)

@[simp] theorem wM_prev (a : Mem) (i k : Nat) (b : Bool) :
    (getN (updN a i fun n => { n with marked := b }) k).prev = (getN a k).prev :=
  getN_updN_field a i k (fun n => { n with marked := b }) Node.prev (fun n => rfl)

@[simp] theorem wM_parent (a : Mem) (i k : Nat) (b : Bool) :
    (getN (updN a i fun n => { n with marked := b }) k).parent = (getN a k).parent :=
  getN_updN_field a i k (fun n => { n with marked := b }) Node.parent (fun n => rfl)

@[simp] theorem wM_child (a : Mem) (i k : Nat) (b : Bool) :
    (getN (updN a i fun n => { n with marked := b }) k).child = (getN a k).child :=
  getN_updN_field a i k (fun n => { n with marked := b }) Node.child (fun n => rfl)

@[simp] theorem wM_element (a : Mem) (i k : Nat) (b : Bool) :
    (getN (updN a i fun n => { n with marked := b }) k).element = (getN a k).element :=
  getN_updN_field a i k (fun n => { n with marked := b }) Node.element (fun n => rfl)

@[simp] theorem wM_priority (a : Mem) (i k : Nat) (b : Bool) :
    (getN (updN a i fun n => { n with marked := b }) k).priority = (getN a k).priority :=
  getN_updN_field a i k (fun n => { n with marked := b }) Node.priority (fun n => rfl)

@[simp] theorem wPrio_degree (a : Mem) (i k : Nat) (p : Prior) :
    (getN (updN a i fun n => { n with priority := p }) k).degree = (getN a k).degree :=
  getN_updN_field a i k (fun n => { n with priority := p }) Node.degree (fun n => rfl)

@[simp] theorem wPrio_marked (a : Mem) (i k : Nat) (p : Prior) :
    (getN (updN a i fun n => { n with priority := p }) k).marked = (getN a k).marked :=
  getN_updN_field a i k (fun n => { n with priority := p }) Node.marked (fun n => rfl)

@[simp] theorem wPrio_next (a : Mem) (i k : Nat) (p : Prior) :
    (getN (updN a i fun n => { n with priority := p }) k).next = (getN a k).next :=
  getN_updN_field a i k (fun n => { n with priority := p }) Node.next (fun n => rfl)

@[simp] theorem wPrio_prev (a : Mem) (i k : Nat) (p : Prior) :
    (getN (updN a i fun n => { n with priority := p }) k).prev = (getN a k).prev :=
  getN_updN_field a i k (fun n => { n with priority := p }) Node.prev (fun n => rfl)

@[simp] theorem wPrio_parent (a : Mem) (i k : Nat) (p : Prior) :
    (getN (updN a i fun n => { n with priority := p }) k).parent = (getN a k).parent :=
  getN_updN_field a i k (fun n => { n with priority := p }) Node.parent (fun n => rfl)

@[simp] theorem wPrio_child (a : Mem) (i k : Nat) (p : Prior) :
    (getN (updN a i fun n => { n with priority := p }) k).child = (getN a k).child :=
  getN_updN_field a i k (fun n => { n with priority := p }) Node.child (fun n => rfl)

@[simp] theorem wPrio_element (a : Mem) (i k : Nat) (p : Prior) :
    (getN (updN a i fun n => { n with priority := p }) k).element = (getN a k).element :=
  getN_updN_field a i k (fun n => { n with priority := p }) Node.element (fun n => rfl)

@[simp] theorem wDegInc_marked (a : Mem) (i k : Nat) :
    (getN (updN a i fun n => { n with degree := n.degree + 1 }) k).marked = (getN a k).marked :=
  getN_updN_field a i k (fun n => { n with degree := n.degree + 1 }) Node.marked (fun n => rfl)

@[simp] theorem wDegInc_next (a : Mem) (i k : Nat) :
    (getN (updN a i fun n => { n with degree := n.degree + 1 }) k).next = (getN a k).next :=
  getN_updN_field a i k (fun n => { n with degree := n.degree + 1 }) Node.next (fun n => rfl)

@[simp] theorem wDegInc_prev (a : Mem) (i k : Nat) :
    (getN (updN a i fun n => { n with degree := n.degree + 1 }) k).prev = (getN a k).prev :=
  getN_updN_field a i k (fun n => { n with degree := n.degree + 1 }) Node.prev (fun n => rfl)

@[simp] theorem wDegInc_parent (a : Mem) (i k : Nat) :
    (getN (updN a i fun n => { n with degree := n.degree + 1 }) k).parent = (getN a k).parent :=
  getN_updN_field a i k (fun n => { n with degree := n.degree + 1 }) Node.parent (fun n => rfl)

@[simp] theorem wDegInc_child (a : Mem) (i k : Nat) :
    (getN (updN a i fun n => { n with degree := n.degree + 1 }) k).child = (getN a k).child :=
  getN_updN_field a i k (fun n => { n with degree := n.degree + 1 }) Node.child (fun n => rfl)

@[simp] theorem wDegInc_element (a : Mem) (i k : Nat) :
    (getN (updN a i fun n => { n with degree := n.degree + 1 }) k).element = (getN a k).element :=
  getN_updN_field a i k (fun n => { n with degree := n.degree + 1 }) Node.element (fun n => rfl)

@[simp] theorem wDegInc_priority (a : Mem) (i k : Nat) :
    (getN (updN a i fun n => { n with degree := n.degree + 1 }) k).priority = (getN a k).priority :=
  getN_updN_field a i k (fun n => { n with degree := n.degree + 1 }) Node.priority (fun n => rfl)

@[simp] theorem wDegDec_marked (a : Mem) (i k : Nat) :
    (getN (updN a i fun n => { n with degree := n.degree - 1 }) k).marked = (getN a k).marked :=
  getN_updN_field a i k (fun n => { n with degree := n.degree - 1 }) Node.marked (fun n => rfl)

@[simp] theorem wDegDec_next (a : Mem) (i k : Nat) :
    (getN (updN a i fun n => { n with degree := n.degree - 1 }) k).next = (getN a k).next :=
  getN_updN_field a i k (fun n => { n with degree := n.degree - 1 }) Node.next (fun n => rfl)

@[simp] theorem wDegDec_prev (a : Mem) (i k : Nat) :
    (getN (updN a i fun n => { n with degree := n.degree - 1 }) k).prev = (getN a k).prev :=
  getN_updN_field a i k (fun n => { n with degree := n.degree - 1 }) Node.prev (fun n => rfl)

@[simp] theorem wDegDec_parent (a : Mem) (i k : Nat) :
    (getN (updN a i fun n => { n with degree := n.degree - 1 }) k).parent = (getN a k).parent :=
  getN_updN_field a i k (fun n => { n with degree := n.degree - 1 }) Node.parent (fun n => rfl)

@[simp] theorem wDegDec_child (a : Mem) (i k : Nat) :
    (getN (updN a i fun n => { n with degree := n.degree - 1 }) k).child = (getN a k).child :=
  getN_updN_field a i k (fun n => { n with degree := n.degree - 1 }) Node.child (fun n => rfl)

@[simp] theorem wDegDec_element (a : Mem) (i k : Nat) :
    (getN (updN a i fun n => { n with degree := n.degree - 1 }) k).element = (getN a k).element :=
  getN_updN_field a i k (fun n => { n with degree := n.degree - 1 }) Node.element (fun n => rfl)

@[simp] theorem wDegDec_priority (a : Mem) (i k : Nat) :
    (getN (updN a i fun n => { n with degree := n.degree - 1 }) k).priority = (getN a k).priority :=
  getN_updN_field a i k (fun n => { n with degree := n.degree - 1 }) Node.priority (fun n => rfl)

theorem isRing_singleton (a : Mem) (x : Nat)
    (h1 : (getN a x).next = x) (h2 : (getN a x).prev = x) :
    isRing a [x] := by
  simp [isRing, List.chain_cons, lnk, h1, h2]

/-- Congruence for a chain segment `y → l → z`: only `y`'s `next`, the
middle nodes' `next`/`prev`, and `z`'s `prev` matter. -/
theorem chain_lnk_congr (a a' : Mem) :
    ∀ (l : List Nat) (y z : Nat),
    (getN a' y).next = (getN a y).next →
    (∀ i ∈ l, (getN a' i).next = (getN a i).next ∧ (getN a' i).prev = (getN a i).prev) →
    (getN a' z).prev = (getN a z).prev →
    List.Chain (lnk a) y (l ++ [z]) → List.Chain (lnk a') y (l ++ [z])
  | [], y, z, hy, _, hz, hc => by
    simp only [List.nil_append, List.chain_cons, List.Chain.nil, and_true] at *
    exact ⟨by rw [hy, hz.symm] at *; exact hc.1, by rw [hz]; exact hc.2⟩
  | w :: l', y, z, hy, hl, hz, hc => by
    simp only [List.cons_append, List.chain_cons] at hc ⊢
    obtain ⟨⟨hwn, hwp⟩, hrest⟩ := hc
    refine ⟨⟨by rw [hy, hwn], by rw [(hl w (by simp)).2, hwp]⟩, ?_⟩
    exact chain_lnk_congr a a' l' w z (hl w (by simp)).1
      (fun i hi => hl i (by simp [hi])) hz hrest

/-- Full-ring congruence: if `next`/`prev` agree on all members, the ring
is preserved. -/
theorem isRing_congr (a a' : Mem) (l : List Nat)
    (h : ∀ i ∈ l, (getN a' i).next = (getN a i).next ∧ (getN a' i).prev = (getN a i).prev)
    (hr : isRing a l) : isRing a' l := by
  cases l with
  | nil => trivial
  | cons x xs =>
    exact chain_lnk_congr a a' xs x x (h x (by simp)).1
      (fun i hi => h i (by simp [hi])) (h x (by simp)).2 hr

theorem isRing_rotate_one (a : Mem) (x : Nat) (xs : List Nat)
    (h : isRing a (x :: xs)) : isRing a (xs ++ [x]) := by
  cases xs with
  | nil => exact h
  | cons y ys =>
    simp only [isRing, List.cons_append, List.chain_cons] at h ⊢
    obtain ⟨hxy, hrest⟩ := h
    have hsplit := (@List.chain_split _ (lnk a) y x ys [y]).2
    rw [show ys ++ x :: [y] = (ys ++ [x]) ++ [y] by simp] at hsplit
    exact hsplit ⟨hrest, by simp [List.chain_cons, hxy]⟩

theorem isRing_rotate (a : Mem) (l : List Nat) (n : Nat)
    (h : isRing a l) : isRing a (l.rotate n) := by
  induction n with
  | zero => simpa using h
  | succ k ih =>
    rw [← List.rotate_rotate l k 1]
    generalize hlr : l.rotate k = lr at ih
    cases lr with
    | nil => simpa [List.rotate_nil]
    | cons x xs => simpa [List.rotate_cons_succ, List.rotate_zero] using
        isRing_rotate_one a x xs ih

/-- Rotate a ring so that a chosen member comes first. -/
theorem isRing_to_head (a : Mem) (l : List Nat) (x : Nat)
    (hx : x ∈ l) (h : isRing a l) :
    ∃ rest, isRing a (x :: rest) ∧
      ((x :: rest : List Nat) : Multiset Nat) = (l : Multiset Nat) := by
  obtain ⟨s, t, rfl⟩ := List.append_of_mem hx
  have hrot : (s ++ x :: t).rotate s.length = x :: (t ++ s) := by
    rw [show s ++ x :: t = s ++ (x :: t) by simp, List.rotate_append_length_eq]
    simp
  refine ⟨t ++ s, ?_, ?_⟩
  · have := isRing_rotate a (s ++ x :: t) s.length h
    rwa [hrot] at this
  · have := List.rotate_perm (s ++ x :: t) s.length
    rw [hrot] at this
    exact Quot.sound this

/-- The first and last links of a ring based at `x`. -/
theorem ring_next_head (a : Mem) (x : Nat) (xs : List Nat)
    (h : isRing a (x :: xs)) :
    (getN a x).next = xs.headD x ∧ (getN a (xs.headD x)).prev = x := by
  cases xs with
  | nil =>
    simp only [isRing, List.nil_append, List.chain_cons, List.Chain.nil, and_true] at h
    exact ⟨h.1, by simpa [List.headD] using h.2⟩
  | cons y ys =>
    simp only [isRing, List.cons_append, List.chain_cons] at h
    exact ⟨h.1.1, h.1.2⟩

/-- Full specification of `mergeLists` on two disjoint valid rings:
the rings splice into the single ring `o :: ys ++ t :: xs`, all fields
other than `next`/`prev` are untouched, nodes outside both rings are
untouched, and the returned pointer is the smaller entry point. -/
theorem mergeLists_spec (a : Mem) (o t : Nat) (xs ys : List Nat)
    (ho : isRing a (o :: xs)) (ht : isRing a (t :: ys))
    (hnd : ((o :: xs) ++ (t :: ys)).Nodup)
    (hv : ∀ i ∈ (o :: xs) ++ (t :: ys), i < memLen a) :
    ∃ a', mergeLists a (some o) (some t) =
      (a', if Prior.blt (getN a o).priority (getN a t).priority then some o
           else some t) ∧
      memLen a' = memLen a ∧
      isRing a' (o :: (ys ++ t :: xs)) ∧
      (∀ k, (getN a' k).parent = (getN a k).parent ∧
            (getN a' k).child = (getN a k).child ∧
            (getN a' k).degree = (getN a k).degree ∧
            (getN a' k).marked = (getN a k).marked ∧
            (getN a' k).priority = (getN a k).priority ∧
            (getN a' k).element = (getN a k).element) ∧
      (∀ k, k ∉ (o :: xs) ++ (t :: ys) → getN a' k = getN a k) := by
  have hvo : o < memLen a := hv o (by simp)
  have hvt : t < memLen a := hv t (by simp)
  obtain ⟨yh, hyhd, hyh_mem⟩ : ∃ yh, ys.headD t = yh ∧ yh ∈ t :: ys :=
    ⟨ys.headD t, rfl, by cases ys <;> simp⟩
  obtain ⟨xh, hxhd, hxh_mem⟩ : ∃ xh, xs.headD o = xh ∧ xh ∈ o :: xs :=
    ⟨xs.headD o, rfl, by cases xs <;> simp⟩
  have hvyh : yh < memLen a := hv yh (List.mem_append.mpr (Or.inr hyh_mem))
  have hvxh : xh < memLen a := hv xh (List.mem_append.mpr (Or.inl hxh_mem))
  rw [List.nodup_append] at hnd
  obtain ⟨nd1, nd2, hdisj⟩ := hnd
  have ho_t : o ∉ t :: ys := fun h => hdisj (List.mem_cons_self o xs) h
  have ht_o : t ∉ o :: xs := fun h => hdisj h (List.mem_cons_self t ys)
  have hot : o ≠ t := fun h => ho_t (by rw [h]; exact List.mem_cons_self t ys)
  have hoyh : o ≠ yh := fun h => ho_t (by rw [h]; exact hyh_mem)
  have htxh : t ≠ xh := fun h => ht_o (by rw [h]; exact hxh_mem)
  have hyhxh : yh ≠ xh := fun h => hdisj (by rw [h]; exact hxh_mem) hyh_mem
  have hon := (ring_next_head a o xs ho).1
  have htn := (ring_next_head a t ys ht).1
  rw [hxhd] at hon
  rw [hyhd] at htn
  -- the four writes
  have hU1 : ∃ U1 : Mem, updN a o (fun n => { n with next := yh }) = U1 := ⟨_, rfl⟩
  obtain ⟨U1, hU1⟩ := hU1
  obtain ⟨U2, hU2⟩ : ∃ U2 : Mem, updN U1 yh (fun n => { n with prev := o }) = U2 := ⟨_, rfl⟩
  obtain ⟨U3, hU3⟩ : ∃ U3 : Mem, updN U2 t (fun n => { n with next := xh }) = U3 := ⟨_, rfl⟩
  obtain ⟨U4, hU4⟩ : ∃ U4 : Mem, updN U3 xh (fun n => { n with prev := t }) = U4 := ⟨_, rfl⟩
  have hlen1 : memLen U1 = memLen a := by rw [← hU1, memLen_updN]
  have hlen2 : memLen U2 = memLen a := by rw [← hU2, memLen_updN, hlen1]
  have hlen3 : memLen U3 = memLen a := by rw [← hU3, memLen_updN, hlen2]
  have hlen4 : memLen U4 = memLen a := by rw [← hU4, memLen_updN, hlen3]
  -- next fields of the result
  have hnext_frame : ∀ k, k ≠ o → k ≠ t → (getN U4 k).next = (getN a k).next := by
    intro k hko hkt
    simp only [← hU4, ← hU3, ← hU2, ← hU1, wP_next,
      getN_updN_ne _ _ _ _ hkt, getN_updN_ne _ _ _ _ hko]
  have hnext_o : (getN U4 o).next = yh := by
    simp only [← hU4, ← hU3, ← hU2, ← hU1, wP_next, getN_updN_ne _ _ _ _ hot]
    rw [getN_updN_self _ _ _ hvo]
  have hnext_t : (getN U4 t).next = xh := by
    simp only [← hU4, ← hU3, wP_next]
    rw [getN_updN_self _ _ _ (by rw [hlen2]; exact hvt)]
  -- prev fields of the result
  have hprev_frame : ∀ k, k ≠ yh → k ≠ xh → (getN U4 k).prev = (getN a k).prev := by
    intro k hkyh hkxh
    simp only [← hU4, ← hU3, ← hU2, ← hU1, wN_prev,
      getN_updN_ne _ _ _ _ hkxh, getN_updN_ne _ _ _ _ hkyh]
  have hprev_yh : (getN U4 yh).prev = o := by
    simp only [← hU4, ← hU3, ← hU2, wN_prev, getN_updN_ne _ _ _ _ hyhxh]
    rw [getN_updN_self _ _ _ (by rw [hlen1]; exact hvyh)]
  have hprev_xh : (getN U4 xh).prev = t := by
    rw [← hU4, getN_updN_self _ _ _ (by rw [hlen3]; exact hvxh)]
  -- other fields untouched everywhere
  have hfields : ∀ k, (getN U4 k).parent = (getN a k).parent ∧
      (getN U4 k).child = (getN a k).child ∧
      (getN U4 k).degree = (getN a k).degree ∧
      (getN U4 k).marked = (getN a k).marked ∧
      (getN U4 k).priority = (getN a k).priority ∧
      (getN U4 k).element = (getN a k).element := by
    intro k
    simp [← hU4, ← hU3, ← hU2, ← hU1]
  have hout : ∀ k, k ∉ (o :: xs) ++ (t :: ys) → getN U4 k = getN a k := by
    intro k hk
    have hko : k ≠ o := fun h => hk (by simp [h])
    have hkt : k ≠ t := fun h => hk (by simp [h])
    have hkyh : k ≠ yh := fun h => hk (List.mem_append.mpr (Or.inr (h ▸ hyh_mem)))
    have hkxh : k ≠ xh := fun h => hk (List.mem_append.mpr (Or.inl (h ▸ hxh_mem)))
    simp only [← hU4, ← hU3, ← hU2, ← hU1, getN_updN_ne _ _ _ _ hkxh,
      getN_updN_ne _ _ _ _ hkt, getN_updN_ne _ _ _ _ hkyh,
      getN_updN_ne _ _ _ _ hko]
  -- the definition computes exactly U4
  have hdef : mergeLists a (some o) (some t) =
      (U4, if Prior.blt (getN a o).priority (getN a t).priority then some o
           else some t) := by
    simp only [mergeLists, htn, hon]
    rw [hU1]
    have e1 : (getN U1 o).next = yh := by
      rw [← hU1, getN_updN_self _ _ _ hvo]
    rw [e1, hU2]
    have e2 : (getN U3 t).next = xh := by
      rw [← hU3, getN_updN_self _ _ _ (by rw [hlen2]; exact hvt)]
    rw [hU3, e2, hU4]
    rw [(hfields o).2.2.2.2.1, (hfields t).2.2.2.2.1]
    split <;> rfl
  refine ⟨U4, hdef, hlen4, ?_, hfields, hout⟩
  -- the spliced ring
  show List.Chain (lnk U4) o ((ys ++ t :: xs) ++ [o])
  have hsplit : (ys ++ t :: xs) ++ [o] = ys ++ t :: (xs ++ [o]) := by simp
  rw [hsplit, @List.chain_split _ (lnk U4) o t ys (xs ++ [o])]
  constructor
  · -- Chain o (ys ++ [t])
    cases ys with
    | nil =>
      have hyt : yh = t := by simpa using hyhd.symm
      simp only [List.nil_append, List.chain_cons, List.Chain.nil, and_true]
      exact ⟨by rw [hnext_o, hyt], by rw [← hyt, hprev_yh]⟩
    | cons y ys' =>
      have hyy : yh = y := by simpa using hyhd.symm
      subst hyy
      obtain ⟨hty_mem, nd2'⟩ := List.nodup_cons.mp nd2
      have hty : t ≠ yh := fun h => hty_mem (h ▸ List.mem_cons_self yh ys')
      simp only [List.cons_append, List.chain_cons]
      refine ⟨⟨hnext_o, hprev_yh⟩, ?_⟩
      have hold : List.Chain (lnk a) yh (ys' ++ [t]) := by
        have h2 := ht
        simp only [isRing, List.cons_append, List.chain_cons] at h2
        exact h2.2
      refine chain_lnk_congr a U4 ys' yh t ?_ ?_ ?_ hold
      · have hyo : yh ≠ o := fun h => ho_t (h ▸ hyh_mem)
        exact hnext_frame yh hyo (fun h => hty h.symm)
      · intro i hi
        obtain ⟨hyh_nin, _⟩ := List.nodup_cons.mp nd2'
        have hio : i ≠ o := fun h => ho_t (by rw [← h]; simp [hi])
        have hit : i ≠ t := fun h => hty_mem (by rw [← h]; simp [hi])
        have hiyh : i ≠ yh := fun h => hyh_nin (h ▸ hi)
        have hixh : i ≠ xh := fun h => hdisj (h ▸ hxh_mem) (by simp [hi])
        exact ⟨hnext_frame i hio hit, hprev_frame i hiyh hixh⟩
      · exact hprev_frame t hty htxh
  · -- Chain t (xs ++ [o])
    cases xs with
    | nil =>
      have hxo : xh = o := by simpa using hxhd.symm
      simp only [List.nil_append, List.chain_cons, List.Chain.nil, and_true]
      exact ⟨by rw [hnext_t, hxo], by rw [← hxo, hprev_xh]⟩
    | cons x xs' =>
      have hxx : xh = x := by simpa using hxhd.symm
      subst hxx
      obtain ⟨hox_mem, nd1'⟩ := List.nodup_cons.mp nd1
      have hox : o ≠ xh := fun h => hox_mem (h ▸ List.mem_cons_self xh xs')
      simp only [List.cons_append, List.chain_cons]
      refine ⟨⟨hnext_t, hprev_xh⟩, ?_⟩
      have hold : List.Chain (lnk a) xh (xs' ++ [o]) := by
        have h1 := ho
        simp only [isRing, List.cons_append, List.chain_cons] at h1
        exact h1.2
      refine chain_lnk_congr a U4 xs' xh o ?_ ?_ ?_ hold
      · have hxt : xh ≠ t := fun h => htxh h.symm
        exact hnext_frame xh (fun h => hox h.symm) hxt
      · intro i hi
        obtain ⟨hxh_nin, _⟩ := List.nodup_cons.mp nd1'
        have hio : i ≠ o := fun h => hox_mem (by rw [← h]; simp [hi])
        have hit : i ≠ t := fun h => ht_o (by rw [← h]; simp [hi])
        have hiyh : i ≠ yh := fun h => hdisj (by simp [hi]) (h ▸ hyh_mem)
        have hixh : i ≠ xh := fun h => hxh_nin (h ▸ hi)
        exact ⟨hnext_frame i hio hit, hprev_frame i hiyh hixh⟩
      · exact hprev_frame o hoyh hox

/-- The closing link of a chain segment. -/
theorem chain_last_link (a : Mem) :
    ∀ (l : List Nat) (y z : Nat), List.Chain (lnk a) y (l ++ [z]) →
      (getN a (l.getLastD y)).next = z ∧ (getN a z).prev = l.getLastD y
  | [], y, z, hc => by
    simp only [List.nil_append, List.chain_cons, List.Chain.nil, and_true] at hc
    simpa using hc
  | w :: l', y, z, hc => by
    simp only [List.cons_append, List.chain_cons] at hc
    rw [List.getLastD_cons]
    exact chain_last_link a l' w z hc.2

/-- The last and first links of a ring based at `x`. -/
theorem ring_last_link (a : Mem) (x : Nat) (xs : List Nat)
    (h : isRing a (x :: xs)) :
    (getN a (xs.getLastD x)).next = x ∧ (getN a x).prev = xs.getLastD x :=
  chain_last_link a xs x x h

/-- Removing the based node from a ring: if after the two writes the old
last points to the old second and vice versa, and nothing else moved, the
remainder is a ring. -/
theorem spliceOut_ring (a a' : Mem) (x : Nat) (rs : List Nat)
    (hr : isRing a (x :: rs)) (hnd : (x :: rs).Nodup) (hne : rs ≠ [])
    (hnext_lm : (getN a' (rs.getLastD x)).next = rs.headD x)
    (hnext_fr : ∀ k, k ≠ rs.getLastD x → (getN a' k).next = (getN a k).next)
    (hprev_r1 : (getN a' (rs.headD x)).prev = rs.getLastD x)
    (hprev_fr : ∀ k, k ≠ rs.headD x → (getN a' k).prev = (getN a k).prev) :
    isRing a' rs := by
  cases rs with
  | nil => exact absurd rfl hne
  | cons r1 rs' =>
    obtain ⟨hx_nin, ndr⟩ := List.nodup_cons.mp hnd
    obtain ⟨hr1_nin, ndr'⟩ := List.nodup_cons.mp ndr
    rcases List.eq_nil_or_concat rs' with h0 | ⟨rsInit, lm, hcat⟩
    · subst h0
      simp only [List.headD, List.getLastD] at hnext_lm hprev_r1
      exact isRing_singleton a' r1 hnext_lm hprev_r1
    · rw [List.concat_eq_append] at hcat
      subst hcat
      have hlm_def : ((r1 :: (rsInit ++ [lm])).getLastD x) = lm := by
        rw [List.getLastD_cons, List.getLastD_concat]
      have hhd_def : ((r1 :: (rsInit ++ [lm])).headD x) = r1 := rfl
      simp only [hlm_def, hhd_def] at hnext_lm hnext_fr hprev_r1 hprev_fr
      have hlmr1 : lm ≠ r1 := by
        intro h
        exact hr1_nin (h ▸ List.mem_concat_self rsInit lm)
      -- old chain: r1 through rsInit to lm (then to x, discarded)
      have hold : List.Chain (lnk a) r1 (rsInit ++ [lm]) := by
        have h2 := hr
        simp only [isRing, List.cons_append, List.chain_cons] at h2
        have h3 := h2.2
        rw [show (rsInit ++ [lm]) ++ [x] = rsInit ++ lm :: [x] by simp] at h3
        exact (List.chain_split.mp h3).1
      show List.Chain (lnk a') r1 ((rsInit ++ [lm]) ++ [r1])
      rw [show (rsInit ++ [lm]) ++ [r1] = rsInit ++ lm :: [r1] by simp]
    -- split into the untouched middle and the new closing link
      rw [List.chain_split]
      constructor
      · refine chain_lnk_congr a a' rsInit r1 lm ?_ ?_ ?_ hold
        · exact hnext_fr r1 (fun h => hlmr1 h.symm)
        · intro i hi
          have hilm : i ≠ lm := by
            intro h
            rw [List.nodup_append] at ndr'
            exact ndr'.2.2 (h ▸ hi) (List.mem_singleton_self lm)
          have hir1 : i ≠ r1 := fun h => hr1_nin (by rw [← h]; simp [hi])
          exact ⟨hnext_fr i hilm, hprev_fr i hir1⟩
        · exact hprev_fr lm hlmr1
      · simp only [List.chain_cons, List.Chain.nil, and_true]
        exact ⟨hnext_lm, hprev_r1⟩

theorem headD_mem (x : Nat) (rs : List Nat) (hne : rs ≠ []) : rs.headD x ∈ rs := by
  cases rs with
  | nil => exact absurd rfl hne
  | cons r rs' => simp

theorem getLastD_mem (x : Nat) (rs : List Nat) (hne : rs ≠ []) : rs.getLastD x ∈ rs := by
  rcases List.eq_nil_or_concat rs with h0 | ⟨ini, lm, hcat⟩
  · exact absurd h0 hne
  · rw [List.concat_eq_append] at hcat
    subst hcat
    rw [List.getLastD_concat]
    simp

/-- Characterization of the two-write splice-out in the order
`x.next.prev = x.prev; x.prev.next = x.next` (as in `consolidateStep`
and `cutNode`), after rotating the ring so `x` is based. -/
theorem spliceOutB (a : Mem) (x r1 lm : Nat) (rs : List Nat)
    (hr1d : rs.headD x = r1) (hlmd : rs.getLastD x = lm)
    (hr : isRing a (x :: rs)) (hnd : (x :: rs).Nodup) (hne : rs ≠ [])
    (hv : ∀ i ∈ x :: rs, i < memLen a) :
    ∃ a', (updN (updN a r1 fun n => { n with prev := lm }) lm
            fun n => { n with next := r1 }) = a' ∧
      memLen a' = memLen a ∧ isRing a' rs ∧
      (∀ k, k ≠ lm → (getN a' k).next = (getN a k).next) ∧
      (getN a' lm).next = r1 ∧
      (∀ k, k ≠ r1 → (getN a' k).prev = (getN a k).prev) ∧
      (getN a' r1).prev = lm ∧
      (∀ k, (getN a' k).parent = (getN a k).parent ∧
            (getN a' k).child = (getN a k).child ∧
            (getN a' k).degree = (getN a k).degree ∧
            (getN a' k).marked = (getN a k).marked ∧
            (getN a' k).priority = (getN a k).priority ∧
            (getN a' k).element = (getN a k).element) ∧
      (∀ k, k ≠ r1 → k ≠ lm → getN a' k = getN a k) := by
  subst hr1d
  subst hlmd
  have hvr1 : rs.headD x < memLen a :=
    hv _ (List.mem_cons_of_mem x (headD_mem x rs hne))
  have hvlm : rs.getLastD x < memLen a :=
    hv _ (List.mem_cons_of_mem x (getLastD_mem x rs hne))
  obtain ⟨a', ha'⟩ : ∃ a', (updN (updN a (rs.headD x) fun n => { n with prev := (rs.getLastD x) }) (rs.getLastD x)
      fun n => { n with next := (rs.headD x) }) = a' := ⟨_, rfl⟩
  have hnext_fr : ∀ k, k ≠ (rs.getLastD x) → (getN a' k).next = (getN a k).next := by
    intro k hk
    simp only [← ha', getN_updN_ne _ _ _ _ hk, wP_next]
  have hnext_lm : (getN a' (rs.getLastD x)).next = (rs.headD x) := by
    rw [← ha', getN_updN_self _ _ _ (by rw [memLen_updN]; exact hvlm)]
  have hprev_fr : ∀ k, k ≠ (rs.headD x) → (getN a' k).prev = (getN a k).prev := by
    intro k hk
    simp only [← ha', wN_prev, getN_updN_ne _ _ _ _ hk]
  have hprev_r1 : (getN a' (rs.headD x)).prev = (rs.getLastD x) := by
    simp only [← ha', wN_prev]
    rw [getN_updN_self _ _ _ hvr1]
  refine ⟨a', ha', by rw [← ha']; simp [memLen_updN], ?_, hnext_fr, hnext_lm,
    hprev_fr, hprev_r1, ?_, ?_⟩
  · exact spliceOut_ring a a' x rs hr hnd hne hnext_lm hnext_fr hprev_r1 hprev_fr
  · intro k
    simp [← ha']
  · intro k hk1 hk2
    simp only [← ha', getN_updN_ne _ _ _ _ hk2, getN_updN_ne _ _ _ _ hk1]

/-- Characterization of the two-write splice-out in the order
`x.prev.next = x.next; x.next.prev = x.prev` (as in `removeMinFromRoots`). -/
theorem spliceOutA (a : Mem) (x r1 lm : Nat) (rs : List Nat)
    (hr1d : rs.headD x = r1) (hlmd : rs.getLastD x = lm)
    (hr : isRing a (x :: rs)) (hnd : (x :: rs).Nodup) (hne : rs ≠ [])
    (hv : ∀ i ∈ x :: rs, i < memLen a) :
    ∃ a', (updN (updN a lm fun n => { n with next := r1 }) r1
            fun n => { n with prev := lm }) = a' ∧
      memLen a' = memLen a ∧ isRing a' rs ∧
      (∀ k, k ≠ lm → (getN a' k).next = (getN a k).next) ∧
      (getN a' lm).next = r1 ∧
      (∀ k, k ≠ r1 → (getN a' k).prev = (getN a k).prev) ∧
      (getN a' r1).prev = lm ∧
      (∀ k, (getN a' k).parent = (getN a k).parent ∧
            (getN a' k).child = (getN a k).child ∧
            (getN a' k).degree = (getN a k).degree ∧
            (getN a' k).marked = (getN a k).marked ∧
            (getN a' k).priority = (getN a k).priority ∧
            (getN a' k).element = (getN a k).element) ∧
      (∀ k, k ≠ r1 → k ≠ lm → getN a' k = getN a k) := by
  subst hr1d
  subst hlmd
  have hvr1 : rs.headD x < memLen a :=
    hv _ (List.mem_cons_of_mem x (headD_mem x rs hne))
  have hvlm : rs.getLastD x < memLen a :=
    hv _ (List.mem_cons_of_mem x (getLastD_mem x rs hne))
  obtain ⟨a', ha'⟩ : ∃ a', (updN (updN a (rs.getLastD x) fun n =>
      { n with next := (rs.headD x) }) (rs.headD x)
      fun n => { n with prev := (rs.getLastD x) }) = a' := ⟨_, rfl⟩
  have hnext_fr : ∀ k, k ≠ (rs.getLastD x) → (getN a' k).next = (getN a k).next := by
    intro k hk
    simp only [← ha', wP_next, getN_updN_ne _ _ _ _ hk]
  have hnext_lm : (getN a' (rs.getLastD x)).next = (rs.headD x) := by
    simp only [← ha', wP_next]
    rw [getN_updN_self _ _ _ hvlm]
  have hprev_fr : ∀ k, k ≠ (rs.headD x) → (getN a' k).prev = (getN a k).prev := by
    intro k hk
    simp only [← ha', getN_updN_ne _ _ _ _ hk, wN_prev]
  have hprev_r1 : (getN a' (rs.headD x)).prev = (rs.getLastD x) := by
    rw [← ha', getN_updN_self _ _ _ (by rw [memLen_updN]; exact hvr1)]
  refine ⟨a', ha', by rw [← ha']; simp [memLen_updN], ?_, hnext_fr, hnext_lm,
    hprev_fr, hprev_r1, ?_, ?_⟩
  · exact spliceOut_ring a a' x rs hr hnd hne hnext_lm hnext_fr hprev_r1 hprev_fr
  · intro k
    simp [← ha']
  · intro k hk1 hk2
    simp only [← ha', getN_updN_ne _ _ _ _ hk1, getN_updN_ne _ _ _ _ hk2]

/-- Counting one index through the partition equation. -/
theorem ghost_count (g : Ghost)
    (hp : ((g.roots : Multiset Nat) + ∑ i in g.L, ((g.kids i : Multiset Nat))) = g.L.val)
    (j : Nat) :
    (g.roots.count j + ∑ i in g.L, (g.kids i).count j) =
      (if j ∈ g.L then 1 else 0) := by
  have h := congrArg (Multiset.count j) hp
  rw [Multiset.count_add, Multiset.count_sum'] at h
  simp only [Multiset.coe_count] at h
  rw [h]
  by_cases hj : j ∈ g.L
  · rw [if_pos hj]
    exact Multiset.count_eq_one_of_mem g.L.nodup hj
  · rw [if_neg hj]
    exact Multiset.count_eq_zero_of_not_mem hj

theorem ghost_roots_subset {g : Ghost}
    (hp : ((g.roots : Multiset Nat) + ∑ i in g.L, ((g.kids i : Multiset Nat))) = g.L.val) :
    ∀ j ∈ g.roots, j ∈ g.L := by
  intro j hj
  have h := ghost_count g hp j
  have h1 : 0 < g.roots.count j := List.count_pos_iff_mem.mpr hj
  by_contra hn
  rw [if_neg hn] at h
  omega

theorem ghost_kids_le_sum {g : Ghost}
    (hp : ((g.roots : Multiset Nat) + ∑ i in g.L, ((g.kids i : Multiset Nat))) = g.L.val) (j : Nat) :
    ∀ i ∈ g.L, (g.kids i).count j ≤ ∑ x in g.L, (g.kids x).count j := by
  intro i hi
  exact @Finset.single_le_sum _ _ _ (fun x => (g.kids x).count j) g.L
    (fun _ _ => Nat.zero_le _) i hi

theorem ghost_kids_subset {g : Ghost}
    (hp : ((g.roots : Multiset Nat) + ∑ i in g.L, ((g.kids i : Multiset Nat))) = g.L.val) :
    ∀ i ∈ g.L, ∀ j ∈ g.kids i, j ∈ g.L := by
  intro i hi j hj
  have h := ghost_count g hp j
  have h1 : 0 < (g.kids i).count j := List.count_pos_iff_mem.mpr hj
  have h2 := ghost_kids_le_sum hp j i hi
  by_contra hn
  rw [if_neg hn] at h
  omega

theorem ghost_roots_nodup {g : Ghost}
    (hp : ((g.roots : Multiset Nat) + ∑ i in g.L, ((g.kids i : Multiset Nat))) = g.L.val) :
    g.roots.Nodup := by
  rw [List.nodup_iff_count_le_one]
  intro j
  have h := ghost_count g hp j
  by_cases hj : j ∈ g.L
  · rw [if_pos hj] at h
    omega
  · rw [if_neg hj] at h
    omega

theorem ghost_kids_nodup {g : Ghost}
    (hp : ((g.roots : Multiset Nat) + ∑ i in g.L, ((g.kids i : Multiset Nat))) = g.L.val) :
    ∀ i ∈ g.L, (g.kids i).Nodup := by
  intro i hi
  rw [List.nodup_iff_count_le_one]
  intro j
  have h := ghost_count g hp j
  have h2 := ghost_kids_le_sum hp j i hi
  by_cases hj : j ∈ g.L
  · rw [if_pos hj] at h
    omega
  · rw [if_neg hj] at h
    omega

theorem ghost_roots_kids_disj {g : Ghost}
    (hp : ((g.roots : Multiset Nat) + ∑ i in g.L, ((g.kids i : Multiset Nat))) = g.L.val) :
    ∀ i ∈ g.L, ∀ j ∈ g.kids i, j ∉ g.roots := by
  intro i hi j hj hro
  have h := ghost_count g hp j
  have h1 : 0 < (g.kids i).count j := List.count_pos_iff_mem.mpr hj
  have h2 := ghost_kids_le_sum hp j i hi
  have h3 : 0 < g.roots.count j := List.count_pos_iff_mem.mpr hro
  by_cases hj2 : j ∈ g.L
  · rw [if_pos hj2] at h
    omega
  · rw [if_neg hj2] at h
    omega

theorem ghost_kids_disj {g : Ghost}
    (hp : ((g.roots : Multiset Nat) + ∑ i in g.L, ((g.kids i : Multiset Nat))) = g.L.val) :
    ∀ i ∈ g.L, ∀ i2 ∈ g.L, i ≠ i2 → ∀ j ∈ g.kids i, j ∉ g.kids i2 := by
  intro i hi i2 hi2 hne j hj hj2
  have h := ghost_count g hp j
  have h1 : 0 < (g.kids i).count j := List.count_pos_iff_mem.mpr hj
  have h1x : 0 < (g.kids i2).count j := List.count_pos_iff_mem.mpr hj2
  have hsum : (g.kids i).count j + ∑ x in g.L.erase i, (g.kids x).count j =
      ∑ x in g.L, (g.kids x).count j :=
    Finset.add_sum_erase g.L (fun x => (g.kids x).count j) hi
  have hsub : (g.kids i2).count j ≤ ∑ x in g.L.erase i, (g.kids x).count j :=
    @Finset.single_le_sum _ _ _ (fun x => (g.kids x).count j) (g.L.erase i)
      (fun _ _ => Nat.zero_le _) i2
      (Finset.mem_erase.mpr ⟨fun h => hne h.symm, hi2⟩)
  by_cases hjL : j ∈ g.L
  · rw [if_pos hjL] at h
    omega
  · rw [if_neg hjL] at h
    omega

theorem ghost_mem_split {g : Ghost}
    (hp : ((g.roots : Multiset Nat) + ∑ i in g.L, ((g.kids i : Multiset Nat))) = g.L.val) :
    ∀ j ∈ g.L, j ∈ g.roots ∨ ∃ i ∈ g.L, j ∈ g.kids i := by
  intro j hj
  have h := ghost_count g hp j
  rw [if_pos hj] at h
  by_cases hro : j ∈ g.roots
  · exact Or.inl hro
  · right
    have h3 : g.roots.count j = 0 := List.count_eq_zero.mpr hro
    rw [h3] at h
    have h4 : ∃ i ∈ g.L, (g.kids i).count j ≠ 0 := by
      by_contra hc
      push_neg at hc
      have : ∑ x in g.L, (g.kids x).count j = 0 :=
        Finset.sum_eq_zero (fun x hx => hc x hx)
      omega
    obtain ⟨i, hi, hc⟩ := h4
    exact ⟨i, hi, List.count_pos_iff_mem.mp (Nat.pos_of_ne_zero hc)⟩

/-- In a well-formed non-empty heap the root list is non-empty: a live
node of maximal rank cannot be anyone's child. -/
theorem ghost_roots_nonempty {g : Ghost}
    (hp : ((g.roots : Multiset Nat) + ∑ i in g.L, ((g.kids i : Multiset Nat))) = g.L.val)
    (hrnk : ∀ i ∈ g.L, ∀ j ∈ g.kids i, g.rnk j < g.rnk i)
    (hne : g.L.Nonempty) : g.roots ≠ [] := by
  obtain ⟨j, hj, hmax⟩ := Finset.exists_max_image g.L g.rnk hne
  rcases ghost_mem_split hp j hj with hro | ⟨i, hi, hk⟩
  · intro h
    rw [h] at hro
    exact absurd hro (List.not_mem_nil j)
  · have h1 := hrnk i hi j hk
    have h2 := hmax i hi
    omega

/-- Every live node's priority is bounded below by some root's priority. -/
theorem ghost_root_above {a f g} (hg : ghostOK a f g) :
    ∀ N j, j ∈ g.L → (g.L.filter (fun x => g.rnk j < g.rnk x)).card ≤ N →
    ∃ r ∈ g.roots,
      Prior.ble (getN a r).priority (getN a j).priority = true := by
  intro N
  induction N with
  | zero =>
    intro j hj hcard
    rcases ghost_mem_split hg.partEq j hj with hro | ⟨i, hi, hk⟩
    · exact ⟨j, hro, Prior.ble_refl _⟩
    · exfalso
      have h1 := hg.rnkLt i hi j hk
      have : i ∈ g.L.filter (fun x => g.rnk j < g.rnk x) :=
        Finset.mem_filter.mpr ⟨hi, h1⟩
      have := Finset.card_pos.mpr ⟨i, this⟩
      omega
  | succ n ih =>
    intro j hj hcard
    rcases ghost_mem_split hg.partEq j hj with hro | ⟨i, hi, hk⟩
    · exact ⟨j, hro, Prior.ble_refl _⟩
    · have h1 := hg.rnkLt i hi j hk
      have hsub : g.L.filter (fun x => g.rnk i < g.rnk x) ⊂
          g.L.filter (fun x => g.rnk j < g.rnk x) := by
        constructor
        · intro x hx
          rw [Finset.mem_filter] at hx ⊢
          exact ⟨hx.1, lt_trans h1 hx.2⟩
        · intro hcon
          have : i ∈ g.L.filter (fun x => g.rnk j < g.rnk x) :=
            Finset.mem_filter.mpr ⟨hi, h1⟩
          have h2 := hcon this
          rw [Finset.mem_filter] at h2
          omega
      have hcard2 : (g.L.filter (fun x => g.rnk i < g.rnk x)).card ≤ n := by
        have := Finset.card_lt_card hsub
        omega
      obtain ⟨r, hr, hble⟩ := ih i hi hcard2
      exact ⟨r, hr, Prior.ble_trans hble (hg.heapLe i hi j hk)⟩

/-- The min pointer of a well-formed heap is at most every live node. -/
theorem ghost_min_le_all {a f g} (hg : ghostOK a f g)
    (m : Nat) (hm : g.roots.head? = some m) :
    ∀ j ∈ g.L, Prior.ble (getN a m).priority (getN a j).priority = true := by
  intro j hj
  obtain ⟨r, hr, hble⟩ := ghost_root_above hg
    (g.L.filter (fun x => g.rnk j < g.rnk x)).card j hj (le_refl _)
  exact Prior.ble_trans (hg.minLe m hm r hr) hble

/-! ### Enqueue preserves well-formedness -/

theorem memLen_append (a : Mem) (x : Node) :
    memLen (a ++ [x]) = memLen a + 1 := by
  simp [memLen]

theorem getN_append_lt (a : Mem) (x : Node) (j : Nat) (h : j < memLen a) :
    getN (a ++ [x]) j = getN a j := by
  simp only [getN]
  rw [List.getD_append _ _ _ _ h]

theorem getN_append_self (a : Mem) (x : Node) :
    getN (a ++ [x]) (memLen a) = x := by
  simp only [getN, memLen]
  rw [List.getD_eq_getElem?_getD, List.getElem?_append_right (le_refl _)]
  simp

/-- The empty heap is well-formed. -/
theorem ghostOK_empty :
    ghostOK [] emptyHeap ⟨∅, [], fun _ => [], fun _ => 0⟩ := by
  refine ⟨?_, ?_, ?_, ?_, ?_, ?_, ?_, ?_, ?_, ?_, ?_, ?_, ?_⟩ <;>
    simp [isRing, emptyHeap]

theorem Enqueue_spec (a : Mem) (f : FibHeap) (g : Ghost) (hg : ghostOK a f g)
    (el : Nat) (p : Prior) :
    ∃ a' f' g', Enqueue a f el p = (a', f', memLen a) ∧
      ghostOK a' f' g' ∧
      g'.L = insert (memLen a) g.L ∧
      g'.rnk = g.rnk ∧
      memLen a' = memLen a + 1 ∧
      (∀ j ∈ g.L, (getN a' j).priority = (getN a j).priority) ∧
      (getN a' (memLen a)).priority = p ∧
      f'.size = f.size + 1 := by
  have hidx : memLen a ∉ g.L := fun h => lt_irrefl _ (hg.valid _ h)
  obtain ⟨a1, ha1⟩ : ∃ a1 : Mem, a ++ [newEntry el p (memLen a)] = a1 := ⟨_, rfl⟩
  have hlen1 : memLen a1 = memLen a + 1 := by rw [← ha1, memLen_append]
  have hmem1 : ∀ j ∈ g.L, j < memLen a1 := by
    intro j hj
    rw [hlen1]
    exact Nat.lt_succ_of_lt (hg.valid j hj)
  have hnew : getN a1 (memLen a) = newEntry el p (memLen a) := by
    rw [← ha1]; exact getN_append_self a _
  have hold : ∀ j, j < memLen a → getN a1 j = getN a j := by
    intro j hj
    rw [← ha1]; exact getN_append_lt a _ j hj
  have holdL : ∀ j ∈ g.L, getN a1 j = getN a j := fun j hj => hold j (hg.valid j hj)
  have hringIdx : isRing a1 [memLen a] :=
    isRing_singleton _ _ (by rw [hnew]; rfl) (by rw [hnew]; rfl)
  cases hmin : f.min with
  | none =>
    -- empty heap: no roots, no live nodes
    have hroots : g.roots = [] := by
      have h := hg.minHead
      rw [hmin] at h
      cases hr : g.roots with
      | nil => rfl
      | cons r rx => rw [hr] at h; simp at h
    have hLempty : g.L = ∅ := by
      by_contra hne
      exact ghost_roots_nonempty hg.partEq hg.rnkLt (Finset.nonempty_iff_ne_empty.mpr hne) hroots
    refine ⟨a1, { min := some (memLen a), size := f.size + 1 },
      ⟨insert (memLen a) g.L, [memLen a],
        fun i => if i = memLen a then [] else g.kids i, g.rnk⟩,
      ?_, ?_, rfl, rfl, hlen1, ?_, ?_, rfl⟩
    · show Enqueue a f el p = _
      simp only [Enqueue, hmin, mergeLists, List.append_eq]
      rw [ha1]
    · refine ⟨?_, ?_, ?_, ?_, ?_, ?_, ?_, ?_, ?_, ?_, ?_, ?_, ?_⟩
      · simp only [hLempty]
        simp
      · intro i hi
        rw [hLempty] at hi
        simp at hi
        rw [hi, hlen1]
        omega
      · exact hringIdx
      · intro i hi
        rw [hLempty] at hi
        simp at hi
        simp [hi, isRing]
      · intro i hi
        simp at hi
        rw [hi, hnew]
        rfl
      · intro i hi
        rw [hLempty] at hi
        simp at hi
        subst hi
        intro j hj
        simp at hj
      · intro i hi
        rw [hLempty] at hi
        simp at hi
        subst hi
        rw [hnew]
        simp [newEntry]
      · intro i hi
        rw [hLempty] at hi
        simp at hi
        subst hi
        rw [hnew]
        simp [newEntry]
      · intro i hi
        rw [hLempty] at hi
        simp at hi
        subst hi
        intro j hj
        simp at hj
      · intro i hi
        rw [hLempty] at hi
        simp at hi
        subst hi
        intro j hj
        simp at hj
      · rfl
      · intro m hm j hj
        simp at hm hj
        rw [hj, ← hm]
        exact Prior.ble_refl _
      · show f.size + 1 = (insert (memLen a) g.L).card
        rw [Finset.card_insert_of_not_mem hidx, hg.sizeEq]
    · intro j hj
      rw [hLempty] at hj
      simp at hj
    · rw [hnew]
      rfl
  | some m =>
    obtain ⟨rx, hroots⟩ : ∃ rx, g.roots = m :: rx := by
      have h := hg.minHead
      rw [hmin] at h
      cases hr : g.roots with
      | nil => rw [hr] at h; simp at h
      | cons r rs =>
        rw [hr] at h
        simp at h
        exact ⟨rs, by rw [h]⟩
    have hrootsL : ∀ j ∈ g.roots, j ∈ g.L := ghost_roots_subset hg.partEq
    have hmL : m ∈ g.L := hrootsL m (by rw [hroots]; simp)
    have hidx_roots : memLen a ∉ g.roots := fun h => hidx (hrootsL _ h)
    -- splice the fresh singleton into the root ring
    have hring1 : isRing a1 (m :: rx) := by
      rw [← hroots]
      exact isRing_congr a a1 g.roots
        (fun i hi => by rw [holdL i (hrootsL i hi)]; exact ⟨rfl, rfl⟩) hg.rootRing
    have hnd : ((m :: rx) ++ ((memLen a) :: ([] : List Nat))).Nodup := by
      rw [List.nodup_append]
      refine ⟨by rw [← hroots]; exact ghost_roots_nodup hg.partEq, by simp, ?_⟩
      intro x hx hx2
      simp at hx2
      rw [hx2] at hx
      exact hidx_roots (hroots ▸ hx)
    have hv1 : ∀ i ∈ (m :: rx) ++ ((memLen a) :: ([] : List Nat)), i < memLen a1 := by
      intro i hi
      rw [List.mem_append] at hi
      rcases hi with hi | hi
      · exact hmem1 i (hrootsL i (hroots ▸ hi))
      · simp at hi
        rw [hi, hlen1]
        omega
    obtain ⟨a', heq, hlen', hring', hfields', hout'⟩ :=
      mergeLists_spec a1 m (memLen a) rx [] hring1 hringIdx hnd hv1
    have hprioM : (getN a1 m).priority = (getN a m).priority := by
      rw [holdL m hmL]
    have hprioIdx : (getN a1 (memLen a)).priority = p := by
      rw [hnew]
      rfl
    rw [hprioM, hprioIdx] at heq
    -- fields of the result, composed through both steps
    have hfieldsL : ∀ j ∈ g.L, (getN a' j).parent = (getN a j).parent ∧
        (getN a' j).child = (getN a j).child ∧
        (getN a' j).degree = (getN a j).degree ∧
        (getN a' j).marked = (getN a j).marked ∧
        (getN a' j).priority = (getN a j).priority ∧
        (getN a' j).element = (getN a j).element := by
      intro j hj
      have h1 := hfields' j
      rw [holdL j hj] at h1
      exact h1
    have houtL : ∀ j ∈ g.L, j ∉ g.roots → getN a' j = getN a j := by
      intro j hj hjr
      rw [hout' j, holdL j hj]
      intro hc
      rw [List.mem_append] at hc
      rcases hc with hc | hc
      · exact hjr (hroots ▸ hc)
      · simp at hc
        exact hidx (hc ▸ hj)
    refine ⟨a', { min := if Prior.blt (getN a m).priority p then some m
                          else some (memLen a), size := f.size + 1 },
      ⟨insert (memLen a) g.L,
        if Prior.blt (getN a m).priority p then m :: (memLen a) :: rx
        else (memLen a) :: (rx ++ [m]),
        fun i => if i = memLen a then [] else g.kids i, g.rnk⟩,
      ?_, ?_, rfl, rfl, by rw [hlen', hlen1], ?_, ?_, rfl⟩
    · show Enqueue a f el p = _
      simp only [Enqueue, hmin, List.append_eq]
      rw [ha1, heq]
    · have hringBase : isRing a' (m :: (memLen a) :: rx) := by
        simpa using hring'
      have hringRot : isRing a' ((memLen a) :: (rx ++ [m])) := by
        have := isRing_rotate_one a' m ((memLen a) :: rx) hringBase
        simpa using this
      have hrootMS : ∀ (c : Bool), ((if c = true then m :: (memLen a) :: rx
          else (memLen a) :: (rx ++ [m]) : List Nat) : Multiset Nat) =
          (memLen a) ::ₘ (g.roots : Multiset Nat) := by
        intro c
        rw [hroots]
        cases c with
        | true =>
          simp only [if_pos rfl]
          show ((m :: (memLen a) :: rx : List Nat) : Multiset Nat) = _
          simp only [Multiset.cons_coe]
          exact Quot.sound (List.Perm.swap _ _ _)
        | false =>
          simp only [Bool.false_eq_true, if_neg]
          show (((memLen a) :: (rx ++ [m]) : List Nat) : Multiset Nat) = _
          simp only [Multiset.cons_coe]
          exact Quot.sound (List.Perm.cons _ (List.perm_append_singleton m rx))
      refine ⟨?_, ?_, ?_, ?_, ?_, ?_, ?_, ?_, ?_, ?_, ?_, ?_, ?_⟩ <;> dsimp only
      · -- partition
        show (_ + ∑ i in insert (memLen a) g.L, _) = _
        rw [Finset.sum_insert hidx]
        simp only [if_pos rfl]
        have hsum : ∑ i in g.L, ((if i = memLen a then ([] : List Nat)
            else g.kids i : List Nat) : Multiset Nat) =
            ∑ i in g.L, ((g.kids i : List Nat) : Multiset Nat) := by
          apply Finset.sum_congr rfl
          intro i hi
          rw [if_neg (fun (h : i = memLen a) => hidx (h ▸ hi))]
        rw [hsum]
        have hcoe : ((if Prior.blt (getN a m).priority p = true
            then m :: (memLen a) :: rx
            else (memLen a) :: (rx ++ [m]) : List Nat) : Multiset Nat) =
            (memLen a) ::ₘ (g.roots : Multiset Nat) := by
          by_cases hc : Prior.blt (getN a m).priority p = true
          · rw [if_pos hc]
            have := hrootMS true
            simpa using this
          · rw [if_neg hc]
            have := hrootMS false
            simpa using this
        rw [hcoe, Finset.insert_val, Multiset.ndinsert_of_not_mem hidx]
        have hp := hg.partEq
        simp only [if_true, Multiset.coe_nil, zero_add, ← Multiset.cons_coe,
          Multiset.cons_add]
        rw [hp]
      · intro i hi
        rw [hlen', hlen1]
        rw [Finset.mem_insert] at hi
        rcases hi with hi | hi
        · omega
        · exact Nat.lt_succ_of_lt (hg.valid i hi)
      · by_cases hc : Prior.blt (getN a m).priority p = true
        · rw [if_pos hc]
          simpa using hring'
        · rw [if_neg hc]
          have hbase : isRing a' (m :: (memLen a) :: rx) := by simpa using hring'
          have hrot := isRing_rotate_one a' m ((memLen a) :: rx) hbase
          simpa using hrot
      · intro i hi
        rw [Finset.mem_insert] at hi
        rcases hi with hi | hi
        · subst hi
          simp [isRing]
        · rw [if_neg (fun (h : i = memLen a) => hidx (h ▸ hi))]
          refine isRing_congr a a' (g.kids i) ?_ (hg.kidRing i hi)
          intro j hj
          have hjL : j ∈ g.L := ghost_kids_subset hg.partEq i hi j hj
          have hjr : j ∉ g.roots := ghost_roots_kids_disj hg.partEq i hi j hj
          rw [houtL j hjL hjr]
          exact ⟨rfl, rfl⟩
      · -- roots are parentless
        have hpar : ∀ i, i = memLen a ∨ i ∈ g.roots → (getN a' i).parent = none := by
          intro i hi
          rcases hi with rfl | hir
          · rw [(hfields' (memLen a)).1, hnew]
            rfl
          · rw [(hfieldsL i (hrootsL i hir)).1]
            exact hg.rootPar i hir
        intro i hi
        by_cases hc : Prior.blt (getN a m).priority p = true
        · rw [if_pos hc] at hi
          simp only [List.mem_cons] at hi
          rcases hi with h1 | h1 | h1
          · rw [h1]
            exact hpar m (Or.inr (by rw [hroots]; exact List.mem_cons_self _ _))
          · rw [h1]
            exact hpar (memLen a) (Or.inl rfl)
          · exact hpar i (Or.inr (by
              rw [hroots]
              exact List.mem_cons_of_mem m h1))
        · rw [if_neg hc] at hi
          simp only [List.mem_cons, List.mem_append, List.mem_singleton,
            List.not_mem_nil, or_false] at hi
          rcases hi with h1 | h1 | h1
          · rw [h1]
            exact hpar (memLen a) (Or.inl rfl)
          · exact hpar i (Or.inr (by
              rw [hroots]
              exact List.mem_cons_of_mem m h1))
          · rw [h1]
            exact hpar m (Or.inr (by rw [hroots]; exact List.mem_cons_self _ _))
      · intro i hi j hj
        rw [Finset.mem_insert] at hi
        rcases hi with rfl | hi
        · rw [if_pos rfl] at hj
          simp at hj
        · rw [if_neg (fun (h : i = memLen a) => hidx (h ▸ hi))] at hj
          rw [(hfieldsL j (ghost_kids_subset hg.partEq i hi j hj)).1]
          exact hg.kidPar i hi j hj
      · intro i hi
        rw [Finset.mem_insert] at hi
        rcases hi with rfl | hi
        · rw [if_pos rfl, (hfields' (memLen a)).2.1, hnew]
          rfl
        · rw [if_neg (fun (h : i = memLen a) => hidx (h ▸ hi)), (hfieldsL i hi).2.1]
          exact hg.childEq i hi
      · intro i hi
        rw [Finset.mem_insert] at hi
        rcases hi with rfl | hi
        · rw [if_pos rfl, (hfields' (memLen a)).2.2.1, hnew]
          rfl
        · rw [if_neg (fun (h : i = memLen a) => hidx (h ▸ hi)), (hfieldsL i hi).2.2.1]
          exact hg.degEq i hi
      · intro i hi j hj
        rw [Finset.mem_insert] at hi
        rcases hi with rfl | hi
        · rw [if_pos rfl] at hj
          simp at hj
        · rw [if_neg (fun (h : i = memLen a) => hidx (h ▸ hi))] at hj
          exact hg.rnkLt i hi j hj
      · intro i hi j hj
        rw [Finset.mem_insert] at hi
        rcases hi with rfl | hi
        · rw [if_pos rfl] at hj
          simp at hj
        · rw [if_neg (fun (h : i = memLen a) => hidx (h ▸ hi))] at hj
          rw [(hfieldsL i hi).2.2.2.2.1,
            (hfieldsL j (ghost_kids_subset hg.partEq i hi j hj)).2.2.2.2.1]
          exact hg.heapLe i hi j hj
      · by_cases hc : Prior.blt (getN a m).priority p = true
        · rw [if_pos hc]
          show some m = _
          rw [if_pos hc]
          rfl
        · rw [if_neg hc]
          show some (memLen a) = _
          rw [if_neg hc]
          rfl
      · -- min is at most every root
        have hprio_at : ∀ j, j = memLen a ∨ j ∈ g.roots →
            (getN a' j).priority = (if j = memLen a then p else (getN a j).priority) := by
          intro j hj
          rcases hj with rfl | hjr
          · rw [if_pos rfl, (hfields' (memLen a)).2.2.2.2.1, hnew]
            rfl
          · by_cases hje : j = memLen a
            · rw [if_pos hje, hje, (hfields' (memLen a)).2.2.2.2.1, hnew]
              rfl
            · rw [if_neg hje]
              exact (hfieldsL j (hrootsL j hjr)).2.2.2.2.1
        have hminOld : ∀ j ∈ g.roots,
            Prior.ble (getN a m).priority (getN a j).priority = true :=
          hg.minLe m (by rw [hroots]; rfl)
        intro mh hmh j hj
        by_cases hc : Prior.blt (getN a m).priority p = true
        · rw [if_pos hc] at hmh hj
          have hmhm : mh = m := by
            simp only [List.head?_cons, Option.mem_def, Option.some.injEq] at hmh
            exact hmh.symm
          simp only [List.mem_cons] at hj
          have hmroots : m ∈ g.roots := by
            rw [hroots]
            exact List.mem_cons_self _ _
          have hmprio : (getN a' mh).priority = (getN a m).priority := by
            rw [hmhm, hprio_at m (Or.inr hmroots),
              if_neg (fun (h : m = memLen a) => hidx_roots (h ▸ hmroots))]
          rcases hj with h1 | h1 | h1
          · rw [h1, hmhm]
            exact Prior.ble_refl _
          · rw [hmprio, h1, hprio_at (memLen a) (Or.inl rfl), if_pos rfl]
            exact Prior.blt_ble hc
          · have hjr : j ∈ g.roots := by
              rw [hroots]
              exact List.mem_cons_of_mem m h1
            rw [hmprio, hprio_at j (Or.inr hjr),
              if_neg (fun (h : j = memLen a) => hidx_roots (h ▸ hjr))]
            exact hminOld j hjr
        · rw [if_neg hc] at hmh hj
          have hmhm : mh = memLen a := by
            simp only [List.head?_cons, Option.mem_def, Option.some.injEq] at hmh
            exact hmh.symm
          simp only [List.mem_cons, List.mem_append, List.mem_singleton,
            List.not_mem_nil, or_false] at hj
          have hmprio : (getN a' mh).priority = p := by
            rw [hmhm, hprio_at (memLen a) (Or.inl rfl), if_pos rfl]
          have hpm : Prior.ble p (getN a m).priority = true :=
            Prior.ble_of_not_blt (fun h => hc h)
          rcases hj with h1 | h1 | h1
          · rw [h1, hmhm]
            exact Prior.ble_refl _
          · have hjr : j ∈ g.roots := by
              rw [hroots]
              exact List.mem_cons_of_mem m h1
            rw [hmprio, hprio_at j (Or.inr hjr),
              if_neg (fun (h : j = memLen a) => hidx_roots (h ▸ hjr))]
            exact Prior.ble_trans hpm (hminOld j hjr)
          · have hjr : j ∈ g.roots := by
              rw [hroots, h1]
              exact List.mem_cons_self _ _
            rw [hmprio, hprio_at j (Or.inr hjr),
              if_neg (fun (h : j = memLen a) => hidx_roots (h ▸ hjr))]
            exact Prior.ble_trans hpm (hminOld j hjr)
      · show f.size + 1 = (insert (memLen a) g.L).card
        rw [Finset.card_insert_of_not_mem hidx, hg.sizeEq]
    · intro j hj
      exact (hfieldsL j hj).2.2.2.2.1
    · rw [(hfields' (memLen a)).2.2.2.2.1, hnew]
      rfl

theorem marked_mergeLists (a : Mem) (one two : Option Nat) (k : Nat) :
    (getN (mergeLists a one two).1 k).marked = (getN a k).marked := by
  cases one with
  | none => cases two with
    | none => rfl
    | some t => rfl
  | some o => cases two with
    | none => rfl
    | some t =>
      simp only [mergeLists]
      split <;> simp

theorem marked_clearParents :
    ∀ (fuel : Nat) (a : Mem) (c s : Nat) (a' : Mem),
      clearParents fuel a c s = some a' →
      ∀ k, (getN a' k).marked = (getN a k).marked
  | 0, a, c, s, a', h => by simp [clearParents] at h
  | fuel+1, a, c, s, a', h => by
    simp only [clearParents] at h
    split at h
    · cases h
      intro k
      simp
    · intro k
      rw [marked_clearParents fuel _ _ _ a' h k]
      simp

theorem marked_wMfalse (a : Mem) (i k : Nat) :
    (getN (updN a i fun n => { n with marked := false }) k).marked = true →
    (getN a k).marked = true := by
  by_cases hk : k = i
  · subst hk
    by_cases hl : k < memLen a
    · rw [getN_updN_self _ _ _ hl]
      intro h
      cases h
    · rw [getN_updN_out _ _ _ (Nat.le_of_not_lt hl)]
      exact id
  · rw [getN_updN_ne _ _ _ _ hk]
    exact id

theorem marked_consolidateStep :
    ∀ (fuel : Nat) (a : Mem) (tt : List (Option Nat)) (v : Nat)
      (a' : Mem) (tt' : List (Option Nat)) (c' : Nat),
      consolidateStep fuel a tt v = some (a', tt', c') →
      ∀ k, (getN a' k).marked = true → (getN a k).marked = true
  | 0, a, tt, v, a', tt', c', h => by simp [consolidateStep] at h
  | fuel+1, a, tt, v, a', tt', c', h => by
    simp only [consolidateStep] at h
    split at h
    · cases h
      exact fun k hk => hk
    · intro k hk
      have hrec := marked_consolidateStep fuel _ _ _ a' tt' c' h k hk
      rw [wDegInc_marked] at hrec
      have hrec2 := marked_wMfalse _ _ _ hrec
      rw [wPar_marked, wC_marked, marked_mergeLists, wNP_marked, wN_marked,
        wP_marked] at hrec2
      exact hrec2

theorem marked_consolidateAll :
    ∀ (toVisit : List Nat) (a : Mem) (tt : List (Option Nat)) (fmin : Nat)
      (fuel : Nat) (a' : Mem) (tt' : List (Option Nat)) (fm : Nat),
      consolidateAll a tt fmin toVisit fuel = some (a', tt', fm) →
      ∀ k, (getN a' k).marked = true → (getN a k).marked = true
  | [], a, tt, fmin, fuel, a', tt', fm, h => by
    simp only [consolidateAll] at h
    cases h
    exact fun k hk => hk
  | v :: rest, a, tt, fmin, fuel, a', tt', fm, h => by
    simp only [consolidateAll] at h
    cases hstep : consolidateStep fuel a tt v with
    | none => rw [hstep] at h; cases h
    | some r =>
      rw [hstep] at h
      intro k hk
      exact marked_consolidateStep fuel a tt v r.1 r.2.1 r.2.2
        (by rw [hstep]) k
        (marked_consolidateAll rest r.1 r.2.1 _ fuel a' tt' fm h k hk)

theorem marked_removeMin (a : Mem) (minElem : Nat) (k : Nat) :
    (getN (removeMinFromRoots a minElem).1 k).marked = (getN a k).marked := by
  simp only [removeMinFromRoots]
  split
  · rfl
  · simp

theorem marked_DequeueMin (a : Mem) (f : FibHeap) (a' : Mem) (f' : FibHeap)
    (r : Option Nat) (h : DequeueMin a f = some (a', f', r)) :
    ∀ k, (getN a' k).marked = true → (getN a k).marked = true := by
  intro k hk
  simp only [DequeueMin] at h
  split at h
  · cases h
    exact hk
  · split at h
    · cases h
    · rename_i minElem hfmin
      cases hs2 : (match (getN (removeMinFromRoots a minElem).1 minElem).child with
        | none => some (removeMinFromRoots a minElem).1
        | some c => clearParents (memLen (removeMinFromRoots a minElem).1 + 1)
            (removeMinFromRoots a minElem).1 c c) with
      | none => rw [hs2] at h; cases h
      | some a2 =>
        rw [hs2] at h
        dsimp only at h
        have hm2 : ∀ k, (getN a2 k).marked = true → (getN a k).marked = true := by
          intro k2 hk2
          cases hc : (getN (removeMinFromRoots a minElem).1 minElem).child with
          | none =>
            rw [hc] at hs2
            cases hs2
            rw [marked_removeMin] at hk2
            exact hk2
          | some c =>
            rw [hc] at hs2
            rw [← marked_removeMin a minElem k2]
            rw [← marked_clearParents _ _ _ _ _ hs2 k2]
            exact hk2
        cases hmr32 : (mergeLists a2 (removeMinFromRoots a minElem).2
            (getN a2 minElem).child).2 with
        | none =>
          rw [hmr32] at h
          cases h
          rw [marked_mergeLists] at hk
          exact hm2 k hk
        | some m0 =>
          rw [hmr32] at h
          dsimp only at h
          cases hcr : collectRing
              (memLen (mergeLists a2 (removeMinFromRoots a minElem).2
                (getN a2 minElem).child).1 + 1)
              (mergeLists a2 (removeMinFromRoots a minElem).2
                (getN a2 minElem).child).1 m0 m0 with
          | none =>
            rw [hcr] at h
            cases h
          | some tv =>
            rw [hcr] at h
            dsimp only at h
            cases hca : consolidateAll
                (mergeLists a2 (removeMinFromRoots a minElem).2
                  (getN a2 minElem).child).1 [] m0 tv
                (memLen (mergeLists a2 (removeMinFromRoots a minElem).2
                  (getN a2 minElem).child).1 + 1) with
            | none =>
              rw [hca] at h
              cases h
            | some r3 =>
              rw [hca] at h
              cases h
              have := marked_consolidateAll tv _ [] m0 _ r3.1 r3.2.1 r3.2.2
                (by rw [hca]) k hk
              rw [marked_mergeLists] at this
              exact hm2 k this

theorem getN_out (a : Mem) (k : Nat) (h : memLen a ≤ k) : getN a k = default := by
  simp only [getN]
  exact List.getD_eq_default _ _ h

theorem unmarked_Enqueue (a : Mem) (f : FibHeap) (el : Nat) (p : Prior)
    (h : allUnmarked a) : allUnmarked (Enqueue a f el p).1 := by
  intro k
  simp only [Enqueue, List.append_eq]
  rw [marked_mergeLists]
  by_cases hk : k < memLen a
  · rw [getN_append_lt _ _ _ hk]
    exact h k
  · by_cases hk2 : k = memLen a
    · rw [hk2, getN_append_self]
      rfl
    · rw [getN_out _ k (by rw [memLen_append]; omega)]
      rfl

theorem unmarked_DequeueMin (a : Mem) (f : FibHeap) (a' : Mem) (f' : FibHeap)
    (r : Option Nat) (h : allUnmarked a) (hd : DequeueMin a f = some (a', f', r)) :
    allUnmarked a' := by
  intro k
  cases hv : (getN a' k).marked with
  | false => rfl
  | true => exact absurd (marked_DequeueMin a f a' f' r hd k hv) (by rw [h k]; simp)

theorem unmarked_MergeFibHeap (a : Mem) (one two : FibHeap)
    (h : allUnmarked a) : allUnmarked (MergeFibHeap a one two).1 := by
  intro k
  simp only [MergeFibHeap]
  rw [marked_mergeLists]
  exact h k

/-- C4 fails on the code: after the public-operation trace of
`markedRootTrace`, node 1 is a root (`parent = none`) and is marked.  The
Go `cutNode` marks `e.parent` without checking whether that parent is a
root. -/
theorem C4_counterexample :
    Option.map (fun s => ((getN s.1 1).parent, (getN s.1 1).marked, s.2.min))
      markedRootTrace = some (none, true, some 2) := by
  rfl

/-- C4 (amended): the code can leave a root marked: `cutNode` marks the
parent of a cut node even when that parent is a root, so `DecreaseKey` and
`Delete` do not preserve the invariant.  What holds instead: marks are set
only by the cut path, so every public operation other than `DecreaseKey`
and `Delete` — `Enqueue`, `Min`, `Len` (which do not touch marks at all),
`DequeueMin` and `MergeFibHeap` — preserves the invariant that no node
whatsoever (in particular no root) is marked, and the empty initial state
satisfies it. -/
theorem C4_unmarked_preservation :
    (∀ (a : Mem) (f : FibHeap) (el : Nat) (p : Prior),
      allUnmarked a → allUnmarked (Enqueue a f el p).1) ∧
    (∀ (a : Mem) (f : FibHeap) (a' : Mem) (f' : FibHeap) (r : Option Nat),
      allUnmarked a → DequeueMin a f = some (a', f', r) → allUnmarked a') ∧
    (∀ (a : Mem) (one two : FibHeap),
      allUnmarked a → allUnmarked (MergeFibHeap a one two).1) ∧
    allUnmarked ([] : Mem) :=
  ⟨unmarked_Enqueue, fun a f a' f' r h hd => unmarked_DequeueMin a f a' f' r h hd,
   unmarked_MergeFibHeap, fun _ => rfl⟩

theorem C4_unmarked_preservation_witness :
    allUnmarked (Enqueue [] emptyHeap 0 (Prior.fin 5)).1 ∧
    allUnmarked (MergeFibHeap [] emptyHeap emptyHeap).1 :=
  ⟨C4_unmarked_preservation.1 [] emptyHeap 0 (Prior.fin 5) (fun _ => rfl),
   C4_unmarked_preservation.2.2.1 [] emptyHeap emptyHeap (fun _ => rfl)⟩

/-- C8: `DequeueMin` on an empty heap (size 0) returns Go `nil` (the
absent result) rather than an error, and performs no mutation at all: the
arena and the heap record come back unchanged (size still 0, min still
absent). -/
theorem C8_dequeue_empty (a : Mem) (f : FibHeap) (h : f.size = 0) :
    DequeueMin a f = some (a, f, none) := by
  simp [DequeueMin, h]

theorem C8_dequeue_empty_witness :
    DequeueMin [] emptyHeap = some ([], emptyHeap, none) :=
  C8_dequeue_empty [] emptyHeap rfl

/-- Transporting `cutOK` across an arena change that preserves length and
every structural field. -/
theorem cutOK_transport {a a' : Mem} {fmin : Option Nat} {g : Ghost} {x : Nat}
    {stale : Finset Nat}
    (hlen : memLen a' = memLen a)
    (hf : ∀ k, (getN a' k).next = (getN a k).next ∧
               (getN a' k).prev = (getN a k).prev ∧
               (getN a' k).parent = (getN a k).parent ∧
               (getN a' k).child = (getN a k).child ∧
               (getN a' k).degree = (getN a k).degree ∧
               (getN a' k).priority = (getN a k).priority)
    (h : cutOK a fmin g x stale) : cutOK a' fmin g x stale := by
  refine ⟨h.partEq, ?_, ?_, ?_, ?_, ?_, ?_, ?_, h.rnkLt, ?_, h.minHead, ?_⟩
  · intro i hi
    rw [hlen]
    exact h.valid i hi
  · exact isRing_congr a a' _ (fun i _ => ⟨(hf i).1, (hf i).2.1⟩) h.rootRing
  · exact fun i hi => isRing_congr a a' _ (fun j _ => ⟨(hf j).1, (hf j).2.1⟩)
      (h.kidRing i hi)
  · intro i hi hs
    rw [(hf i).2.2.1]
    exact h.rootPar i hi hs
  · intro i hi j hj
    rw [(hf j).2.2.1]
    exact h.kidPar i hi j hj
  · intro i hi
    rw [(hf i).2.2.2.1]
    exact h.childEq i hi
  · intro i hi
    rw [(hf i).2.2.2.2.1]
    exact h.degEq i hi
  · intro i hi j hj hjx
    rw [(hf i).2.2.2.2.2, (hf j).2.2.2.2.2]
    exact h.heapLe i hi j hj hjx
  · intro m hm j hj
    rw [(hf m).2.2.2.2.2, (hf j).2.2.2.2.2]
    exact h.minLe m hm j hj

/-- The parent field of a live non-stale node determines its place. -/
theorem cutOK_parent_mem {a : Mem} {fmin : Option Nat} {g : Ghost} {x : Nat}
    {stale : Finset Nat} (h : cutOK a fmin g x stale)
    (e p : Nat) (he : e ∈ g.L) (hs : e ∉ stale)
    (hp : (getN a e).parent = some p) : p ∈ g.L ∧ e ∈ g.kids p := by
  rcases ghost_mem_split h.partEq e he with hro | ⟨i, hi, hk⟩
  · rw [h.rootPar e hro hs] at hp
    cases hp
  · have := h.kidPar i hi e hk
    rw [this] at hp
    cases hp
    exact ⟨hi, hk⟩

/-- The rank measure strictly decreases from child to parent. -/
theorem rnk_measure_lt {g : Ghost} {i j : Nat} (hi : i ∈ g.L)
    (hji : g.rnk j < g.rnk i) :
    (g.L.filter (fun y => g.rnk i < g.rnk y)).card <
      (g.L.filter (fun y => g.rnk j < g.rnk y)).card := by
  apply Finset.card_lt_card
  constructor
  · intro y hy
    rw [Finset.mem_filter] at hy ⊢
    exact ⟨hy.1, lt_trans hji hy.2⟩
  · intro hcon
    have : i ∈ g.L.filter (fun y => g.rnk j < g.rnk y) :=
      Finset.mem_filter.mpr ⟨hi, hji⟩
    have h2 := hcon this
    rw [Finset.mem_filter] at h2
    omega

/-- The rank measure is bounded by the arena length. -/
theorem rnk_measure_le {a : Mem} {g : Ghost}
    (hv : ∀ i ∈ g.L, i < memLen a) (e : Nat) :
    (g.L.filter (fun y => g.rnk e < g.rnk y)).card ≤ memLen a := by
  calc (g.L.filter (fun y => g.rnk e < g.rnk y)).card
      ≤ g.L.card := Finset.card_filter_le _ _
    _ ≤ (Finset.range (memLen a)).card :=
        Finset.card_le_card (fun i hi => Finset.mem_range.mpr (hv i hi))
    _ = memLen a := Finset.card_range _

/-- Partition surgery: moving `e` out of `kids p`. -/
theorem sum_kids_erase {g : Ghost} (p e : Nat) (hp : p ∈ g.L) (he : e ∈ g.kids p) :
    (∑ i in g.L, (((if i = p then (g.kids p).erase e else g.kids i : List Nat))
        : Multiset Nat)) + {e} =
      ∑ i in g.L, ((g.kids i : List Nat) : Multiset Nat) := by
  rw [← Finset.add_sum_erase g.L _ hp, ← Finset.add_sum_erase g.L
    (fun i => ((g.kids i : List Nat) : Multiset Nat)) hp]
  have h1 : ∑ i in g.L.erase p, (((if i = p then (g.kids p).erase e else g.kids i
      : List Nat)) : Multiset Nat) =
      ∑ i in g.L.erase p, ((g.kids i : List Nat) : Multiset Nat) := by
    apply Finset.sum_congr rfl
    intro i hi
    rw [if_neg (Finset.mem_erase.mp hi).1]
  rw [if_pos rfl, h1]
  have h2 : ((((g.kids p).erase e : List Nat)) : Multiset Nat) + {e} =
      ((g.kids p : List Nat) : Multiset Nat) := by
    rw [show ({e} : Multiset Nat) = e ::ₘ 0 from rfl]
    rw [add_comm]
    simp only [Multiset.cons_add, zero_add]
    rw [← Multiset.coe_erase]
    exact Multiset.cons_erase (show e ∈ ((g.kids p : List Nat) : Multiset Nat) by
      exact Multiset.mem_coe.mpr he)
  calc ((((g.kids p).erase e : List Nat)) : Multiset Nat) +
        (∑ i in g.L.erase p, ((g.kids i : List Nat) : Multiset Nat)) + {e}
      = ((((g.kids p).erase e : List Nat)) : Multiset Nat) + {e} +
        (∑ i in g.L.erase p, ((g.kids i : List Nat) : Multiset Nat)) := by
        rw [add_right_comm]
    _ = ((g.kids p : List Nat) : Multiset Nat) +
        (∑ i in g.L.erase p, ((g.kids i : List Nat) : Multiset Nat)) := by rw [h2]

/-- A `cutOK` whose heap-inequality exception is the out-of-arena index
holds with any exception. -/
theorem cutOK_full_x {a : Mem} {fmin : Option Nat} {g : Ghost}
    {stale : Finset Nat} (h : cutOK a fmin g (memLen a) stale) (x : Nat) :
    cutOK a fmin g x stale := by
  refine ⟨h.partEq, h.valid, h.rootRing, h.kidRing, h.rootPar, h.kidPar,
    h.childEq, h.degEq, h.rnkLt, ?_, h.minHead, h.minLe⟩
  intro i hi j hj _
  have hjL : j ∈ g.L := ghost_kids_subset h.partEq i hi j hj
  have : j < memLen a := h.valid j hjL
  exact h.heapLe i hi j hj (fun hc => by omega)

/-- Clearing the stale parent pointer of a node already in the root list. -/
theorem cutOK_clear_stale {a : Mem} {fmin : Option Nat} {g : Ghost}
    {stale : Finset Nat} (e : Nat) (he : e ∈ g.roots) (heLv : e < memLen a)
    (h : cutOK a fmin g (memLen a) (insert e stale)) :
    ∃ a', (updN a e fun n => { n with parent := none }) = a' ∧
      cutOK a' fmin g (memLen a') stale ∧ memLen a' = memLen a ∧
      (∀ k, (getN a' k).priority = (getN a k).priority) := by
  obtain ⟨a', ha'⟩ : ∃ a', (updN a e fun n => { n with parent := none }) = a' :=
    ⟨_, rfl⟩
  have hlen : memLen a' = memLen a := by rw [← ha', memLen_updN]
  have hfields : ∀ k, (getN a' k).next = (getN a k).next ∧
      (getN a' k).prev = (getN a k).prev ∧
      (getN a' k).child = (getN a k).child ∧
      (getN a' k).degree = (getN a k).degree ∧
      (getN a' k).priority = (getN a k).priority := by
    intro k
    simp [← ha']
  have hpar_ne : ∀ k, k ≠ e → (getN a' k).parent = (getN a k).parent := by
    intro k hk
    rw [← ha', getN_updN_ne _ _ _ _ hk]
  have hpar_e : (getN a' e).parent = none := by
    rw [← ha', getN_updN_self _ _ _ heLv]
  refine ⟨a', ha', ?_, hlen, fun k => (hfields k).2.2.2.2⟩
  refine ⟨h.partEq, ?_, ?_, ?_, ?_, ?_, ?_, ?_, h.rnkLt, ?_, h.minHead, ?_⟩
  · intro i hi
    rw [hlen]
    exact h.valid i hi
  · exact isRing_congr a a' _ (fun i _ => ⟨(hfields i).1, (hfields i).2.1⟩)
      h.rootRing
  · exact fun i hi => isRing_congr a a' _
      (fun j _ => ⟨(hfields j).1, (hfields j).2.1⟩) (h.kidRing i hi)
  · intro i hi hs
    by_cases hie : i = e
    · rw [hie, hpar_e]
    · rw [hpar_ne i hie]
      exact h.rootPar i hi (by
        rw [Finset.mem_insert]
        rintro (hc | hc)
        · exact hie hc
        · exact hs hc)
  · intro i hi j hj
    have hje : j ≠ e := fun hc =>
      ghost_roots_kids_disj h.partEq i hi j hj (hc ▸ he)
    rw [hpar_ne j hje]
    exact h.kidPar i hi j hj
  · intro i hi
    rw [(hfields i).2.2.1]
    exact h.childEq i hi
  · intro i hi
    rw [(hfields i).2.2.2.1]
    exact h.degEq i hi
  · intro i hi j hj hjx
    rw [(hfields i).2.2.2.2, (hfields j).2.2.2.2]
    rw [hlen] at hjx
    exact h.heapLe i hi j hj hjx
  · intro m hm j hj
    rw [(hfields m).2.2.2.2, (hfields j).2.2.2.2]
    exact h.minLe m hm j hj

/-- Specification of `cutTail`, assuming the splice stage has produced
`a3`: the child ring of `p` has lost `e`, `p`'s child pointer is fixed,
and nothing else structural has moved. -/
theorem cutTail_spec (fuel : Nat) (a a3 : Mem) (fmin : Option Nat)
    (g : Ghost) (stale : Finset Nat) (e p : Nat)
    (ih : ∀ (b : Mem) (bmin : Option Nat) (h : Ghost) (st : Finset Nat) (x : Nat),
      cutOK b bmin h x st → x ∈ h.L → x ∉ st →
      (∀ s ∈ st, h.rnk s < h.rnk x) →
      (h.L.filter (fun y => h.rnk x < h.rnk y)).card < fuel →
      ∃ b' bmin' h',
        cutNode fuel b bmin x = some (b', bmin') ∧
        cutOK b' bmin' h' (memLen b') st ∧
        h'.L = h.L ∧ h'.rnk = h.rnk ∧
        (∀ i, i ∈ h.roots → i ∈ h'.roots) ∧ x ∈ h'.roots ∧
        memLen b' = memLen b ∧
        (∀ k, (getN b' k).priority = (getN b k).priority))
    (hOK : cutOK a fmin g e stale)
    (heL : e ∈ g.L) (heS : e ∉ stale)
    (hstaleR : ∀ s ∈ stale, g.rnk s < g.rnk e)
    (hfuel : (g.L.filter (fun y => g.rnk e < g.rnk y)).card < fuel + 1)
    (hpL : p ∈ g.L) (hekp : e ∈ g.kids p)
    (hlen3 : memLen a3 = memLen a)
    (hring3 : isRing a3 ((g.kids p).erase e))
    (hfl3 : ∀ k, (getN a3 k).parent = (getN a k).parent ∧
          (getN a3 k).degree = (getN a k).degree ∧
          (getN a3 k).priority = (getN a k).priority ∧
          (getN a3 k).child =
            (if k = p then ((g.kids p).erase e).head? else (getN a k).child))
    (hfr3 : ∀ k, k ∉ g.kids p →
          (getN a3 k).next = (getN a k).next ∧
          (getN a3 k).prev = (getN a k).prev) :
    ∃ a' fmin' g',
      cutTail fuel a3 fmin e p = some (a', fmin') ∧
      cutOK a' fmin' g' (memLen a') stale ∧
      g'.L = g.L ∧ g'.rnk = g.rnk ∧
      (∀ i, i ∈ g.roots → i ∈ g'.roots) ∧ e ∈ g'.roots ∧
      memLen a' = memLen a ∧
      (∀ k, (getN a' k).priority = (getN a k).priority) := by
  have hrnk_ep : g.rnk e < g.rnk p := hOK.rnkLt p hpL e hekp
  have hpe : p ≠ e := fun h => by
    rw [h] at hrnk_ep
    omega
  have hkpN : (g.kids p).Nodup := ghost_kids_nodup hOK.partEq p hpL
  have heK : e ∉ (g.kids p).erase e := fun hc =>
    absurd ((List.Nodup.mem_erase_iff hkpN).mp hc).1 (fun h => h rfl)
  have hkcard : 0 < (g.kids p).length := List.length_pos.mpr
    (fun hc => by rw [hc] at hekp; cases hekp)
  have heLv : e < memLen a := hOK.valid e heL
  have hpLv : p < memLen a := hOK.valid p hpL
  -- the two writes before the merge
  obtain ⟨a4, ha4⟩ : ∃ a4 : Mem,
      updN a3 p (fun n => { n with degree := n.degree - 1 }) = a4 := ⟨_, rfl⟩
  obtain ⟨a5, ha5⟩ : ∃ a5 : Mem,
      updN a4 e (fun n => { n with prev := e, next := e }) = a5 := ⟨_, rfl⟩
  have hlen4 : memLen a4 = memLen a := by rw [← ha4, memLen_updN, hlen3]
  have hlen5 : memLen a5 = memLen a := by rw [← ha5, memLen_updN, hlen4]
  -- fields of a5 against the original arena
  have hpar5 : ∀ k, (getN a5 k).parent = (getN a k).parent := by
    intro k
    rw [← ha5, ← ha4]
    simp [(hfl3 k).1]
  have hprio5 : ∀ k, (getN a5 k).priority = (getN a k).priority := by
    intro k
    rw [← ha5, ← ha4]
    simp [(hfl3 k).2.2.1]
  have hchild5 : ∀ k, (getN a5 k).child =
      (if k = p then ((g.kids p).erase e).head? else (getN a k).child) := by
    intro k
    rw [← ha5, ← ha4]
    simp [(hfl3 k).2.2.2]
  have hdeg5 : ∀ k, k ≠ p → (getN a5 k).degree = (getN a k).degree := by
    intro k hk
    rw [← ha5, ← ha4]
    simp [getN_updN_ne _ _ _ _ hk, (hfl3 k).2.1]
  have hdeg5p : (getN a5 p).degree = ((g.kids p).erase e).length := by
    rw [← ha5]
    have : (getN a4 p).degree = ((g.kids p).erase e).length := by
      rw [← ha4, getN_updN_self _ _ _ (by rw [hlen3]; exact hpLv)]
      show (getN a3 p).degree - 1 = _
      rw [(hfl3 p).2.1, hOK.degEq p hpL, List.length_erase_of_mem hekp]
    simp [this]
  have hnp5 : ∀ k, k ∉ g.kids p → k ≠ e →
      (getN a5 k).next = (getN a k).next ∧
      (getN a5 k).prev = (getN a k).prev := by
    intro k hk hke
    constructor
    · rw [← ha5, getN_updN_ne _ _ _ _ hke, ← ha4, wDegDec_next]
      exact (hfr3 k hk).1
    · rw [← ha5, getN_updN_ne _ _ _ _ hke, ← ha4, wDegDec_prev]
      exact (hfr3 k hk).2
  have hringE5 : isRing a5 [e] := by
    refine isRing_singleton a5 e ?_ ?_ <;>
      rw [← ha5, getN_updN_self _ _ _ (by rw [hlen4]; exact heLv)]
  have hringErase5 : isRing a5 ((g.kids p).erase e) := by
    refine isRing_congr a3 a5 _ ?_ hring3
    intro j hj
    have hje : j ≠ e := fun hc => heK (hc ▸ hj)
    constructor
    · rw [← ha5, getN_updN_ne _ _ _ _ hje, ← ha4, wDegDec_next]
    · rw [← ha5, getN_updN_ne _ _ _ _ hje, ← ha4, wDegDec_prev]
  have he_roots : e ∉ g.roots := ghost_roots_kids_disj hOK.partEq p hpL e hekp
  have hkpL : ∀ j ∈ g.kids p, j ∈ g.L := ghost_kids_subset hOK.partEq p hpL
  have hringRoots5 : isRing a5 g.roots := by
    refine isRing_congr a a5 _ ?_ hOK.rootRing
    intro j hj
    have hjkp : j ∉ g.kids p := fun hc =>
      ghost_roots_kids_disj hOK.partEq p hpL j hc hj
    have hje : j ≠ e := fun hc => he_roots (hc ▸ hj)
    exact hnp5 j hjkp hje
  have hringKids5 : ∀ i, i ∈ g.L → i ≠ p → isRing a5 (g.kids i) := by
    intro i hi hip
    refine isRing_congr a a5 _ ?_ (hOK.kidRing i hi)
    intro j hj
    have hjkp : j ∉ g.kids p :=
      ghost_kids_disj hOK.partEq i hi p hpL hip j hj
    have hje : j ≠ e := fun hc =>
      ghost_kids_disj hOK.partEq p hpL i hi (fun h => hip h.symm) e hekp (hc ▸ hj)
    exact hnp5 j hjkp hje
  -- the root list and the min pointer
  have hLne : g.L.Nonempty := ⟨e, heL⟩
  obtain ⟨m, rx, hroots⟩ : ∃ m rx, g.roots = m :: rx := by
    cases hr : g.roots with
    | nil => exact absurd hr (ghost_roots_nonempty hOK.partEq hOK.rnkLt hLne)
    | cons m rx => exact ⟨m, rx, rfl⟩
  have hfmin : fmin = some m := by
    rw [hOK.minHead, hroots]
    rfl
  -- splice the singleton e into the root ring
  have hndM : ((m :: rx) ++ (e :: ([] : List Nat))).Nodup := by
    rw [List.nodup_append]
    refine ⟨hroots ▸ ghost_roots_nodup hOK.partEq, by simp, ?_⟩
    intro x hx hx2
    simp at hx2
    rw [hx2] at hx
    exact he_roots (hroots ▸ hx)
  have hvM : ∀ i ∈ (m :: rx) ++ (e :: ([] : List Nat)), i < memLen a5 := by
    intro i hi
    rw [hlen5]
    rw [List.mem_append] at hi
    rcases hi with hi | hi
    · exact hOK.valid i (ghost_roots_subset hOK.partEq i (hroots ▸ hi))
    · simp at hi
      rw [hi]
      exact heLv
  obtain ⟨a6, heq6, hlen6, hring6, hfields6, hout6⟩ :=
    mergeLists_spec a5 m e rx [] (hroots ▸ hringRoots5) hringE5 hndM hvM
  rw [hprio5 m, hprio5 e] at heq6
  have hlen6a : memLen a6 = memLen a := by rw [hlen6, hlen5]
  have hprio6 : ∀ k, (getN a6 k).priority = (getN a k).priority := by
    intro k
    rw [(hfields6 k).2.2.2.2.1, hprio5 k]
  have hpar6 : ∀ k, (getN a6 k).parent = (getN a k).parent := by
    intro k
    rw [(hfields6 k).1, hpar5 k]
  have hchild6 : ∀ k, (getN a6 k).child =
      (if k = p then ((g.kids p).erase e).head? else (getN a k).child) := by
    intro k
    rw [(hfields6 k).2.1, hchild5 k]
  have hdeg6 : ∀ k, k ≠ p → (getN a6 k).degree = (getN a k).degree := by
    intro k hk
    rw [(hfields6 k).2.2.1, hdeg5 k hk]
  have hdeg6p : (getN a6 p).degree = ((g.kids p).erase e).length := by
    rw [(hfields6 p).2.2.1, hdeg5p]
  have hout6' : ∀ k, k ∉ g.roots → k ≠ e → getN a6 k = getN a5 k := by
    intro k hk hke
    refine hout6 k ?_
    intro hc
    rw [List.mem_append] at hc
    rcases hc with hc | hc
    · exact hk (hroots ▸ hc)
    · simp at hc
      exact hke hc
  -- the intermediate ghost after the merge
  have hringErase6 : isRing a6 ((g.kids p).erase e) := by
    refine isRing_congr a5 a6 _ ?_ hringErase5
    intro j hj
    have hjkp := List.mem_of_mem_erase hj
    have hje : j ≠ e := ((List.Nodup.mem_erase_iff hkpN).mp hj).1
    have hjr : j ∉ g.roots := fun hc =>
      ghost_roots_kids_disj hOK.partEq p hpL j hjkp hc
    rw [hout6' j hjr hje]
    exact ⟨rfl, rfl⟩
  have hringKids6 : ∀ i, i ∈ g.L → i ≠ p → isRing a6 (g.kids i) := by
    intro i hi hip
    refine isRing_congr a5 a6 _ ?_ (hringKids5 i hi hip)
    intro j hj
    have hjr : j ∉ g.roots := fun hc =>
      ghost_roots_kids_disj hOK.partEq i hi j hj hc
    have hje : j ≠ e := fun hc =>
      ghost_kids_disj hOK.partEq p hpL i hi (fun h => hip h.symm) e hekp (hc ▸ hj)
    rw [hout6' j hjr hje]
    exact ⟨rfl, rfl⟩
  have hcommon : ∀ roots1 : List Nat,
      isRing a6 roots1 →
      ((roots1 : Multiset Nat) = ((m :: e :: rx : List Nat) : Multiset Nat)) →
      ((if Prior.blt (getN a m).priority (getN a e).priority = true
        then some m else some e) = roots1.head?) →
      (∀ mh ∈ roots1.head?, ∀ j ∈ roots1,
        Prior.ble (getN a6 mh).priority (getN a6 j).priority = true) →
      cutOK a6
        (if Prior.blt (getN a m).priority (getN a e).priority = true
         then some m else some e)
        ⟨g.L, roots1,
          fun i => if i = p then (g.kids p).erase e else g.kids i, g.rnk⟩
        (memLen a6) (insert e stale) := by
    intro roots1 hring1 hms1 hhead1 hminle1
    have hmem1 : ∀ i, i ∈ roots1 ↔ (i = m ∨ i = e ∨ i ∈ rx) := by
      intro i
      have h1 : i ∈ roots1 ↔ i ∈ ((roots1 : Multiset Nat)) := by
        rw [Multiset.mem_coe]
      rw [h1, hms1]
      simp
    refine ⟨?_, ?_, hring1, ?_, ?_, ?_, ?_, ?_, ?_, ?_, hhead1, hminle1⟩
    · show ((roots1 : Multiset Nat) + _) = _
      rw [hms1]
      have h2 : ((m :: e :: rx : List Nat) : Multiset Nat) =
          {e} + ((g.roots : List Nat) : Multiset Nat) := by
        rw [hroots]
        simp only [Multiset.cons_coe, Multiset.singleton_add]
        exact Quot.sound (List.Perm.swap _ _ _)
      rw [h2, add_comm ({e} : Multiset Nat) _, add_right_comm, add_assoc,
        sum_kids_erase p e hpL hekp]
      exact hOK.partEq
    · intro i hi
      rw [hlen6a]
      exact hOK.valid i hi
    · intro i hi
      dsimp only
      by_cases hip : i = p
      · rw [if_pos hip]
        exact hringErase6
      · rw [if_neg hip]
        exact hringKids6 i hi hip
    · intro i hi hins
      rw [Finset.mem_insert] at hins
      push_neg at hins
      rw [hmem1 i] at hi
      rw [hpar6 i]
      rcases hi with h1 | h1 | h1
      · rw [h1]
        rw [h1] at hins
        exact hOK.rootPar m (hroots ▸ List.mem_cons_self _ _) hins.2
      · exact absurd h1 hins.1
      · exact hOK.rootPar i (hroots ▸ List.mem_cons_of_mem m h1) hins.2
    · intro i hi j hj
      dsimp only at hj
      have hjk : j ∈ g.kids i := by
        by_cases hip : i = p
        · rw [if_pos hip] at hj
          rw [hip]
          exact List.mem_of_mem_erase hj
        · rwa [if_neg hip] at hj
      rw [hpar6 j]
      exact hOK.kidPar i hi j hjk
    · intro i hi
      dsimp only
      rw [hchild6 i]
      by_cases hip : i = p
      · rw [if_pos hip, if_pos hip]
      · rw [if_neg hip, if_neg hip]
        exact hOK.childEq i hi
    · intro i hi
      dsimp only
      by_cases hip : i = p
      · rw [if_pos hip, hip, hdeg6p]
      · rw [if_neg hip, hdeg6 i hip]
        exact hOK.degEq i hi
    · intro i hi j hj
      dsimp only at hj ⊢
      by_cases hip : i = p
      · rw [if_pos hip] at hj
        exact hOK.rnkLt i hi j (hip ▸ List.mem_of_mem_erase hj)
      · rw [if_neg hip] at hj
        exact hOK.rnkLt i hi j hj
    · intro i hi j hj _
      dsimp only at hj
      rw [hprio6 i, hprio6 j]
      by_cases hip : i = p
      · rw [if_pos hip] at hj
        have hje : j ≠ e := ((List.Nodup.mem_erase_iff hkpN).mp hj).1
        exact hOK.heapLe i hi j (hip ▸ List.mem_of_mem_erase hj) hje
      · rw [if_neg hip] at hj
        have hje : j ≠ e := fun hc =>
          ghost_kids_disj hOK.partEq p hpL i hi (fun h => hip h.symm) e hekp
            (hc ▸ hj)
        exact hOK.heapLe i hi j hj hje
  -- the computation of the tail, up to the mark branch
  have hdefEq : cutTail fuel a3 fmin e p =
      (if (getN a6 p).marked = true then
         match cutNode fuel a6
             (if Prior.blt (getN a m).priority (getN a e).priority = true
              then some m else some e) p with
         | none => none
         | some r => some (updN r.1 e fun n => { n with parent := none }, r.2)
       else some (updN (updN a6 p fun n => { n with marked := true }) e
         fun n => { n with parent := none },
         (if Prior.blt (getN a m).priority (getN a e).priority = true
          then some m else some e))) := by
    simp only [cutTail]
    rw [ha4, ha5, hfmin, heq6]
  -- pick the ghost matching the returned min pointer
  obtain ⟨roots1, hring1, hms1, hhead1, hminle1⟩ :
      ∃ roots1 : List Nat, isRing a6 roots1 ∧
        ((roots1 : Multiset Nat) = ((m :: e :: rx : List Nat) : Multiset Nat)) ∧
        ((if Prior.blt (getN a m).priority (getN a e).priority = true
          then some m else some e) = roots1.head?) ∧
        (∀ mh ∈ roots1.head?, ∀ j ∈ roots1,
          Prior.ble (getN a6 mh).priority (getN a6 j).priority = true) := by
    have hminOld : ∀ j ∈ g.roots,
        Prior.ble (getN a m).priority (getN a j).priority = true := by
      intro j hj
      have := hOK.minLe m (by rw [hroots]; rfl) j hj
      exact this
    by_cases hc : Prior.blt (getN a m).priority (getN a e).priority = true
    · refine ⟨m :: e :: rx, by simpa using hring6, rfl, by rw [if_pos hc]; rfl, ?_⟩
      intro mh hmh j hj
      simp only [List.head?_cons, Option.mem_def, Option.some.injEq] at hmh
      rw [← hmh]
      simp only [List.mem_cons] at hj
      rw [hprio6 m]
      rcases hj with h1 | h1 | h1
      · rw [h1, hprio6 m]
        exact Prior.ble_refl _
      · rw [h1, hprio6 e]
        exact Prior.blt_ble hc
      · rw [hprio6 j]
        exact hminOld j (hroots ▸ List.mem_cons_of_mem m h1)
    · have hbase : isRing a6 (m :: e :: rx) := by simpa using hring6
      have hrot := isRing_rotate_one a6 m (e :: rx) hbase
      refine ⟨e :: (rx ++ [m]), by exact hrot, ?_, by rw [if_neg hc]; rfl, ?_⟩
      · exact Quot.sound
          (((List.perm_append_singleton m rx).cons e).trans (List.Perm.swap m e rx))
      · intro mh hmh j hj
        simp only [List.head?_cons, Option.mem_def, Option.some.injEq] at hmh
        rw [← hmh]
        have hem : Prior.ble (getN a e).priority (getN a m).priority = true :=
          Prior.ble_of_not_blt (fun h => hc h)
        simp only [List.mem_cons, List.mem_append, List.mem_singleton,
          List.not_mem_nil, or_false] at hj
        rw [hprio6 e]
        rcases hj with h1 | h1 | h1
        · rw [h1, hprio6 e]
          exact Prior.ble_refl _
        · rw [hprio6 j]
          exact Prior.ble_trans hem (hminOld j (hroots ▸ List.mem_cons_of_mem m h1))
        · rw [h1, hprio6 m]
          exact hem
  have hOK6 := hcommon roots1 hring1 hms1 hhead1 hminle1
  have heR1 : e ∈ roots1 := by
    have : e ∈ ((roots1 : Multiset Nat)) := by
      rw [hms1]
      simp
    exact Multiset.mem_coe.mp this
  have hmonoR1 : ∀ i, i ∈ g.roots → i ∈ roots1 := by
    intro i hi
    have : i ∈ ((roots1 : Multiset Nat)) := by
      rw [hms1]
      rw [hroots] at hi
      simp only [List.mem_cons] at hi ⊢
      simp
      tauto
    exact Multiset.mem_coe.mp this
  by_cases hmrk : (getN a6 p).marked = true
  · -- cascading: the parent was already marked
    have hOKrec := cutOK_full_x hOK6 p
    have hpS' : p ∉ insert e stale := by
      rw [Finset.mem_insert]
      push_neg
      refine ⟨fun h => hpe h, fun h => ?_⟩
      have := hstaleR p h
      omega
    have hstaleR' : ∀ s ∈ insert e stale,
        (⟨g.L, roots1, fun i => if i = p then (g.kids p).erase e else g.kids i,
          g.rnk⟩ : Ghost).rnk s <
        (⟨g.L, roots1, fun i => if i = p then (g.kids p).erase e else g.kids i,
          g.rnk⟩ : Ghost).rnk p := by
      intro s hs
      rw [Finset.mem_insert] at hs
      dsimp only
      rcases hs with rfl | hs
      · exact hrnk_ep
      · exact lt_trans (hstaleR s hs) hrnk_ep
    have hfuel' : ((⟨g.L, roots1, fun i => if i = p then (g.kids p).erase e
        else g.kids i, g.rnk⟩ : Ghost).L.filter
          (fun y => g.rnk p < g.rnk y)).card < fuel := by
      dsimp only
      have h1 := rnk_measure_lt hpL hrnk_ep
      omega
    obtain ⟨a7, fmin2, g2, hdef7, hOK7, hL7, hrnk7, hmono7, hpR7, hlen7, hprio7⟩ :=
      ih a6 _ _ (insert e stale) p hOKrec hpL hpS' hstaleR' hfuel'
    have heR2 : e ∈ g2.roots := hmono7 e heR1
    have heLv7 : e < memLen a7 := by
      rw [hlen7, hlen6a]
      exact heLv
    obtain ⟨a8, ha8, hOK8, hlen8, hprio8⟩ :=
      cutOK_clear_stale e heR2 heLv7 hOK7
    refine ⟨a8, fmin2, g2, ?_, hOK8, hL7, hrnk7,
      fun i hi => hmono7 i (hmonoR1 i hi), heR2, ?_, ?_⟩
    · rw [hdefEq, if_pos hmrk, hdef7]
      dsimp only
      rw [ha8]
    · rw [hlen8, hlen7, hlen6a]
    · intro k
      rw [hprio8 k, hprio7 k, hprio6 k]
  · -- the parent was unmarked: mark it and stop
    obtain ⟨a7, ha7⟩ : ∃ a7 : Mem,
        updN a6 p (fun n => { n with marked := true }) = a7 := ⟨_, rfl⟩
    have hlen7m : memLen a7 = memLen a6 := by rw [← ha7, memLen_updN]
    have hprio7m : ∀ k, (getN a7 k).priority = (getN a6 k).priority := by
      intro k
      rw [← ha7]
      simp
    have hOK7t := cutOK_transport hlen7m
      (fun k => by rw [← ha7]; exact ⟨by simp, by simp, by simp, by simp,
        by simp, by simp⟩) hOK6
    have hOK7' : cutOK a7
        (if Prior.blt (getN a m).priority (getN a e).priority = true
         then some m else some e)
        ⟨g.L, roots1,
          fun i => if i = p then (g.kids p).erase e else g.kids i, g.rnk⟩
        (memLen a7) (insert e stale) := by
      rw [hlen7m]
      exact hOK7t
    have heLv7 : e < memLen a7 := by
      rw [hlen7m, hlen6a]
      exact heLv
    obtain ⟨a8, ha8, hOK8, hlen8, hprio8⟩ :=
      cutOK_clear_stale e heR1 heLv7 hOK7'
    refine ⟨a8,
      (if Prior.blt (getN a m).priority (getN a e).priority = true
       then some m else some e),
      ⟨g.L, roots1,
        fun i => if i = p then (g.kids p).erase e else g.kids i, g.rnk⟩,
      ?_, hOK8, rfl, rfl, hmonoR1, heR1, ?_, ?_⟩
    · rw [hdefEq, if_neg hmrk, ha7, ha8]
    · rw [hlen8, hlen7m, hlen6a]
    · intro k
      rw [hprio8 k, hprio7m k, hprio6 k]

/-- One step of `cutNode` is the marked-clear write, then — if there is a
parent — the splice followed by `cutTail`. -/
theorem cutNode_succ (fuel : Nat) (a : Mem) (fmin : Option Nat) (e : Nat) :
    cutNode (fuel + 1) a fmin e =
      match (getN (updN a e fun n => { n with marked := false }) e).parent with
      | none => some (updN a e fun n => { n with marked := false }, fmin)
      | some p => cutTail fuel
          (cutSplice (updN a e fun n => { n with marked := false }) e p)
          fmin e p := rfl

/-- Full specification of `cutNode`: on a well-formed cut state it
terminates, moves `e` to the root list, and preserves the ghost forest's
node set, ranks, priorities and arena length. -/
theorem cutNode_spec : ∀ (fuel : Nat) (a : Mem) (fmin : Option Nat) (g : Ghost)
    (stale : Finset Nat) (e : Nat),
    cutOK a fmin g e stale → e ∈ g.L → e ∉ stale →
    (∀ s ∈ stale, g.rnk s < g.rnk e) →
    (g.L.filter (fun y => g.rnk e < g.rnk y)).card < fuel →
    ∃ a' fmin' g',
      cutNode fuel a fmin e = some (a', fmin') ∧
      cutOK a' fmin' g' (memLen a') stale ∧
      g'.L = g.L ∧ g'.rnk = g.rnk ∧
      (∀ i, i ∈ g.roots → i ∈ g'.roots) ∧ e ∈ g'.roots ∧
      memLen a' = memLen a ∧
      (∀ k, (getN a' k).priority = (getN a k).priority) := by
  intro fuel
  induction fuel with
  | zero =>
    intro a fmin g stale e _ _ _ _ hfuel
    omega
  | succ fuel ih =>
    intro a fmin g stale e hOK heL heS hstaleR hfuel
    have heLv : e < memLen a := hOK.valid e heL
    obtain ⟨a1, ha1⟩ : ∃ a1 : Mem,
        updN a e (fun n => { n with marked := false }) = a1 := ⟨_, rfl⟩
    have hlen1 : memLen a1 = memLen a := by rw [← ha1, memLen_updN]
    have hnf1 : ∀ k, (getN a1 k).next = (getN a k).next ∧
        (getN a1 k).prev = (getN a k).prev ∧
        (getN a1 k).parent = (getN a k).parent ∧
        (getN a1 k).child = (getN a k).child ∧
        (getN a1 k).degree = (getN a k).degree ∧
        (getN a1 k).priority = (getN a k).priority := by
      intro k
      rw [← ha1]
      exact ⟨by simp, by simp, by simp, by simp, by simp, by simp⟩
    cases hpar : (getN a e).parent with
    | none =>
      have hpar1 : (getN a1 e).parent = none := by rw [(hnf1 e).2.2.1, hpar]
      have heNK : ∀ i ∈ g.L, e ∉ g.kids i := by
        intro i hi hc
        have := hOK.kidPar i hi e hc
        rw [hpar] at this
        cases this
      have heR : e ∈ g.roots := by
        rcases ghost_mem_split hOK.partEq e heL with h | ⟨q, hq, heq⟩
        · exact h
        · exact absurd heq (heNK q hq)
      have hOK1 := cutOK_transport hlen1 hnf1 hOK
      have hOKfull : cutOK a1 fmin g (memLen a1) stale := by
        refine ⟨hOK1.partEq, hOK1.valid, hOK1.rootRing, hOK1.kidRing,
          hOK1.rootPar, hOK1.kidPar, hOK1.childEq, hOK1.degEq, hOK1.rnkLt, ?_,
          hOK1.minHead, hOK1.minLe⟩
        intro i hi j hj _
        exact hOK1.heapLe i hi j hj (fun hc => heNK i hi (hc ▸ hj))
      refine ⟨a1, fmin, g, ?_, hOKfull, rfl, rfl, fun i hi => hi, heR, hlen1,
        fun k => (hnf1 k).2.2.2.2.2⟩
      rw [cutNode_succ, ha1, hpar1]
    | some p =>
      have hpar1 : (getN a1 e).parent = some p := by rw [(hnf1 e).2.2.1, hpar]
      obtain ⟨hpL, hekp⟩ : p ∈ g.L ∧ e ∈ g.kids p := by
        rcases ghost_mem_split hOK.partEq e heL with h | ⟨q, hq, heq⟩
        · have := hOK.rootPar e h heS
          rw [hpar] at this
          cases this
        · have := hOK.kidPar q hq e heq
          rw [hpar] at this
          injection this with h'
          refine ⟨by rw [← h'] at hq; exact hq, by rw [← h'] at heq; exact heq⟩
      have hkpN : (g.kids p).Nodup := ghost_kids_nodup hOK.partEq p hpL
      have hkpL : ∀ j ∈ g.kids p, j ∈ g.L := ghost_kids_subset hOK.partEq p hpL
      have hkpLv : ∀ j ∈ g.kids p, j < memLen a :=
        fun j hj => hOK.valid j (hkpL j hj)
      have hpLv : p < memLen a := hOK.valid p hpL
      obtain ⟨s, t, hst⟩ := List.append_of_mem hekp
      have hndst : (s ++ e :: t).Nodup := by rw [← hst]; exact hkpN
      obtain ⟨hsnd, hetnd, hdisj⟩ := List.nodup_append.mp hndst
      have hes : e ∉ s := fun hc => hdisj hc (by simp)
      have het : e ∉ t := (List.nodup_cons.mp hetnd).1
      have herase : (g.kids p).erase e = s ++ t := by
        rw [hst, List.erase_append_right _ hes, List.erase_cons_head]
      have hring_kp1 : isRing a1 (g.kids p) :=
        isRing_congr a a1 _ (fun j _ => ⟨(hnf1 j).1, (hnf1 j).2.1⟩)
          (hOK.kidRing p hpL)
      have hrot : (s ++ e :: t).rotate s.length = e :: (t ++ s) := by
        rw [show s ++ e :: t = s ++ (e :: t) by simp,
          List.rotate_append_length_eq]
        simp
      have hring_e : isRing a1 (e :: (t ++ s)) := by
        have h := isRing_rotate a1 (g.kids p) s.length hring_kp1
        rw [hst, hrot] at h
        exact h
      have hperm : (s ++ e :: t).Perm (e :: (t ++ s)) :=
        List.perm_middle.trans (List.Perm.cons e List.perm_append_comm)
      have hnd_e : (e :: (t ++ s)).Nodup := hperm.nodup hndst
      have hets : e ∉ t ++ s := (List.nodup_cons.mp hnd_e).1
      have hkps_sub : ∀ j ∈ t ++ s, j ∈ g.kids p := by
        intro j hj
        rw [hst]
        rw [List.mem_append] at hj
        rw [List.mem_append, List.mem_cons]
        tauto
      have hv_e : ∀ i ∈ e :: (t ++ s), i < memLen a1 := by
        intro i hi
        rw [hlen1]
        rcases List.mem_cons.mp hi with h1 | h1
        · rw [h1]; exact heLv
        · exact hkpLv i (hkps_sub i h1)
      by_cases hrs : t ++ s = []
      · -- `e` is an only child
        obtain ⟨ht0, hs0⟩ := List.append_eq_nil.mp hrs
        have hkpe : g.kids p = [e] := by
          rw [hst, hs0, ht0]
          rfl
        have hnext1e : (getN a1 e).next = e := by
          have h := (ring_next_head a1 e (t ++ s) hring_e).1
          rw [hrs] at h
          exact h
        have hchild1p : (getN a1 p).child = some e := by
          rw [(hnf1 p).2.2.2.1, hOK.childEq p hpL, hkpe]
          rfl
        have hco : cutSplice a1 e p =
            updN a1 p (fun n => { n with child := none }) := by
          simp [cutSplice, hnext1e, hchild1p]
        obtain ⟨a3, ha3⟩ : ∃ a3 : Mem,
            updN a1 p (fun n => { n with child := none }) = a3 := ⟨_, rfl⟩
        have hlen3 : memLen a3 = memLen a := by rw [← ha3, memLen_updN, hlen1]
        have hring3 : isRing a3 ((g.kids p).erase e) := by
          rw [herase, hs0, ht0]
          trivial
        have hfl3 : ∀ k, (getN a3 k).parent = (getN a k).parent ∧
            (getN a3 k).degree = (getN a k).degree ∧
            (getN a3 k).priority = (getN a k).priority ∧
            (getN a3 k).child =
              (if k = p then ((g.kids p).erase e).head? else (getN a k).child) := by
          intro k
          refine ⟨?_, ?_, ?_, ?_⟩
          · rw [← ha3]
            simp [(hnf1 k).2.2.1]
          · rw [← ha3]
            simp [(hnf1 k).2.2.2.2.1]
          · rw [← ha3]
            simp [(hnf1 k).2.2.2.2.2]
          · by_cases hkp : k = p
            · rw [hkp, ← ha3, getN_updN_self _ _ _ (by rw [hlen1]; exact hpLv),
                if_pos rfl, herase, hs0, ht0]
              rfl
            · rw [← ha3, getN_updN_ne _ _ _ _ hkp, if_neg hkp, (hnf1 k).2.2.2.1]
        have hfr3 : ∀ k, k ∉ g.kids p →
            (getN a3 k).next = (getN a k).next ∧
            (getN a3 k).prev = (getN a k).prev := by
          intro k _
          constructor
          · rw [← ha3]
            simp [(hnf1 k).1]
          · rw [← ha3]
            simp [(hnf1 k).2.1]
        obtain ⟨a', fmin', g', hdef, hOK', hL', hrnk', hmono', heR', hlen',
          hprio'⟩ :=
          cutTail_spec fuel a a3 fmin g stale e p ih hOK heL heS hstaleR hfuel
            hpL hekp hlen3 hring3 hfl3 hfr3
        refine ⟨a', fmin', g', ?_, hOK', hL', hrnk', hmono', heR', hlen', hprio'⟩
        rw [cutNode_succ, ha1, hpar1]
        show cutTail fuel (cutSplice a1 e p) fmin e p = some (a', fmin')
        rw [hco, ha3, hdef]
      · -- `e` has siblings: splice it out of the child ring
        obtain ⟨r1, hr1⟩ : ∃ r1, (t ++ s).headD e = r1 := ⟨_, rfl⟩
        obtain ⟨lm, hlm⟩ : ∃ lm, (t ++ s).getLastD e = lm := ⟨_, rfl⟩
        have hr1mem : r1 ∈ t ++ s := hr1 ▸ headD_mem e _ hrs
        have hlmmem : lm ∈ t ++ s := hlm ▸ getLastD_mem e _ hrs
        have her1 : e ≠ r1 := fun hc => hets (hc ▸ hr1mem)
        have helm : e ≠ lm := fun hc => hets (hc ▸ hlmmem)
        have hnext1e : (getN a1 e).next = r1 := by
          have h := (ring_next_head a1 e (t ++ s) hring_e).1
          cases ht' : t ++ s with
          | nil => exact absurd ht' hrs
          | cons w ws =>
            rw [ht'] at h
            rw [h, ← hr1, ht']
        have hprev1e : (getN a1 e).prev = lm := by
          have h := (ring_last_link a1 e (t ++ s) hring_e).2
          rw [hlm] at h
          exact h
        obtain ⟨a2, ha2, hlen2, hring2, hnext_fr2, hnext_lm2, hprev_fr2,
          hprev_r12, hflds2, hout2⟩ :=
          spliceOutB a1 e r1 lm (t ++ s) hr1 hlm hring_e hnd_e hrs hv_e
        have hlen2a : memLen a2 = memLen a := by rw [hlen2, hlen1]
        have hco_pre : cutSplice a1 e p =
            (if (getN a2 p).child = some e then
               if (getN a2 e).next ≠ e then
                 updN a2 p fun n => { n with child := some (getN a2 e).next }
               else updN a2 p fun n => { n with child := none }
             else a2) := by
          simp only [cutSplice]
          rw [hnext1e, hprev1e]
          rw [if_pos (Ne.symm her1)]
          rw [getN_updN_ne a1 r1 e _ her1]
          rw [hprev1e, hnext1e, ha2]
        have hnext2e : (getN a2 e).next = r1 := by
          rw [hnext_fr2 e helm, hnext1e]
        have hch2 : (getN a2 p).child = (g.kids p).head? := by
          rw [(hflds2 p).2.1, (hnf1 p).2.2.2.1, hOK.childEq p hpL]
        -- common transported facts about `a2`
        have hpar2 : ∀ k, (getN a2 k).parent = (getN a k).parent := by
          intro k
          rw [(hflds2 k).1, (hnf1 k).2.2.1]
        have hdeg2 : ∀ k, (getN a2 k).degree = (getN a k).degree := by
          intro k
          rw [(hflds2 k).2.2.1, (hnf1 k).2.2.2.2.1]
        have hprio2 : ∀ k, (getN a2 k).priority = (getN a k).priority := by
          intro k
          rw [(hflds2 k).2.2.2.2.1, (hnf1 k).2.2.2.2.2]
        have hchild2 : ∀ k, (getN a2 k).child = (getN a k).child := by
          intro k
          rw [(hflds2 k).2.1, (hnf1 k).2.2.2.1]
        have hring_st : isRing a2 (s ++ t) := by
          have h := isRing_rotate a2 (t ++ s) t.length hring2
          rwa [List.rotate_append_length_eq] at h
        have hfr2 : ∀ k, k ∉ g.kids p →
            (getN a2 k).next = (getN a k).next ∧
            (getN a2 k).prev = (getN a k).prev := by
          intro k hk
          have hklm : k ≠ lm := fun hc => hk (hc ▸ hkps_sub lm hlmmem)
          have hkr1 : k ≠ r1 := fun hc => hk (hc ▸ hkps_sub r1 hr1mem)
          exact ⟨by rw [hnext_fr2 k hklm, (hnf1 k).1],
            by rw [hprev_fr2 k hkr1, (hnf1 k).2.1]⟩
        cases hs' : s with
        | nil =>
          -- `e` was the pointed-to child: repoint to its old next sibling
          have hch2e : (getN a2 p).child = some e := by
            rw [hch2, hst, hs']
            rfl
          have hco : cutSplice a1 e p =
              updN a2 p (fun n => { n with child := some r1 }) := by
            rw [hco_pre, if_pos hch2e, hnext2e, if_pos (Ne.symm her1)]
          obtain ⟨a3, ha3⟩ : ∃ a3 : Mem,
              updN a2 p (fun n => { n with child := some r1 }) = a3 := ⟨_, rfl⟩
          have hlen3 : memLen a3 = memLen a := by rw [← ha3, memLen_updN, hlen2a]
          have ht_ne : t ≠ [] := by
            intro h
            exact hrs (by rw [h, hs']; rfl)
          have hhead_er : ((g.kids p).erase e).head? = some r1 := by
            rw [herase, hs', List.nil_append]
            cases ht' : t with
            | nil => exact absurd ht' ht_ne
            | cons th tl =>
              have : r1 = th := by
                rw [← hr1, ht', hs']
                rfl
              rw [this]
              rfl
          have hring3 : isRing a3 ((g.kids p).erase e) := by
            rw [herase]
            refine isRing_congr a2 a3 _ ?_ hring_st
            intro j _
            rw [← ha3]
            exact ⟨by simp, by simp⟩
          have hfl3 : ∀ k, (getN a3 k).parent = (getN a k).parent ∧
              (getN a3 k).degree = (getN a k).degree ∧
              (getN a3 k).priority = (getN a k).priority ∧
              (getN a3 k).child =
                (if k = p then ((g.kids p).erase e).head?
                 else (getN a k).child) := by
            intro k
            refine ⟨?_, ?_, ?_, ?_⟩
            · rw [← ha3]
              simp [hpar2 k]
            · rw [← ha3]
              simp [hdeg2 k]
            · rw [← ha3]
              simp [hprio2 k]
            · by_cases hkp : k = p
              · rw [hkp, ← ha3,
                  getN_updN_self _ _ _ (by rw [hlen2a]; exact hpLv),
                  if_pos rfl, hhead_er]
              · rw [← ha3, getN_updN_ne _ _ _ _ hkp, if_neg hkp, hchild2 k]
          have hfr3 : ∀ k, k ∉ g.kids p →
              (getN a3 k).next = (getN a k).next ∧
              (getN a3 k).prev = (getN a k).prev := by
            intro k hk
            rw [← ha3]
            exact ⟨by simp [(hfr2 k hk).1], by simp [(hfr2 k hk).2]⟩
          obtain ⟨a', fmin', g', hdef, hOK', hL', hrnk', hmono', heR', hlen',
            hprio'⟩ :=
            cutTail_spec fuel a a3 fmin g stale e p ih hOK heL heS hstaleR hfuel
              hpL hekp hlen3 hring3 hfl3 hfr3
          refine ⟨a', fmin', g', ?_, hOK', hL', hrnk', hmono', heR', hlen',
            hprio'⟩
          rw [cutNode_succ, ha1, hpar1]
          show cutTail fuel (cutSplice a1 e p) fmin e p = some (a', fmin')
          rw [hco, ha3, hdef]
        | cons s0 s' =>
          -- `e` was not the pointed-to child: no repoint needed
          have hs0e : s0 ≠ e := by
            intro h
            exact hes (by rw [hs', h]; simp)
          have hch2ne : ¬((getN a2 p).child = some e) := by
            rw [hch2, hst, hs']
            intro hc
            simp only [List.cons_append, List.head?_cons,
              Option.some.injEq] at hc
            exact hs0e hc
          have hco : cutSplice a1 e p = a2 := by
            rw [hco_pre, if_neg hch2ne]
          have hhead_er : ((g.kids p).erase e).head? = (g.kids p).head? := by
            rw [herase, hst, hs']
            rfl
          have hring3 : isRing a2 ((g.kids p).erase e) := by
            rw [herase]
            exact hring_st
          have hfl3 : ∀ k, (getN a2 k).parent = (getN a k).parent ∧
              (getN a2 k).degree = (getN a k).degree ∧
              (getN a2 k).priority = (getN a k).priority ∧
              (getN a2 k).child =
                (if k = p then ((g.kids p).erase e).head?
                 else (getN a k).child) := by
            intro k
            refine ⟨hpar2 k, hdeg2 k, hprio2 k, ?_⟩
            by_cases hkp : k = p
            · rw [hkp, if_pos rfl, hhead_er, hchild2 p, hOK.childEq p hpL]
            · rw [if_neg hkp, hchild2 k]
          obtain ⟨a', fmin', g', hdef, hOK', hL', hrnk', hmono', heR', hlen',
            hprio'⟩ :=
            cutTail_spec fuel a a2 fmin g stale e p ih hOK heL heS hstaleR hfuel
              hpL hekp hlen2a hring3 hfl3 hfr2
          refine ⟨a', fmin', g', ?_, hOK', hL', hrnk', hmono', heR', hlen',
            hprio'⟩
          rw [cutNode_succ, ha1, hpar1]
          show cutTail fuel (cutSplice a1 e p) fmin e p = some (a', fmin')
          rw [hco, hdef]

theorem Prior.blt_of_not_ble {p q : Prior} (h : ¬ Prior.ble p q = true) :
    Prior.blt q p = true := by
  cases p <;> cases q <;> simp_all [Prior.ble, Prior.blt] <;> omega

theorem Prior.not_ble_of_blt {p q : Prior} (h : Prior.blt p q = true) :
    ¬ Prior.ble q p = true := by
  cases p <;> cases q <;> simp_all [Prior.ble, Prior.blt] <;> omega

theorem Prior.ble_blt_trans {p q r : Prior} (h1 : Prior.ble p q = true)
    (h2 : Prior.blt q r = true) : Prior.blt p r = true := by
  cases p <;> cases q <;> cases r <;> simp_all [Prior.ble, Prior.blt] <;> omega

/-- With the exception index out of the arena, the heap inequality of a
`cutOK` state holds on every edge. -/
theorem cutOK_heapLe_all {a : Mem} {fmin : Option Nat} {g : Ghost}
    {stale : Finset Nat} (h : cutOK a fmin g (memLen a) stale) :
    ∀ i ∈ g.L, ∀ j ∈ g.kids i,
      Prior.ble (getN a i).priority (getN a j).priority = true := by
  intro i hi j hj
  have hjL : j ∈ g.L := ghost_kids_subset h.partEq i hi j hj
  have := h.valid j hjL
  exact h.heapLe i hi j hj (by omega)

/-- A stale-free `cutOK` state whose min pointer is kept is a `ghostOK`
state for the assembled heap record. -/
theorem ghostOK_of_cutOK {a : Mem} {fmin : Option Nat} {g : Ghost} {sz : Nat}
    (hOK : cutOK a fmin g (memLen a) (∅ : Finset Nat)) (hsz : sz = g.L.card) :
    ghostOK a { min := fmin, size := sz } g :=
  ⟨hOK.partEq, hOK.valid, hOK.rootRing, hOK.kidRing,
    fun i hi => hOK.rootPar i hi (Finset.not_mem_empty i), hOK.kidPar,
    hOK.childEq, hOK.degEq, hOK.rnkLt, cutOK_heapLe_all hOK, hOK.minHead,
    hOK.minLe, hsz⟩

/-- Retargeting the min pointer at a root that holds the least priority:
the ghost's root list is rotated so that root comes first. -/
theorem ghostOK_retarget {a : Mem} {g : Ghost} {sz : Nat} {e : Nat}
    (hpart : ((g.roots : Multiset Nat) +
      ∑ i in g.L, ((g.kids i : Multiset Nat))) = g.L.val)
    (hvalid : ∀ i ∈ g.L, i < memLen a)
    (hrootRing : isRing a g.roots)
    (hkidRing : ∀ i ∈ g.L, isRing a (g.kids i))
    (hrootPar : ∀ i ∈ g.roots, (getN a i).parent = none)
    (hkidPar : ∀ i ∈ g.L, ∀ j ∈ g.kids i, (getN a j).parent = some i)
    (hchildEq : ∀ i ∈ g.L, (getN a i).child = (g.kids i).head?)
    (hdegEq : ∀ i ∈ g.L, (getN a i).degree = (g.kids i).length)
    (hrnkLt : ∀ i ∈ g.L, ∀ j ∈ g.kids i, g.rnk j < g.rnk i)
    (hheapLe : ∀ i ∈ g.L, ∀ j ∈ g.kids i,
      Prior.ble (getN a i).priority (getN a j).priority = true)
    (hsz : sz = g.L.card)
    (heR : e ∈ g.roots)
    (hle : ∀ j ∈ g.roots,
      Prior.ble (getN a e).priority (getN a j).priority = true) :
    ∃ g', ghostOK a { min := some e, size := sz } g' ∧
      g'.L = g.L ∧ g'.rnk = g.rnk ∧ g'.kids = g.kids ∧
      (∀ x, x ∈ g'.roots ↔ x ∈ g.roots) := by
  obtain ⟨rest, hring', hms⟩ := isRing_to_head a g.roots e heR hrootRing
  have hmem : ∀ j, j ∈ e :: rest ↔ j ∈ g.roots := by
    intro j
    rw [← Multiset.mem_coe, hms, Multiset.mem_coe]
  refine ⟨⟨g.L, e :: rest, g.kids, g.rnk⟩, ⟨?_, hvalid, hring', hkidRing, ?_,
    hkidPar, hchildEq, hdegEq, hrnkLt, hheapLe, rfl, ?_, hsz⟩, rfl, rfl, rfl,
    hmem⟩
  · show ((e :: rest : List Nat) : Multiset Nat) + _ = _
    rw [hms]
    exact hpart
  · intro i hi
    exact hrootPar i ((hmem i).mp hi)
  · intro mh hmh j hj
    simp only [List.head?_cons, Option.mem_def, Option.some.injEq] at hmh
    rw [← hmh]
    exact hle j ((hmem j).mp hj)

/-- Specification of `decreaseKeyUnchecked` under the checked precondition
`p <= old priority`: it succeeds, sets `e`'s priority to `p`, preserves the
node set, every other priority, the arena length and the size, and returns
a well-formed heap. -/
theorem dku_spec (a : Mem) (f : FibHeap) (g : Ghost) (e : Nat) (p : Prior)
    (hOK : ghostOK a f g) (heL : e ∈ g.L)
    (hble : Prior.ble p (getN a e).priority = true) :
    ∃ a' f' g', decreaseKeyUnchecked a f e p = some (a', f') ∧
      ghostOK a' f' g' ∧ g'.L = g.L ∧ g'.rnk = g.rnk ∧
      memLen a' = memLen a ∧ f'.size = f.size ∧
      (∀ k, k ≠ e → (getN a' k).priority = (getN a k).priority) ∧
      (getN a' e).priority = p ∧
      (p = Prior.negInf → f'.min = some e) := by
  have heLv : e < memLen a := hOK.valid e heL
  obtain ⟨a1, ha1⟩ : ∃ a1 : Mem,
      updN a e (fun n => { n with priority := p }) = a1 := ⟨_, rfl⟩
  have hlen1 : memLen a1 = memLen a := by rw [← ha1, memLen_updN]
  have hstru1 : ∀ k, (getN a1 k).next = (getN a k).next ∧
      (getN a1 k).prev = (getN a k).prev ∧
      (getN a1 k).parent = (getN a k).parent ∧
      (getN a1 k).child = (getN a k).child ∧
      (getN a1 k).degree = (getN a k).degree := by
    intro k
    rw [← ha1]
    exact ⟨by simp, by simp, by simp, by simp, by simp⟩
  have hprio1ne : ∀ k, k ≠ e → (getN a1 k).priority = (getN a k).priority := by
    intro k hk
    rw [← ha1, getN_updN_ne _ _ _ _ hk]
  have hprio1e : (getN a1 e).priority = p := by
    rw [← ha1, getN_updN_self _ _ _ heLv]
  have hLne : g.L.Nonempty := ⟨e, heL⟩
  obtain ⟨m, rx, hroots⟩ : ∃ m rx, g.roots = m :: rx := by
    cases hr : g.roots with
    | nil => exact absurd hr (ghost_roots_nonempty hOK.partEq hOK.rnkLt hLne)
    | cons m rx => exact ⟨m, rx, rfl⟩
  have hmR : m ∈ g.roots := by rw [hroots]; simp
  have hfm : f.min = some m := by rw [hOK.minHead, hroots]; rfl
  have hmhead : g.roots.head? = some m := by rw [hroots]; rfl
  have hmL : m ∈ g.L := ghost_roots_subset hOK.partEq m hmR
  have hrootRing1 : isRing a1 g.roots :=
    isRing_congr a a1 _ (fun j _ => ⟨(hstru1 j).1, (hstru1 j).2.1⟩) hOK.rootRing
  have hkidRing1 : ∀ i ∈ g.L, isRing a1 (g.kids i) := fun i hi =>
    isRing_congr a a1 _ (fun j _ => ⟨(hstru1 j).1, (hstru1 j).2.1⟩)
      (hOK.kidRing i hi)
  have hheapLe1 : ∀ i ∈ g.L, ∀ j ∈ g.kids i, j ≠ e →
      Prior.ble (getN a1 i).priority (getN a1 j).priority = true := by
    intro i hi j hj hje
    rw [hprio1ne j hje]
    by_cases hie : i = e
    · rw [hie, hprio1e]
      exact Prior.ble_trans hble (hOK.heapLe e (hie ▸ hi) j (hie ▸ hj))
    · rw [hprio1ne i hie]
      exact hOK.heapLe i hi j hj
  have hsz : f.size = g.L.card := hOK.sizeEq
  cases hpar : (getN a e).parent with
  | none =>
    have hpar1 : (getN a1 e).parent = none := by rw [(hstru1 e).2.2.1, hpar]
    have heNK : ∀ i ∈ g.L, e ∉ g.kids i := by
      intro i hi hc
      have := hOK.kidPar i hi e hc
      rw [hpar] at this
      cases this
    have heR : e ∈ g.roots := by
      rcases ghost_mem_split hOK.partEq e heL with h | ⟨q, hq, heq⟩
      · exact h
      · exact absurd heq (heNK q hq)
    have hheapF1 : ∀ i ∈ g.L, ∀ j ∈ g.kids i,
        Prior.ble (getN a1 i).priority (getN a1 j).priority = true := by
      intro i hi j hj
      exact hheapLe1 i hi j hj (fun hc => heNK i hi (hc ▸ hj))
    have hrootPar1 : ∀ i ∈ g.roots, (getN a1 i).parent = none := by
      intro i hi
      rw [(hstru1 i).2.2.1]
      exact hOK.rootPar i hi
    have hkidPar1 : ∀ i ∈ g.L, ∀ j ∈ g.kids i, (getN a1 j).parent = some i := by
      intro i hi j hj
      rw [(hstru1 j).2.2.1]
      exact hOK.kidPar i hi j hj
    have hchildEq1 : ∀ i ∈ g.L, (getN a1 i).child = (g.kids i).head? := by
      intro i hi
      rw [(hstru1 i).2.2.2.1]
      exact hOK.childEq i hi
    have hdegEq1 : ∀ i ∈ g.L, (getN a1 i).degree = (g.kids i).length := by
      intro i hi
      rw [(hstru1 i).2.2.2.2]
      exact hOK.degEq i hi
    by_cases hc : Prior.ble (getN a1 e).priority (getN a1 m).priority = true
    · -- the updated node becomes the new min pointer
      have hle : ∀ j ∈ g.roots,
          Prior.ble (getN a1 e).priority (getN a1 j).priority = true := by
        intro j hj
        by_cases hje : j = e
        · rw [hje]
          exact Prior.ble_refl _
        · rw [hprio1e, hprio1ne j hje]
          by_cases hme : m = e
          · have h1 : (getN a e).priority = (getN a m).priority := by rw [hme]
            refine Prior.ble_trans hble ?_
            rw [h1]
            exact hOK.minLe m hmhead j hj
          · have h2 : Prior.ble p (getN a m).priority = true := by
              rw [← hprio1e, ← (hprio1ne m hme)]
              exact hc
            exact Prior.ble_trans h2 (hOK.minLe m hmhead j hj)
      have hval1 : ∀ i ∈ g.L, i < memLen a1 := by
        rw [hlen1]
        exact hOK.valid
      obtain ⟨g', hg', hgL, hgrnk, _⟩ :=
        ghostOK_retarget hOK.partEq hval1 hrootRing1 hkidRing1
          hrootPar1 hkidPar1 hchildEq1 hdegEq1 hOK.rnkLt hheapF1 hsz heR hle
      refine ⟨a1, { min := some e, size := f.size }, g', ?_, hg', hgL, hgrnk,
        hlen1, rfl, hprio1ne, hprio1e, fun _ => rfl⟩
      simp only [decreaseKeyUnchecked]
      rw [ha1]
      rw [hpar1]
      dsimp only
      rw [hfm]
      dsimp only
      rw [if_pos hc]
    · -- the old min pointer stays
      have hme : m ≠ e := by
        intro h
        rw [h, hprio1e] at hc
        exact hc (Prior.ble_refl p)
      have hminLe1 : ∀ mh ∈ g.roots.head?, ∀ j ∈ g.roots,
          Prior.ble (getN a1 mh).priority (getN a1 j).priority = true := by
        intro mh hmh j hj
        have hmhm : m = mh := by
          rw [Option.mem_def, hmhead] at hmh
          injection hmh
        rw [← hmhm]
        by_cases hje : j = e
        · rw [hje, hprio1e, hprio1ne m hme]
          have := Prior.blt_of_not_ble hc
          rw [hprio1e, hprio1ne m hme] at this
          exact Prior.blt_ble this
        · rw [hprio1ne m hme, hprio1ne j hje]
          exact hOK.minLe m hmhead j hj
      have hg1 : ghostOK a1 { min := some m, size := f.size } g :=
        ⟨hOK.partEq, by rw [hlen1]; exact hOK.valid, hrootRing1, hkidRing1,
          hrootPar1, hkidPar1, hchildEq1, hdegEq1, hOK.rnkLt, hheapF1,
          hmhead.symm, hminLe1, hsz⟩
      refine ⟨a1, { min := some m, size := f.size }, g, ?_, hg1, rfl, rfl,
        hlen1, rfl, hprio1ne, hprio1e,
        fun hp => absurd (by rw [hprio1e, hp]; exact Prior.negInf_ble _) hc⟩
      simp only [decreaseKeyUnchecked]
      rw [ha1]
      rw [hpar1]
      dsimp only
      rw [hfm]
      dsimp only
      rw [if_neg hc]
  | some par =>
    have hpar1 : (getN a1 e).parent = some par := by rw [(hstru1 e).2.2.1, hpar]
    have heNR : e ∉ g.roots := by
      intro hc
      have := hOK.rootPar e hc
      rw [hpar] at this
      cases this
    obtain ⟨hparL, hekpar⟩ : par ∈ g.L ∧ e ∈ g.kids par := by
      rcases ghost_mem_split hOK.partEq e heL with h | ⟨q, hq, heq⟩
      · exact absurd h heNR
      · have := hOK.kidPar q hq e heq
        rw [hpar] at this
        injection this with h'
        rw [← h'] at hq heq
        exact ⟨hq, heq⟩
    have hparNe : par ≠ e := by
      have := hOK.rnkLt par hparL e hekpar
      intro h
      rw [h] at this
      omega
    have hmLe_par : Prior.ble (getN a m).priority (getN a par).priority = true :=
      ghost_min_le_all hOK m hmhead par hparL
    by_cases hcut : Prior.ble (getN a1 e).priority (getN a1 par).priority = true
    · -- the new priority violates the parent: cut
      have hminLe1 : ∀ mh ∈ g.roots.head?, ∀ j ∈ g.roots,
          Prior.ble (getN a1 mh).priority (getN a1 j).priority = true := by
        intro mh hmh j hj
        have hmhm : m = mh := by
          rw [Option.mem_def, hmhead] at hmh
          injection hmh
        rw [← hmhm, hprio1ne m (fun hc => heNR (hc ▸ hmR)),
          hprio1ne j (fun hc => heNR (hc ▸ hj))]
        exact hOK.minLe m hmhead j hj
      have hcutOK : cutOK a1 f.min g e (∅ : Finset Nat) := by
        refine ⟨hOK.partEq, by rw [hlen1]; exact hOK.valid, hrootRing1,
          hkidRing1, ?_, ?_, ?_, ?_, hOK.rnkLt, hheapLe1, hOK.minHead, hminLe1⟩
        · intro i hi _
          rw [(hstru1 i).2.2.1]
          exact hOK.rootPar i hi
        · intro i hi j hj
          rw [(hstru1 j).2.2.1]
          exact hOK.kidPar i hi j hj
        · intro i hi
          rw [(hstru1 i).2.2.2.1]
          exact hOK.childEq i hi
        · intro i hi
          rw [(hstru1 i).2.2.2.2]
          exact hOK.degEq i hi
      have hfuel : (g.L.filter (fun y => g.rnk e < g.rnk y)).card <
          memLen a1 + 1 := by
        have hval1 : ∀ i ∈ g.L, i < memLen a1 := by
          rw [hlen1]
          exact hOK.valid
        have := rnk_measure_le hval1 e
        omega
      obtain ⟨a2, fmin2, g2, hcnEq, hOK2, hL2, hrnk2, hmono2, heR2, hlen2,
        hprio2⟩ :=
        cutNode_spec (memLen a1 + 1) a1 f.min g ∅ e hcutOK heL
          (Finset.not_mem_empty e)
          (fun s hs => absurd hs (Finset.not_mem_empty s)) hfuel
      obtain ⟨m2, r2x, hroots2⟩ : ∃ m2 r2x, g2.roots = m2 :: r2x := by
        cases hr : g2.roots with
        | nil => rw [hr] at heR2; cases heR2
        | cons m2 r2x => exact ⟨m2, r2x, rfl⟩
      have hfmin2 : fmin2 = some m2 := by rw [hOK2.minHead, hroots2]; rfl
      have hm2head : g2.roots.head? = some m2 := by rw [hroots2]; rfl
      have hlen2a : memLen a2 = memLen a := by rw [hlen2, hlen1]
      have hprio2ne : ∀ k, k ≠ e →
          (getN a2 k).priority = (getN a k).priority := by
        intro k hk
        rw [hprio2 k, hprio1ne k hk]
      have hprio2e : (getN a2 e).priority = p := by
        rw [hprio2 e, hprio1e]
      have hsz2 : f.size = g2.L.card := by rw [hL2]; exact hsz
      by_cases hc2 : Prior.ble (getN a2 e).priority (getN a2 m2).priority = true
      · -- the cut node is the new min
        have hle2 : ∀ j ∈ g2.roots,
            Prior.ble (getN a2 e).priority (getN a2 j).priority = true := by
          intro j hj
          exact Prior.ble_trans hc2 (hOK2.minLe m2 hm2head j hj)
        obtain ⟨g', hg', hgL, hgrnk, _⟩ :=
          ghostOK_retarget hOK2.partEq hOK2.valid hOK2.rootRing hOK2.kidRing
            (fun i hi => hOK2.rootPar i hi (Finset.not_mem_empty i))
            hOK2.kidPar hOK2.childEq hOK2.degEq hOK2.rnkLt
            (cutOK_heapLe_all hOK2) hsz2 heR2 hle2
        refine ⟨a2, { min := some e, size := f.size }, g',
          ?_, hg', by rw [hgL, hL2], by rw [hgrnk, hrnk2], hlen2a, rfl,
          hprio2ne, hprio2e, fun _ => rfl⟩
        simp only [decreaseKeyUnchecked]
        rw [ha1]
        rw [hpar1]
        dsimp only
        rw [if_pos hcut, hcnEq]
        dsimp only
        rw [hfmin2]
        dsimp only
        rw [if_pos hc2]
      · -- the min pointer returned by the cut stays
        have hg2' : ghostOK a2 { min := some m2, size := f.size } g2 := by
          rw [← hfmin2]
          exact ghostOK_of_cutOK hOK2 hsz2
        refine ⟨a2, { min := some m2, size := f.size }, g2,
          ?_, hg2', hL2, hrnk2, hlen2a, rfl, hprio2ne, hprio2e,
          fun hp => absurd (by rw [hprio2e, hp]; exact Prior.negInf_ble _)
            hc2⟩
        simp only [decreaseKeyUnchecked]
        rw [ha1]
        rw [hpar1]
        dsimp only
        rw [if_pos hcut, hcnEq]
        dsimp only
        rw [hfmin2]
        dsimp only
        rw [if_neg hc2]
    · -- no violation: no structural change
      have hblt_par : Prior.blt (getN a par).priority p = true := by
        have h := Prior.blt_of_not_ble hcut
        rw [hprio1e, hprio1ne par hparNe] at h
        exact h
      have hmlt : Prior.blt (getN a m).priority p = true :=
        Prior.ble_blt_trans hmLe_par hblt_par
      have hc2 : ¬ Prior.ble (getN a1 e).priority (getN a1 m).priority = true := by
        rw [hprio1e, hprio1ne m (fun hc => heNR (hc ▸ hmR))]
        exact Prior.not_ble_of_blt hmlt
      have hheapF1 : ∀ i ∈ g.L, ∀ j ∈ g.kids i,
          Prior.ble (getN a1 i).priority (getN a1 j).priority = true := by
        intro i hi j hj
        by_cases hje : j = e
        · have hipar : i = par := by
            have h1 := hOK.kidPar i hi e (hje ▸ hj)
            rw [hpar] at h1
            injection h1 with h1
            exact h1.symm
          rw [hje, hipar, hprio1e, hprio1ne par hparNe]
          exact Prior.blt_ble hblt_par
        · exact hheapLe1 i hi j hj hje
      have hminLe1 : ∀ mh ∈ g.roots.head?, ∀ j ∈ g.roots,
          Prior.ble (getN a1 mh).priority (getN a1 j).priority = true := by
        intro mh hmh j hj
        have hmhm : m = mh := by
          rw [Option.mem_def, hmhead] at hmh
          injection hmh
        rw [← hmhm, hprio1ne m (fun hc => heNR (hc ▸ hmR)),
          hprio1ne j (fun hc => heNR (hc ▸ hj))]
        exact hOK.minLe m hmhead j hj
      have hg1 : ghostOK a1 { min := some m, size := f.size } g := by
        refine ⟨hOK.partEq, by rw [hlen1]; exact hOK.valid, hrootRing1,
          hkidRing1, ?_, ?_, ?_, ?_, hOK.rnkLt, hheapF1, hmhead.symm, hminLe1,
          hsz⟩
        · intro i hi
          rw [(hstru1 i).2.2.1]
          exact hOK.rootPar i hi
        · intro i hi j hj
          rw [(hstru1 j).2.2.1]
          exact hOK.kidPar i hi j hj
        · intro i hi
          rw [(hstru1 i).2.2.2.1]
          exact hOK.childEq i hi
        · intro i hi
          rw [(hstru1 i).2.2.2.2]
          exact hOK.degEq i hi
      refine ⟨a1, { min := some m, size := f.size }, g, ?_, hg1, rfl, rfl,
        hlen1, rfl, hprio1ne, hprio1e,
        fun hp => absurd (by
          rw [hprio1e, hp]
          exact Prior.negInf_ble _) hcut⟩
      simp only [decreaseKeyUnchecked]
      rw [ha1]
      rw [hpar1]
      dsimp only
      rw [if_neg hcut]
      dsimp only
      rw [hfm]
      dsimp only
      rw [if_neg hc2]

theorem demo_ghostOK : ghostOK demoA demoF demoG := by
  refine ⟨by decide, by decide, ?_, ?_, by decide, by decide,
    by decide, by decide, by decide, by decide, by decide, ?_, by decide⟩
  · exact isRing_singleton demoA 0 rfl rfl
  · intro i _
    trivial
  · intro m hm j hj
    have hm0 : m = 0 := by
      rw [Option.mem_def] at hm
      injection hm.symm
    have hj0 : j = 0 := by
      have : j ∈ ([0] : List Nat) := hj
      simpa using this
    rw [hm0, hj0]
    decide

/-- C3: on a well-formed heap containing `e`, `DecreaseKey(e, p)` with
`p` greater than `e`'s priority returns the exceeds-priority error and
changes nothing, while with `p` at most `e`'s priority it succeeds with no
error, sets `e`'s priority to `p` (leaving every other priority, the node
set, the arena length and the size unchanged), and returns a well-formed
heap, so every later `Min`/`DequeueMin` sees `e`'s priority as `p`. -/
theorem C3_decrease_key (a : Mem) (f : FibHeap) (g : Ghost) (e : Nat)
    (p : Prior) (hOK : ghostOK a f g) (heL : e ∈ g.L) :
    (Prior.blt (getN a e).priority p = true →
      DecreaseKey a f e p = some (a, f, some ErrorExceedsPriority)) ∧
    (Prior.blt (getN a e).priority p = false →
      ∃ a' f' g', DecreaseKey a f e p = some (a', f', none) ∧
        ghostOK a' f' g' ∧ g'.L = g.L ∧
        (getN a' e).priority = p ∧
        (∀ k, k ≠ e → (getN a' k).priority = (getN a k).priority) ∧
        memLen a' = memLen a ∧ f'.size = f.size) := by
  constructor
  · intro h
    simp [DecreaseKey, h]
  · intro h
    have hble : Prior.ble p (getN a e).priority = true := (Prior.not_blt _ _).mp h
    obtain ⟨a', f', g', hdef, hg', hL', _, hlen', hsz', hne', he'⟩ :=
      dku_spec a f g e p hOK heL hble
    refine ⟨a', f', g', ?_, hg', hL', he'.1, hne', hlen', hsz'⟩
    simp only [DecreaseKey]
    rw [h, if_neg Bool.false_ne_true, hdef]

theorem C3_decrease_key_witness :
    (Prior.blt (getN demoA 0).priority (Prior.fin 9) = true →
      DecreaseKey demoA demoF 0 (Prior.fin 9) =
        some (demoA, demoF, some ErrorExceedsPriority)) ∧
    (Prior.blt (getN demoA 0).priority (Prior.fin 9) = false →
      ∃ a' f' g', DecreaseKey demoA demoF 0 (Prior.fin 9) =
          some (a', f', none) ∧
        ghostOK a' f' g' ∧ g'.L = demoG.L ∧
        (getN a' 0).priority = Prior.fin 9 ∧
        (∀ k, k ≠ 0 → (getN a' k).priority = (getN demoA k).priority) ∧
        memLen a' = memLen demoA ∧ f'.size = demoF.size) :=
  C3_decrease_key demoA demoF demoG 0 (Prior.fin 9) demo_ghostOK (by decide)

/-- C9: on a well-formed heap that contains the entry `e` handed to
`DecreaseKey`/`Delete`, the heap's min pointer is present, so the
unconditional `f.min.Priority` read inside `decreaseKeyUnchecked` never
dereferences an absent pointer: for every new priority at most the old one
(which covers the negative-infinity priority used by `Delete`), the call
returns a result instead of the dereference-failure outcome. -/
theorem C9_min_deref (a : Mem) (f : FibHeap) (g : Ghost) (e : Nat)
    (hOK : ghostOK a f g) (heL : e ∈ g.L) :
    (∃ m, f.min = some m) ∧
    (∀ p, Prior.ble p (getN a e).priority = true →
      decreaseKeyUnchecked a f e p ≠ none) ∧
    decreaseKeyUnchecked a f e Prior.negInf ≠ none := by
  have hLne : g.L.Nonempty := ⟨e, heL⟩
  obtain ⟨m, rx, hroots⟩ : ∃ m rx, g.roots = m :: rx := by
    cases hr : g.roots with
    | nil => exact absurd hr (ghost_roots_nonempty hOK.partEq hOK.rnkLt hLne)
    | cons m rx => exact ⟨m, rx, rfl⟩
  have hfm : f.min = some m := by rw [hOK.minHead, hroots]; rfl
  have hgen : ∀ p, Prior.ble p (getN a e).priority = true →
      decreaseKeyUnchecked a f e p ≠ none := by
    intro p hp hc
    obtain ⟨a', f', g', hdef, _⟩ := dku_spec a f g e p hOK heL hp
    rw [hdef] at hc
    cases hc
  exact ⟨⟨m, hfm⟩, hgen, hgen Prior.negInf (Prior.negInf_ble _)⟩

theorem C9_min_deref_witness :
    (∃ m, demoF.min = some m) ∧
    (∀ p, Prior.ble p (getN demoA 0).priority = true →
      decreaseKeyUnchecked demoA demoF 0 p ≠ none) ∧
    decreaseKeyUnchecked demoA demoF 0 Prior.negInf ≠ none :=
  C9_min_deref demoA demoF demoG 0 demo_ghostOK (by decide)

theorem forestOK_of_ghostOK {a : Mem} {f : FibHeap} {g : Ghost}
    (h : ghostOK a f g) : forestOK a g :=
  ⟨h.partEq, h.valid, h.rootRing, h.kidRing, h.rootPar, h.kidPar, h.childEq,
    h.degEq, h.rnkLt, h.heapLe⟩

/-- The root-ring capture loop: walking a ring chain whose stop sentinel
does not occur among the traversed links collects exactly the chain. -/
theorem collectRing_go : ∀ (fuel : Nat) (a : Mem) (curr stop : Nat)
    (rest : List Nat),
    List.Chain (lnk a) curr (rest ++ [ stop]) → stop ∉ rest →
    rest.length < fuel →
    collectRing fuel a curr stop = some (curr :: rest)
  | 0, _, _, _, rest => by
    intro _ _ hf
    omega
  | fuel+1, a, curr, stop, [] => by
    intro hch _ _
    simp only [List.nil_append, List.chain_cons] at hch
    simp only [collectRing]
    rw [hch.1.1, if_pos rfl]
  | fuel+1, a, curr, stop, r :: rest' => by
    intro hch hstop hf
    simp only [List.cons_append, List.chain_cons] at hch
    have hrs : r ≠ stop := fun hc => hstop (by rw [← hc]; simp)
    simp only [collectRing]
    rw [hch.1.1, if_neg hrs,
      collectRing_go fuel a r stop rest' hch.2
        (fun hc => hstop (by simp [hc])) (by simp at hf; omega)]
    rfl

/-- Specification of `collectRing` started anywhere on a full ring. -/
theorem collectRing_spec (a : Mem) (x : Nat) (xs : List Nat)
    (hr : isRing a (x :: xs)) (hnd : (x :: xs).Nodup)
    (hf : xs.length < memLen a + 1)
    (hv : True) :
    collectRing (memLen a + 1) a x x = some (x :: xs) :=
  collectRing_go (memLen a + 1) a x x xs hr
    (List.nodup_cons.mp hnd).1 hf

/-- The parent-clearing do-while loop of `DequeueMin`: it visits exactly
the chain from the start to the node whose `next` is the stop sentinel,
clears each visited `parent`, and touches nothing else. -/
theorem clearParents_go : ∀ (fuel : Nat) (a : Mem) (curr stop : Nat)
    (rest : List Nat),
    List.Chain (lnk a) curr (rest ++ [ stop]) → stop ∉ rest →
    (curr :: rest).Nodup → (∀ i ∈ curr :: rest, i < memLen a) →
    rest.length < fuel →
    ∃ a', clearParents fuel a curr stop = some a' ∧
      memLen a' = memLen a ∧
      (∀ k ∈ curr :: rest, (getN a' k).parent = none) ∧
      (∀ k, k ∉ curr :: rest → (getN a' k).parent = (getN a k).parent) ∧
      (∀ k, (getN a' k).next = (getN a k).next ∧
            (getN a' k).prev = (getN a k).prev ∧
            (getN a' k).child = (getN a k).child ∧
            (getN a' k).degree = (getN a k).degree ∧
            (getN a' k).marked = (getN a k).marked ∧
            (getN a' k).priority = (getN a k).priority)
  | 0, _, _, _, rest => by
    intro _ _ _ _ hf
    omega
  | fuel+1, a, curr, stop, [] => by
    intro hch _ _ hval _
    obtain ⟨a1, ha1⟩ : ∃ a1 : Mem,
        updN a curr (fun n => { n with parent := none }) = a1 := ⟨_, rfl⟩
    simp only [List.nil_append, List.chain_cons] at hch
    have hn1 : (getN a1 curr).next = stop := by
      rw [← ha1]
      simp [hch.1.1]
    refine ⟨a1, ?_, by rw [← ha1, memLen_updN], ?_, ?_, ?_⟩
    · simp only [clearParents]
      rw [ha1, hn1, if_pos rfl]
    · intro k hk
      simp only [List.mem_singleton] at hk
      rw [hk, ← ha1, getN_updN_self _ _ _ (hval curr (by simp))]
    · intro k hk
      simp only [List.mem_singleton] at hk
      rw [← ha1, getN_updN_ne _ _ _ _ hk]
    · intro k
      rw [← ha1]
      exact ⟨by simp, by simp, by simp, by simp, by simp, by simp⟩
  | fuel+1, a, curr, stop, r :: rest' => by
    intro hch hstop hnd hval hf
    obtain ⟨a1, ha1⟩ : ∃ a1 : Mem,
        updN a curr (fun n => { n with parent := none }) = a1 := ⟨_, rfl⟩
    simp only [List.cons_append, List.chain_cons] at hch
    have hn1 : (getN a1 curr).next = r := by
      rw [← ha1]
      simp [hch.1.1]
    have hrs : r ≠ stop := fun hc => hstop (by rw [← hc]; simp)
    have hstru1 : ∀ k, (getN a1 k).next = (getN a k).next ∧
        (getN a1 k).prev = (getN a k).prev ∧
        (getN a1 k).child = (getN a k).child ∧
        (getN a1 k).degree = (getN a k).degree ∧
        (getN a1 k).marked = (getN a k).marked ∧
        (getN a1 k).priority = (getN a k).priority := by
      intro k
      rw [← ha1]
      exact ⟨by simp, by simp, by simp, by simp, by simp, by simp⟩
    have hch1 : List.Chain (lnk a1) r (rest' ++ [ stop]) := by
      refine chain_lnk_congr a a1 rest' r stop (hstru1 r).1 ?_ (hstru1 stop).2.1
        hch.2
      intro i _
      exact ⟨(hstru1 i).1, (hstru1 i).2.1⟩
    have hlen1 : memLen a1 = memLen a := by rw [← ha1, memLen_updN]
    obtain ⟨a', hdef, hlen', hcl', hfr', hstru'⟩ :=
      clearParents_go fuel a1 r stop rest' hch1
        (fun hc => hstop (by simp [hc]))
        (List.nodup_cons.mp hnd).2
        (fun i hi => by rw [hlen1]; exact hval i (List.mem_cons_of_mem _ hi))
        (by simp at hf; omega)
    have hcurr_nin : curr ∉ r :: rest' := (List.nodup_cons.mp hnd).1
    refine ⟨a', ?_, by rw [hlen', hlen1], ?_, ?_, ?_⟩
    · simp only [clearParents]
      rw [ha1, hn1, if_neg hrs, hdef]
    · intro k hk
      rcases List.mem_cons.mp hk with h1 | h1
      · rw [h1, hfr' curr hcurr_nin, ← ha1,
          getN_updN_self _ _ _ (hval curr (by simp))]
      · exact hcl' k h1
    · intro k hk
      have hk1 : k ∉ r :: rest' := fun hc => hk (List.mem_cons_of_mem _ hc)
      have hkc : k ≠ curr := fun hc => hk (hc ▸ List.mem_cons_self _ _)
      rw [hfr' k hk1, ← ha1, getN_updN_ne _ _ _ _ hkc]
    · intro k
      refine ⟨?_, ?_, ?_, ?_, ?_, ?_⟩
      · rw [(hstru' k).1, (hstru1 k).1]
      · rw [(hstru' k).2.1, (hstru1 k).2.1]
      · rw [(hstru' k).2.2.1, (hstru1 k).2.2.1]
      · rw [(hstru' k).2.2.2.1, (hstru1 k).2.2.2.1]
      · rw [(hstru' k).2.2.2.2.1, (hstru1 k).2.2.2.2.1]
      · rw [(hstru' k).2.2.2.2.2, (hstru1 k).2.2.2.2.2]

/-- One step of the inner consolidation loop, phrased through `consLink`. -/
theorem consolidateStep_succ (fuel : Nat) (a : Mem) (tt : List (Option Nat))
    (curr : Nat) :
    consolidateStep (fuel + 1) a tt curr =
      (match List.getD (growTable tt (getN a curr).degree)
          (getN a curr).degree none with
       | none => some (a, List.set (growTable tt (getN a curr).degree)
           (getN a curr).degree (some curr), curr)
       | some other =>
         consolidateStep fuel
           (consLink a
             (if Prior.blt (getN a other).priority (getN a curr).priority
              then other else curr)
             (if Prior.blt (getN a other).priority (getN a curr).priority
              then curr else other))
           (List.set (growTable tt (getN a curr).degree)
             (getN a curr).degree none)
           (if Prior.blt (getN a other).priority (getN a curr).priority
            then other else curr)) := rfl

/-- Specification of `consLink`: linking root `mx` (the larger priority)
under root `mn` removes `mx` from the root list, grows `mn`'s child list by
`mx`, bumps `mn`'s degree, and keeps everything else — in particular every
priority and every other degree — unchanged. -/
theorem consLink_spec (a : Mem) (g : Ghost) (mn mx : Nat)
    (hOK : forestOK a g) (hmnR : mn ∈ g.roots) (hmxR : mx ∈ g.roots)
    (hne : mn ≠ mx)
    (hble : Prior.ble (getN a mn).priority (getN a mx).priority = true) :
    ∃ g', forestOK (consLink a mn mx) g' ∧
      g'.L = g.L ∧
      (∀ x, x ∈ g'.roots ↔ x ∈ g.roots ∧ x ≠ mx) ∧
      g'.roots.length + 1 = g.roots.length ∧
      memLen (consLink a mn mx) = memLen a ∧
      (∀ k, (getN (consLink a mn mx) k).priority = (getN a k).priority) ∧
      (∀ k, k ≠ mn → k ≠ mx →
        (getN (consLink a mn mx) k).degree = (getN a k).degree) ∧
      (getN (consLink a mn mx) mn).degree = (getN a mn).degree + 1 ∧
      mn ∈ g'.roots := by
  have hmnL : mn ∈ g.L := ghost_roots_subset hOK.partEq mn hmnR
  have hmxL : mx ∈ g.L := ghost_roots_subset hOK.partEq mx hmxR
  have hmnLv : mn < memLen a := hOK.valid mn hmnL
  have hmxLv : mx < memLen a := hOK.valid mx hmxL
  have hrootsN : g.roots.Nodup := ghost_roots_nodup hOK.partEq
  obtain ⟨rs, hringMx, hms⟩ := isRing_to_head a g.roots mx hmxR hOK.rootRing
  have hperm : (mx :: rs).Perm g.roots := Quotient.exact hms
  have hndMx : (mx :: rs).Nodup := hperm.symm.nodup hrootsN
  have hmx_rs : mx ∉ rs := (List.nodup_cons.mp hndMx).1
  have hmem_rs : ∀ x, x ∈ rs ↔ x ∈ g.roots ∧ x ≠ mx := by
    intro x
    constructor
    · intro hx
      exact ⟨hperm.mem_iff.mp (List.mem_cons_of_mem _ hx),
        fun hc => hmx_rs (hc ▸ hx)⟩
    · rintro ⟨hx1, hx2⟩
      rcases List.mem_cons.mp (hperm.mem_iff.mpr hx1) with h | h
      · exact absurd h hx2
      · exact h
  have hmn_rs : mn ∈ rs := (hmem_rs mn).mpr ⟨hmnR, hne⟩
  have hrs_ne : rs ≠ [] := fun hc => by rw [hc] at hmn_rs; cases hmn_rs
  obtain ⟨r1, hr1⟩ : ∃ r1, rs.headD mx = r1 := ⟨_, rfl⟩
  obtain ⟨lm, hlm⟩ : ∃ lm, rs.getLastD mx = lm := ⟨_, rfl⟩
  have hr1mem : r1 ∈ rs := hr1 ▸ headD_mem mx rs hrs_ne
  have hlmmem : lm ∈ rs := hlm ▸ getLastD_mem mx rs hrs_ne
  have hmxr1 : mx ≠ r1 := fun hc => hmx_rs (hc ▸ hr1mem)
  have hmxlm : mx ≠ lm := fun hc => hmx_rs (hc ▸ hlmmem)
  have hvMx : ∀ i ∈ mx :: rs, i < memLen a := by
    intro i hi
    exact hOK.valid i
      (ghost_roots_subset hOK.partEq i (hperm.mem_iff.mp hi))
  have hnextmx : (getN a mx).next = r1 := by
    have h := (ring_next_head a mx rs hringMx).1
    cases hrr : rs with
    | nil => exact absurd hrr hrs_ne
    | cons w ws =>
      rw [hrr] at h
      rw [h, ← hr1, hrr]
  have hprevmx : (getN a mx).prev = lm := by
    have h := (ring_last_link a mx rs hringMx).2
    rw [hlm] at h
    exact h
  obtain ⟨a2, ha2, hlen2, hring2, hnext_fr2, hnext_lm2, hprev_fr2, hprev_r12,
    hflds2, hout2⟩ := spliceOutB a mx r1 lm rs hr1 hlm hringMx hndMx hrs_ne hvMx
  -- make `mx` a singleton ring
  obtain ⟨a3, ha3⟩ : ∃ a3 : Mem,
      updN a2 mx (fun n => { n with next := mx, prev := mx }) = a3 := ⟨_, rfl⟩
  have hlen3 : memLen a3 = memLen a := by rw [← ha3, memLen_updN, hlen2]
  have hfl3 : ∀ k, (getN a3 k).parent = (getN a k).parent ∧
      (getN a3 k).child = (getN a k).child ∧
      (getN a3 k).degree = (getN a k).degree ∧
      (getN a3 k).priority = (getN a k).priority := by
    intro k
    rw [← ha3]
    refine ⟨?_, ?_, ?_, ?_⟩ <;> simp [(hflds2 k).1, (hflds2 k).2.1,
      (hflds2 k).2.2.1, (hflds2 k).2.2.2.2.1]
  have hnp3 : ∀ k, k ≠ mx → k ≠ r1 → k ≠ lm →
      (getN a3 k).next = (getN a k).next ∧
      (getN a3 k).prev = (getN a k).prev := by
    intro k h1 h2 h3
    rw [← ha3, getN_updN_ne _ _ _ _ h1, hout2 k h2 h3]
    exact ⟨rfl, rfl⟩
  have hring3rs : isRing a3 rs := by
    refine isRing_congr a2 a3 _ ?_ hring2
    intro j hj
    have hjmx : j ≠ mx := fun hc => hmx_rs (hc ▸ hj)
    rw [← ha3, getN_updN_ne _ _ _ _ hjmx]
    exact ⟨rfl, rfl⟩
  have hringMx3 : isRing a3 [mx] := by
    refine isRing_singleton a3 mx ?_ ?_ <;>
      rw [← ha3, getN_updN_self _ _ _ (by rw [hlen2]; exact hmxLv)]
  have hkids_rootdisj : ∀ i ∈ g.L, ∀ j ∈ g.kids i, j ∉ g.roots := by
    intro i hi j hj hc
    exact ghost_roots_kids_disj hOK.partEq i hi j hj hc
  have hkidRing3 : ∀ i ∈ g.L, isRing a3 (g.kids i) := by
    intro i hi
    refine isRing_congr a a3 _ ?_ (hOK.kidRing i hi)
    intro j hj
    have hjr : j ∉ g.roots := hkids_rootdisj i hi j hj
    exact hnp3 j (fun hc => hjr (hc ▸ hmxR))
      (fun hc => hjr (hc ▸ (hmem_rs r1).mp hr1mem).1)
      (fun hc => hjr (hc ▸ (hmem_rs lm).mp hlmmem).1)
  -- the merge of the singleton into the child ring
  have hchild3mn : (getN a3 mn).child = (g.kids mn).head? := by
    rw [(hfl3 mn).2.1, hOK.childEq mn hmnL]
  have hmerge : ∃ a4m pt newKids,
      mergeLists a3 (getN a3 mn).child (some mx) = (a4m, pt) ∧
      memLen a4m = memLen a ∧
      isRing a4m newKids ∧ pt = newKids.head? ∧
      ((newKids : Multiset Nat) = {mx} + ((g.kids mn : List Nat) : Multiset Nat)) ∧
      (∀ k, (getN a4m k).parent = (getN a3 k).parent ∧
            (getN a4m k).child = (getN a3 k).child ∧
            (getN a4m k).degree = (getN a3 k).degree ∧
            (getN a4m k).priority = (getN a3 k).priority) ∧
      (∀ k, k ∉ g.kids mn → k ≠ mx →
        (getN a4m k).next = (getN a3 k).next ∧
        (getN a4m k).prev = (getN a3 k).prev) := by
    obtain ⟨kl, hkmn⟩ : ∃ kl, g.kids mn = kl := ⟨_, rfl⟩
    cases kl with
    | nil =>
      have hch : (getN a3 mn).child = none := by rw [hchild3mn, hkmn]; rfl
      refine ⟨a3, some mx, [mx], by rw [hch]; rfl, hlen3, hringMx3, rfl, ?_,
        fun k => ⟨rfl, rfl, rfl, rfl⟩, fun k _ _ => ⟨rfl, rfl⟩⟩
      rw [hkmn]
      rfl
    | cons c cs =>
      have hch : (getN a3 mn).child = some c := by rw [hchild3mn, hkmn]; rfl
      have hkN : (g.kids mn).Nodup := ghost_kids_nodup hOK.partEq mn hmnL
      have hmxK : mx ∉ g.kids mn := fun hc =>
        hkids_rootdisj mn hmnL mx hc hmxR
      have hndM : ((c :: cs) ++ (mx :: ([] : List Nat))).Nodup := by
        rw [List.nodup_append]
        refine ⟨by rw [← hkmn]; exact hkN, by simp, ?_⟩
        intro x hx hx2
        simp only [List.mem_cons, List.not_mem_nil, or_false] at hx2
        rw [hx2] at hx
        exact hmxK (hkmn ▸ hx)
      have hvM : ∀ i ∈ (c :: cs) ++ (mx :: ([] : List Nat)),
          i < memLen a3 := by
        intro i hi
        rw [hlen3]
        rw [List.mem_append] at hi
        rcases hi with hi | hi
        · exact hOK.valid i
            (ghost_kids_subset hOK.partEq mn hmnL i (hkmn ▸ hi))
        · simp only [List.mem_cons, List.not_mem_nil, or_false] at hi
          rw [hi]
          exact hmxLv
      have hringC : isRing a3 (c :: cs) := by
        have h := hkidRing3 mn hmnL
        rwa [hkmn] at h
      obtain ⟨a4m, heqM, hlenM, hringM, hfldsM, houtM⟩ :=
        mergeLists_spec a3 c mx cs [] hringC hringMx3 hndM hvM
      have hringM' : isRing a4m (c :: mx :: cs) := by simpa using hringM
      have hfr : ∀ k, k ∉ g.kids mn → k ≠ mx →
          (getN a4m k).next = (getN a3 k).next ∧
          (getN a4m k).prev = (getN a3 k).prev := by
        intro k hk1 hk2
        have : getN a4m k = getN a3 k := by
          refine houtM k ?_
          intro hc
          rw [List.mem_append] at hc
          rcases hc with hc | hc
          · exact hk1 (hkmn ▸ hc)
          · simp only [List.mem_cons, List.not_mem_nil, or_false] at hc
            exact hk2 hc
        rw [this]
        exact ⟨rfl, rfl⟩
      have hflds : ∀ k, (getN a4m k).parent = (getN a3 k).parent ∧
          (getN a4m k).child = (getN a3 k).child ∧
          (getN a4m k).degree = (getN a3 k).degree ∧
          (getN a4m k).priority = (getN a3 k).priority := by
        intro k
        exact ⟨(hfldsM k).1, (hfldsM k).2.1, (hfldsM k).2.2.1,
          (hfldsM k).2.2.2.2.1⟩
      by_cases hblt :
          Prior.blt (getN a3 c).priority (getN a3 mx).priority = true
      · refine ⟨a4m, some c, c :: mx :: cs, ?_, by rw [hlenM, hlen3],
          hringM', rfl, ?_, hflds, hfr⟩
        · rw [hch, heqM, if_pos hblt]
        · rw [hkmn, Multiset.singleton_add, ← Multiset.cons_coe]
          exact Quot.sound (List.Perm.swap mx c cs)
      · refine ⟨a4m, some mx, mx :: (cs ++ [c]), ?_,
          by rw [hlenM, hlen3], ?_, rfl, ?_, hflds, hfr⟩
        · rw [hch, heqM, if_neg hblt]
        · have h := isRing_rotate_one a4m c (mx :: cs) hringM'
          simpa using h
        · rw [hkmn, Multiset.singleton_add, ← Multiset.cons_coe]
          exact Quot.sound ((List.perm_append_singleton c cs).cons mx)
  obtain ⟨a4m, pt, newKids, heqM, hlenM, hringNK, hpt, hmsNK, hfldsM, hfrM⟩ :=
    hmerge
  obtain ⟨a5, ha5⟩ : ∃ a5 : Mem,
      updN a4m mn (fun n => { n with child := pt }) = a5 := ⟨_, rfl⟩
  obtain ⟨a6, ha6⟩ : ∃ a6 : Mem,
      updN a5 mx (fun n => { n with parent := some mn }) = a6 := ⟨_, rfl⟩
  obtain ⟨a7, ha7⟩ : ∃ a7 : Mem,
      updN a6 mx (fun n => { n with marked := false }) = a7 := ⟨_, rfl⟩
  obtain ⟨a8, ha8⟩ : ∃ a8 : Mem,
      updN a7 mn (fun n => { n with degree := n.degree + 1 }) = a8 := ⟨_, rfl⟩
  have hlen5 : memLen a5 = memLen a := by rw [← ha5, memLen_updN, hlenM]
  have hlen6 : memLen a6 = memLen a := by rw [← ha6, memLen_updN, hlen5]
  have hlen7 : memLen a7 = memLen a := by rw [← ha7, memLen_updN, hlen6]
  have hlen8 : memLen a8 = memLen a := by rw [← ha8, memLen_updN, hlen7]
  have hconsEq : consLink a mn mx = a8 := by
    simp only [consLink]
    rw [hnextmx, hprevmx]
    rw [getN_updN_ne a r1 mx _ hmxr1]
    rw [hprevmx, hnextmx, ha2, ha3]
    rw [heqM]
    dsimp only
    rw [ha5, ha6, ha7, ha8]
  have hprio8 : ∀ k, (getN a8 k).priority = (getN a k).priority := by
    intro k
    rw [← ha8, ← ha7, ← ha6, ← ha5]
    simp only [wDegInc_priority, wM_priority, wPar_priority, wC_priority]
    rw [(hfldsM k).2.2.2, (hfl3 k).2.2.2]
  have hdeg8ne : ∀ k, k ≠ mn → (getN a8 k).degree = (getN a k).degree := by
    intro k hk
    rw [← ha8, getN_updN_ne _ _ _ _ hk, ← ha7, ← ha6, ← ha5]
    simp only [wM_degree, wPar_degree, wC_degree]
    rw [(hfldsM k).2.2.1, (hfl3 k).2.2.1]
  have hdeg7mn : (getN a7 mn).degree = (getN a mn).degree := by
    rw [← ha7, ← ha6, ← ha5]
    simp only [wM_degree, wPar_degree, wC_degree]
    rw [(hfldsM mn).2.2.1, (hfl3 mn).2.2.1]
  have hdeg8mn : (getN a8 mn).degree = (getN a mn).degree + 1 := by
    rw [← ha8, getN_updN_self _ _ _ (by rw [hlen7]; exact hmnLv)]
    show (getN a7 mn).degree + 1 = _
    rw [hdeg7mn]
  have hpar8 : ∀ k, k ≠ mx → (getN a8 k).parent = (getN a k).parent := by
    intro k hk
    rw [← ha8, ← ha7]
    simp only [wDegInc_parent, wM_parent]
    rw [← ha6, getN_updN_ne _ _ _ _ hk, ← ha5]
    simp only [wC_parent]
    rw [(hfldsM k).1, (hfl3 k).1]
  have hpar8mx : (getN a8 mx).parent = some mn := by
    rw [← ha8, ← ha7]
    simp only [wDegInc_parent, wM_parent]
    rw [← ha6, getN_updN_self _ _ _ (by rw [hlen5]; exact hmxLv)]
  have hchild8 : ∀ k, k ≠ mn → (getN a8 k).child = (getN a k).child := by
    intro k hk
    rw [← ha8, ← ha7, ← ha6, ← ha5]
    simp only [wDegInc_child, wM_child, wPar_child]
    rw [getN_updN_ne _ _ _ _ hk, (hfldsM k).2.1, (hfl3 k).2.1]
  have hchild8mn : (getN a8 mn).child = pt := by
    rw [← ha8, ← ha7, ← ha6, ← ha5]
    simp only [wDegInc_child, wM_child, wPar_child]
    rw [getN_updN_self _ _ _ (by rw [hlenM]; exact hmnLv)]
  have hnp8 : ∀ k, (getN a8 k).next = (getN a4m k).next ∧
      (getN a8 k).prev = (getN a4m k).prev := by
    intro k
    rw [← ha8, ← ha7, ← ha6, ← ha5]
    exact ⟨by simp, by simp⟩
  have hmemNK : ∀ j, j ∈ newKids ↔ (j = mx ∨ j ∈ g.kids mn) := by
    intro j
    rw [← Multiset.mem_coe, hmsNK]
    simp
  have hlenNK : newKids.length = (g.kids mn).length + 1 := by
    have h := congrArg Multiset.card hmsNK
    simp only [Multiset.coe_card, Multiset.card_add, Multiset.card_singleton]
      at h
    omega
  have hlrs : rs.length + 1 = g.roots.length := by
    have h := congrArg Multiset.card hms
    simp only [Multiset.coe_card, List.length_cons] at h
    omega
  have hmn_nk : mn ∉ newKids := by
    intro hc
    rcases (hmemNK mn).mp hc with h | h
    · exact hne h
    · exact hkids_rootdisj mn hmnL mn h hmnR
  -- the root ring and the child rings in the final arena
  have hring8rs : isRing a8 rs := by
    refine isRing_congr a4m a8 _ (fun j _ => ⟨(hnp8 j).1, (hnp8 j).2⟩) ?_
    refine isRing_congr a3 a4m _ ?_ hring3rs
    intro j hj
    have hjr : j ∈ g.roots := ((hmem_rs j).mp hj).1
    exact hfrM j (fun hc => hkids_rootdisj mn hmnL j hc hjr)
      (fun hc => hmx_rs (hc ▸ hj))
  have hring8nk : isRing a8 newKids :=
    isRing_congr a4m a8 _ (fun j _ => ⟨(hnp8 j).1, (hnp8 j).2⟩) hringNK
  have hring8kid : ∀ i ∈ g.L, i ≠ mn → isRing a8 (g.kids i) := by
    intro i hi himn
    refine isRing_congr a4m a8 _ (fun j _ => ⟨(hnp8 j).1, (hnp8 j).2⟩) ?_
    refine isRing_congr a3 a4m _ ?_ (hkidRing3 i hi)
    intro j hj
    exact hfrM j
      (fun hc => ghost_kids_disj hOK.partEq i hi mn hmnL himn j hj hc)
      (fun hc => hkids_rootdisj i hi j hj (hc ▸ hmxR))
  rw [hconsEq]
  refine ⟨⟨g.L, rs, fun i => if i = mn then newKids else g.kids i,
      fun x => if x = mn then g.rnk mn + g.rnk mx + 1 else g.rnk x⟩,
    ?_, rfl, hmem_rs, hlrs, hlen8, hprio8,
    fun k h1 _ => hdeg8ne k h1, hdeg8mn, hmn_rs⟩
  refine ⟨?_, ?_, hring8rs, ?_, ?_, ?_, ?_, ?_, ?_, ?_⟩
  · -- the partition
    show ((rs : List Nat) : Multiset Nat) + _ = _
    have hse : (∑ i in g.L.erase mn,
        (((if i = mn then newKids else g.kids i : List Nat)) : Multiset Nat)) =
        ∑ i in g.L.erase mn, ((g.kids i : List Nat) : Multiset Nat) :=
      Finset.sum_congr rfl (fun i hi => by
        rw [if_neg (Finset.ne_of_mem_erase hi)])
    have hsum : (∑ i in g.L,
        (((if i = mn then newKids else g.kids i : List Nat)) : Multiset Nat)) =
        {mx} + ∑ i in g.L, ((g.kids i : List Nat) : Multiset Nat) := by
      rw [← Finset.add_sum_erase _ _ hmnL, if_pos rfl, hmsNK, hse,
        ← Finset.add_sum_erase _
          (fun i => ((g.kids i : List Nat) : Multiset Nat)) hmnL,
        add_assoc]
    rw [hsum, ← add_assoc,
      add_comm ((rs : List Nat) : Multiset Nat) ({mx} : Multiset Nat)]
    have h2 : ({mx} : Multiset Nat) + ((rs : List Nat) : Multiset Nat) =
        ((g.roots : List Nat) : Multiset Nat) := by
      simp only [Multiset.singleton_add, ← Multiset.cons_coe]
      exact hms
    rw [h2]
    exact hOK.partEq
  · intro i hi
    rw [hlen8]
    exact hOK.valid i hi
  · intro i hi
    dsimp only
    by_cases himn : i = mn
    · rw [if_pos himn]
      exact hring8nk
    · rw [if_neg himn]
      exact hring8kid i hi himn
  · intro i hi
    rw [hpar8 i (fun hc => hmx_rs (hc ▸ hi))]
    exact hOK.rootPar i ((hmem_rs i).mp hi).1
  · intro i hi j hj
    dsimp only at hj
    by_cases himn : i = mn
    · rw [if_pos himn] at hj
      rcases (hmemNK j).mp hj with h | h
      · rw [h, himn, hpar8mx]
      · have hjmx : j ≠ mx := fun hc => hkids_rootdisj mn hmnL mx (hc ▸ h) hmxR
        rw [hpar8 j hjmx, himn]
        exact hOK.kidPar mn hmnL j h
    · rw [if_neg himn] at hj
      have hjmx : j ≠ mx := fun hc => hkids_rootdisj i hi j hj (hc ▸ hmxR)
      rw [hpar8 j hjmx]
      exact hOK.kidPar i hi j hj
  · intro i hi
    dsimp only
    by_cases himn : i = mn
    · rw [if_pos himn, himn, hchild8mn, hpt]
    · rw [if_neg himn, hchild8 i himn]
      exact hOK.childEq i hi
  · intro i hi
    dsimp only
    by_cases himn : i = mn
    · rw [if_pos himn, himn, hdeg8mn, hlenNK, hOK.degEq mn hmnL]
    · rw [if_neg himn, hdeg8ne i himn]
      exact hOK.degEq i hi
  · intro i hi j hj
    dsimp only at hj ⊢
    by_cases himn : i = mn
    · rw [if_pos himn] at hj
      have hjmn : j ≠ mn := fun hc => hmn_nk (hc ▸ hj)
      rw [if_pos himn, if_neg hjmn]
      rcases (hmemNK j).mp hj with h | h
      · rw [h]
        omega
      · have := hOK.rnkLt mn hmnL j h
        omega
    · rw [if_neg himn] at hj
      have hjmn : j ≠ mn := fun hc =>
        hkids_rootdisj i hi mn (hc ▸ hj) hmnR
      rw [if_neg himn, if_neg hjmn]
      exact hOK.rnkLt i hi j hj
  · intro i hi j hj
    dsimp only at hj
    rw [hprio8 i, hprio8 j]
    by_cases himn : i = mn
    · rw [if_pos himn] at hj
      rcases (hmemNK j).mp hj with h | h
      · rw [h, himn]
        exact hble
      · rw [himn]
        exact hOK.heapLe mn hmnL j h
    · rw [if_neg himn] at hj
      exact hOK.heapLe i hi j hj

theorem getD_replicate_none (n i : Nat) :
    (List.replicate n (none : Option Nat)).getD i none = none := by
  induction n generalizing i with
  | zero => rfl
  | succ n ih =>
    cases i with
    | zero => rfl
    | succ i => exact ih i

theorem growTable_getD (tt : List (Option Nat)) (d d' : Nat) :
    (growTable tt d).getD d' none = tt.getD d' none := by
  by_cases h : d' < tt.length
  · simp only [growTable, List.append_eq]
    rw [List.getD_append _ _ _ _ h]
  · rw [List.getD_eq_default _ _ (le_of_not_lt h)]
    simp only [growTable, List.append_eq]
    rw [List.getD_append_right _ _ _ _ (le_of_not_lt h),
      getD_replicate_none]

theorem growTable_length (tt : List (Option Nat)) (d : Nat) :
    d < (growTable tt d).length := by
  simp only [growTable, List.append_eq, List.length_append,
    List.length_replicate]
  omega

theorem getD_set_self (l : List (Option Nat)) (i : Nat) (v : Option Nat)
    (h : i < l.length) : (l.set i v).getD i none = v := by
  simp [List.getD_eq_getElem?_getD, List.getElem?_set_eq_of_lt _ h]

theorem getD_set_ne (l : List (Option Nat)) (i j : Nat) (v : Option Nat)
    (h : j ≠ i) : (l.set i v).getD j none = l.getD j none := by
  simp [List.getD_eq_getElem?_getD, List.getElem?_set_ne (Ne.symm h)]

/-- Specification of the inner consolidation loop: starting from a root
not in the table, it keeps linking same-degree roots until a free slot is
found, terminates, preserves the node set and all priorities, and ends
with the final root `c` (of minimal priority among everything it absorbed)
registered in the table at its degree. -/
theorem consolidateStep_spec : ∀ (fuel : Nat) (a : Mem)
    (tt : List (Option Nat)) (curr : Nat) (g : Ghost),
    forestOK a g → ttOK a g tt → curr ∈ g.roots →
    (∀ d x, tt.getD d none = some x → x ≠ curr) →
    g.roots.length < fuel →
    ∃ a' tt' c g',
      consolidateStep fuel a tt curr = some (a', tt', c) ∧
      forestOK a' g' ∧ ttOK a' g' tt' ∧
      g'.L = g.L ∧
      memLen a' = memLen a ∧
      (∀ k, (getN a' k).priority = (getN a k).priority) ∧
      c ∈ g'.roots ∧
      tt'.getD ((getN a' c).degree) none = some c ∧
      Prior.ble (getN a c).priority (getN a curr).priority = true ∧
      (∀ x, x ∈ g'.roots → x ∈ g.roots) ∧
      (∀ x ∈ g.roots, x ∈ g'.roots ∨
        Prior.ble (getN a c).priority (getN a x).priority = true) ∧
      (∀ d2 x, tt'.getD d2 none = some x →
        x = c ∨ ∃ d3, tt.getD d3 none = some x) ∧
      (∀ x ∈ g.roots, x ∈ g'.roots ∨ x = curr ∨
        ∃ d3, tt.getD d3 none = some x) ∧
      (c = curr ∨ ∃ d3, tt.getD d3 none = some c) ∧
      g'.roots.length ≤ g.roots.length ∧
      (∀ x ∈ g'.roots, (∃ d3, tt'.getD d3 none = some x) ∨
        ((∀ d3, ¬ (tt.getD d3 none = some x)) ∧ x ≠ curr)) := by
  intro fuel
  induction fuel with
  | zero =>
    intro a tt curr g _ _ _ _ hfuel
    omega
  | succ fuel ih =>
    intro a tt curr g hOK htt hcR hcT hfuel
    cases hslot : tt.getD ((getN a curr).degree) none with
    | none =>
      refine ⟨a, List.set (growTable tt (getN a curr).degree)
          ((getN a curr).degree) (some curr), curr, g, ?_, hOK, ?_, rfl, rfl,
        fun k => rfl, hcR, ?_, Prior.ble_refl _, fun x hx => hx,
        fun x hx => Or.inl hx, ?_, fun x hx => Or.inl hx, Or.inl rfl,
        le_refl _, ?_⟩
      · rw [consolidateStep_succ, growTable_getD, hslot]
      · intro d2 x hx
        by_cases hd2 : d2 = (getN a curr).degree
        · rw [hd2, getD_set_self _ _ _ (growTable_length tt _)] at hx
          injection hx with hx
          rw [← hx, hd2]
          exact ⟨hcR, rfl⟩
        · rw [getD_set_ne _ _ _ _ hd2, growTable_getD] at hx
          exact htt d2 x hx
      · rw [getD_set_self _ _ _ (growTable_length tt _)]
      · intro d2 x hx
        by_cases hd2 : d2 = (getN a curr).degree
        · rw [hd2, getD_set_self _ _ _ (growTable_length tt _)] at hx
          injection hx with hx
          exact Or.inl hx.symm
        · rw [getD_set_ne _ _ _ _ hd2, growTable_getD] at hx
          exact Or.inr ⟨d2, hx⟩
      · intro x hx
        by_cases hxc : x = curr
        · refine Or.inl ⟨(getN a curr).degree, ?_⟩
          rw [getD_set_self _ _ _ (growTable_length tt _), hxc]
        · by_cases hxt : ∃ d3, tt.getD d3 none = some x
          · obtain ⟨d3, hd3⟩ := hxt
            have hd3ne : d3 ≠ (getN a curr).degree := by
              intro hc
              rw [hc, hslot] at hd3
              cases hd3
            refine Or.inl ⟨d3, ?_⟩
            rw [getD_set_ne _ _ _ _ hd3ne, growTable_getD]
            exact hd3
          · exact Or.inr ⟨fun d3 hd3 => hxt ⟨d3, hd3⟩, hxc⟩
    | some o =>
      obtain ⟨hoR, hod⟩ := htt ((getN a curr).degree) o hslot
      have hoc : o ≠ curr := hcT _ o hslot
      obtain ⟨mn, hmn⟩ : ∃ mn, (if Prior.blt (getN a o).priority
          (getN a curr).priority = true then o else curr) = mn := ⟨_, rfl⟩
      obtain ⟨mx, hmx⟩ : ∃ mx, (if Prior.blt (getN a o).priority
          (getN a curr).priority = true then curr else o) = mx := ⟨_, rfl⟩
      have hmnR : mn ∈ g.roots := by
        rw [← hmn]
        by_cases hb : Prior.blt (getN a o).priority (getN a curr).priority = true
        · rw [if_pos hb]; exact hoR
        · rw [if_neg hb]; exact hcR
      have hmxR : mx ∈ g.roots := by
        rw [← hmx]
        by_cases hb : Prior.blt (getN a o).priority (getN a curr).priority = true
        · rw [if_pos hb]; exact hcR
        · rw [if_neg hb]; exact hoR
      have hmn_oc : mn = o ∨ mn = curr := by
        rw [← hmn]
        by_cases hb : Prior.blt (getN a o).priority (getN a curr).priority = true
        · rw [if_pos hb]; exact Or.inl rfl
        · rw [if_neg hb]; exact Or.inr rfl
      have hmx_oc : mx = curr ∨ mx = o := by
        rw [← hmx]
        by_cases hb : Prior.blt (getN a o).priority (getN a curr).priority = true
        · rw [if_pos hb]; exact Or.inl rfl
        · rw [if_neg hb]; exact Or.inr rfl
      have hpair : (mn = o ∧ mx = curr) ∨ (mn = curr ∧ mx = o) := by
        rw [← hmn, ← hmx]
        by_cases hb : Prior.blt (getN a o).priority (getN a curr).priority = true
        · rw [if_pos hb, if_pos hb]; exact Or.inl ⟨rfl, rfl⟩
        · rw [if_neg hb, if_neg hb]; exact Or.inr ⟨rfl, rfl⟩
      have hne : mn ≠ mx := by
        rw [← hmn, ← hmx]
        by_cases hb : Prior.blt (getN a o).priority (getN a curr).priority = true
        · rw [if_pos hb, if_pos hb]; exact hoc
        · rw [if_neg hb, if_neg hb]; exact fun hc => hoc hc.symm
      have hble : Prior.ble (getN a mn).priority (getN a mx).priority = true := by
        rw [← hmn, ← hmx]
        by_cases hb : Prior.blt (getN a o).priority (getN a curr).priority = true
        · rw [if_pos hb, if_pos hb]; exact Prior.blt_ble hb
        · rw [if_neg hb, if_neg hb]; exact Prior.ble_of_not_blt hb
      have hble_mn_curr :
          Prior.ble (getN a mn).priority (getN a curr).priority = true := by
        rw [← hmn]
        by_cases hb : Prior.blt (getN a o).priority (getN a curr).priority = true
        · rw [if_pos hb]; exact Prior.blt_ble hb
        · rw [if_neg hb]; exact Prior.ble_refl _
      obtain ⟨g2, hOK2, hL2, hmem2, hlr2, hlen2, hprio2, hdeg2ne, hdeg2mn,
        hmnR2⟩ := consLink_spec a g mn mx hOK hmnR hmxR hne hble
      obtain ⟨tt2, htt2d⟩ : ∃ tt2, List.set (growTable tt ((getN a curr).degree))
          ((getN a curr).degree) none = tt2 := ⟨_, rfl⟩
      have htt2get : ∀ d2, tt2.getD d2 none =
          (if d2 = (getN a curr).degree then none else tt.getD d2 none) := by
        intro d2
        rw [← htt2d]
        by_cases hd2 : d2 = (getN a curr).degree
        · rw [if_pos hd2, hd2, getD_set_self _ _ _ (growTable_length tt _)]
        · rw [if_neg hd2, getD_set_ne _ _ _ _ hd2, growTable_getD]
      have htt2mem : ∀ d2 x, tt2.getD d2 none = some x →
          tt.getD d2 none = some x ∧ d2 ≠ (getN a curr).degree := by
        intro d2 x hx
        rw [htt2get d2] at hx
        by_cases hd2 : d2 = (getN a curr).degree
        · rw [if_pos hd2] at hx
          cases hx
        · rw [if_neg hd2] at hx
          exact ⟨hx, hd2⟩
      have httno : ∀ d2 x, tt2.getD d2 none = some x → x ≠ o ∧ x ≠ curr := by
        intro d2 x hx
        obtain ⟨hx1, hx2⟩ := htt2mem d2 x hx
        refine ⟨?_, hcT d2 x hx1⟩
        intro hc
        rw [hc] at hx1
        have := (htt d2 o hx1).2
        rw [hod] at this
        exact hx2 this.symm
      have httOK2 : ttOK (consLink a mn mx) g2 tt2 := by
        intro d2 x hx
        obtain ⟨hx1, _⟩ := htt2mem d2 x hx
        obtain ⟨hxo, hxc⟩ := httno d2 x hx
        have hxR : x ∈ g.roots := (htt d2 x hx1).1
        have hxmx : x ≠ mx := by
          rcases hmx_oc with h | h
          · rw [h]; exact hxc
          · rw [h]; exact hxo
        have hxmn : x ≠ mn := by
          rcases hmn_oc with h | h
          · rw [h]; exact hxo
          · rw [h]; exact hxc
        refine ⟨(hmem2 x).mpr ⟨hxR, hxmx⟩, ?_⟩
        rw [hdeg2ne x hxmn hxmx]
        exact (htt d2 x hx1).2
      have hcT2 : ∀ d2 x, tt2.getD d2 none = some x → x ≠ mn := by
        intro d2 x hx
        obtain ⟨hxo, hxc⟩ := httno d2 x hx
        rcases hmn_oc with h | h
        · rw [h]; exact hxo
        · rw [h]; exact hxc
      have hfuel2 : g2.roots.length < fuel := by omega
      obtain ⟨a', tt', c, g3, hdef, hOK3, httOK3, hL3, hlen3, hprio3, hcR3,
        hslot3, hble3, hmono3, hrem3, httent3, hremor3, hcor3, hlenle3,
        hsurv3⟩ :=
        ih (consLink a mn mx) tt2 mn g2 hOK2 httOK2 hmnR2 hcT2 hfuel2
      have hprioA : ∀ k, (getN a' k).priority = (getN a k).priority := by
        intro k
        rw [hprio3 k, hprio2 k]
      have hbleC : Prior.ble (getN a c).priority (getN a mn).priority = true := by
        have h := hble3
        rw [hprio2 c, hprio2 mn] at h
        exact h
      refine ⟨a', tt', c, g3, ?_, hOK3, httOK3, by rw [hL3, hL2],
        by rw [hlen3, hlen2], hprioA, hcR3, hslot3,
        Prior.ble_trans hbleC hble_mn_curr,
        fun x hx => ((hmem2 x).mp (hmono3 x hx)).1, ?_, ?_, ?_, ?_,
        by omega, ?_⟩
      · rw [consolidateStep_succ, growTable_getD, hslot]
        show consolidateStep fuel
            (consLink a
              (if Prior.blt (getN a o).priority (getN a curr).priority = true
               then o else curr)
              (if Prior.blt (getN a o).priority (getN a curr).priority = true
               then curr else o))
            (List.set (growTable tt ((getN a curr).degree))
              ((getN a curr).degree) none)
            (if Prior.blt (getN a o).priority (getN a curr).priority = true
             then o else curr) = some (a', tt', c)
        rw [hmn, hmx, htt2d, hdef]
      · -- every old root survives or is dominated by `c`
        intro x hx
        by_cases hxmx : x = mx
        · refine Or.inr ?_
          rw [hxmx]
          exact Prior.ble_trans hbleC hble
        · have hx2 : x ∈ g2.roots := (hmem2 x).mpr ⟨hx, hxmx⟩
          rcases hrem3 x hx2 with h | h
          · exact Or.inl h
          · refine Or.inr ?_
            rw [hprio2 c, hprio2 x] at h
            exact h
      · -- every final table entry is `c` or an original entry
        intro d2 x hx
        rcases httent3 d2 x hx with h | ⟨d3, h⟩
        · exact Or.inl h
        · exact Or.inr ⟨d3, (htt2mem d3 x h).1⟩
      · -- every removed root was the start or an original table entry
        intro x hx
        by_cases hxmx : x = mx
        · rcases hmx_oc with h | h
          · exact Or.inr (Or.inl (hxmx.trans h))
          · exact Or.inr (Or.inr ⟨(getN a curr).degree, by
              rw [hxmx, h]; exact hslot⟩)
        · have hx2 : x ∈ g2.roots := (hmem2 x).mpr ⟨hx, hxmx⟩
          rcases hremor3 x hx2 with h | h | ⟨d3, h⟩
          · exact Or.inl h
          · rcases hmn_oc with h2 | h2
            · exact Or.inr (Or.inr ⟨(getN a curr).degree, by
                rw [h, h2]; exact hslot⟩)
            · exact Or.inr (Or.inl (h.trans h2))
          · exact Or.inr (Or.inr ⟨d3, (htt2mem d3 x h).1⟩)
      · -- `c` is the start or an original table entry
        rcases hcor3 with h | ⟨d3, h⟩
        · rcases hmn_oc with h2 | h2
          · exact Or.inr ⟨(getN a curr).degree, by rw [h, h2]; exact hslot⟩
          · exact Or.inl (h.trans h2)
        · exact Or.inr ⟨d3, (htt2mem d3 c h).1⟩
      · -- a surviving root is in the final table or was never tracked
        intro x hx
        have hx2 : x ∈ g2.roots := hmono3 x hx
        have hxmx : x ≠ mx := by
          intro hc
          exact absurd ((hmem2 x).mp hx2).2 (fun h => h hc)
        rcases hsurv3 x hx with h | ⟨hnt2, hnmn⟩
        · exact Or.inl h
        · refine Or.inr ⟨?_, ?_⟩
          · intro d3 hd3
            by_cases hdc : d3 = (getN a curr).degree
            · rw [hdc, hslot] at hd3
              injection hd3 with hd3
              rcases hpair with ⟨h2, _⟩ | ⟨_, h2⟩
              · exact hnmn (by rw [← hd3, ← h2])
              · exact hxmx (by rw [← hd3, ← h2])
            · refine hnt2 d3 ?_
              rw [htt2get d3, if_neg hdc]
              exact hd3
          · rcases hpair with ⟨h1, h2⟩ | ⟨h1, h2⟩
            · intro hc
              exact hxmx (hc.trans h2.symm)
            · intro hc
              exact hnmn (hc.trans h1.symm)

/-- Specification of the outer consolidation loop: processing the captured
root list leaves a well-formed forest whose roots all sit in the table at
pairwise-distinct degrees, with the tracked pointer `fm` holding the least
priority among all remaining roots. -/
theorem consolidateAll_spec : ∀ (vs : List Nat) (a : Mem)
    (tt : List (Option Nat)) (fmin : Nat) (g : Ghost) (fuel : Nat),
    forestOK a g → ttOK a g tt →
    (∀ v ∈ vs, v ∈ g.roots) → vs.Nodup →
    (∀ v ∈ vs, ∀ d x, tt.getD d none = some x → x ≠ v) →
    (∀ x ∈ g.roots, (∃ d, tt.getD d none = some x) ∨ x ∈ vs) →
    fmin ∈ g.roots →
    (∀ d x, tt.getD d none = some x →
      Prior.ble (getN a fmin).priority (getN a x).priority = true) →
    g.roots.length < fuel →
    ∃ a' tt' fm g',
      consolidateAll a tt fmin vs fuel = some (a', tt', fm) ∧
      forestOK a' g' ∧ g'.L = g.L ∧
      memLen a' = memLen a ∧
      (∀ k, (getN a' k).priority = (getN a k).priority) ∧
      fm ∈ g'.roots ∧
      (∀ j ∈ g'.roots,
        Prior.ble (getN a' fm).priority (getN a' j).priority = true) ∧
      (∀ r1 ∈ g'.roots, ∀ r2 ∈ g'.roots, r1 ≠ r2 →
        (getN a' r1).degree ≠ (getN a' r2).degree)
  | [], a, tt, fmin, g, fuel => by
    intro hOK htt _ _ _ hcov hfR hfle _
    refine ⟨a, tt, fmin, g, rfl, hOK, rfl, rfl, fun k => rfl, hfR, ?_, ?_⟩
    · intro j hj
      rcases hcov j hj with ⟨d, hd⟩ | h
      · exact hfle d j hd
      · cases h
    · intro r1 h1 r2 h2 hne hdeq
      obtain ⟨d1, hd1⟩ : ∃ d, tt.getD d none = some r1 := by
        rcases hcov r1 h1 with h | h
        · exact h
        · cases h
      obtain ⟨d2, hd2⟩ : ∃ d, tt.getD d none = some r2 := by
        rcases hcov r2 h2 with h | h
        · exact h
        · cases h
      have e1 : (getN a r1).degree = d1 := (htt d1 r1 hd1).2
      have e2 : (getN a r2).degree = d2 := (htt d2 r2 hd2).2
      have : d1 = d2 := by rw [← e1, ← e2, hdeq]
      rw [this] at hd1
      rw [hd1] at hd2
      injection hd2 with hd2
      exact hne hd2
  | v :: rest, a, tt, fmin, g, fuel => by
    intro hOK htt hvs hnd hdisj hcov hfR hfle hfuel
    obtain ⟨a2, tt2, c, g2, hdef, hOK2, htt2, hL2, hlen2, hprio2, hcR2,
      hslot2, hblec, hmono2, hrem2, httent2, hremor2, hcor2, hlenle2,
      hsurv2⟩ :=
      consolidateStep_spec fuel a tt v g hOK htt (hvs v (by simp))
        (fun d x hx => hdisj v (by simp) d x hx) hfuel
    have hvrest : v ∉ rest := (List.nodup_cons.mp hnd).1
    have hrest_roots : ∀ x ∈ rest, x ∈ g2.roots := by
      intro x hx
      have hxg : x ∈ g.roots := hvs x (List.mem_cons_of_mem _ hx)
      rcases hremor2 x hxg with h | h | ⟨d3, h⟩
      · exact h
      · exact absurd (h ▸ hx) hvrest
      · exact absurd rfl (hdisj x (List.mem_cons_of_mem _ hx) d3 x h)
    have hcnotrest : c ∉ rest := by
      intro hc
      rcases hcor2 with h | ⟨d3, h⟩
      · exact hvrest (h ▸ hc)
      · exact hdisj c (List.mem_cons_of_mem _ hc) d3 c h rfl
    have hdisj2 : ∀ v2 ∈ rest, ∀ d x, tt2.getD d none = some x → x ≠ v2 := by
      intro v2 hv2 d x hx
      rcases httent2 d x hx with h | ⟨d3, h⟩
      · intro hc
        exact hcnotrest (h ▸ hc ▸ hv2)
      · exact hdisj v2 (List.mem_cons_of_mem _ hv2) d3 x h
    have hcov2 : ∀ x ∈ g2.roots, (∃ d, tt2.getD d none = some x) ∨
        x ∈ rest := by
      intro x hx
      rcases hsurv2 x hx with h | ⟨hnt, hnv⟩
      · exact Or.inl h
      · rcases hcov x (hmono2 x hx) with ⟨d, hd⟩ | h
        · exact absurd hd (hnt d)
        · rcases List.mem_cons.mp h with h1 | h1
          · exact absurd h1 hnv
          · exact Or.inr h1
    obtain ⟨fm1, hfm1⟩ : ∃ fm1,
        (if Prior.ble (getN a2 c).priority (getN a2 fmin).priority = true
         then c else fmin) = fm1 := ⟨_, rfl⟩
    have hfm1R : fm1 ∈ g2.roots := by
      rw [← hfm1]
      by_cases hb :
          Prior.ble (getN a2 c).priority (getN a2 fmin).priority = true
      · rw [if_pos hb]
        exact hcR2
      · rw [if_neg hb]
        rcases hrem2 fmin hfR with h | h
        · exact h
        · refine absurd ?_ hb
          rw [hprio2 c, hprio2 fmin]
          exact h
    have hfm1le : Prior.ble (getN a fm1).priority (getN a fmin).priority
        = true := by
      rw [← hfm1]
      by_cases hb :
          Prior.ble (getN a2 c).priority (getN a2 fmin).priority = true
      · rw [if_pos hb]
        rw [hprio2 c, hprio2 fmin] at hb
        exact hb
      · rw [if_neg hb]
        exact Prior.ble_refl _
    have hfm1c : Prior.ble (getN a fm1).priority (getN a c).priority
        = true := by
      rw [← hfm1]
      by_cases hb :
          Prior.ble (getN a2 c).priority (getN a2 fmin).priority = true
      · rw [if_pos hb]
        exact Prior.ble_refl _
      · rw [if_neg hb]
        have := Prior.blt_of_not_ble hb
        rw [hprio2 c, hprio2 fmin] at this
        exact Prior.blt_ble this
    have hfle2 : ∀ d x, tt2.getD d none = some x →
        Prior.ble (getN a2 fm1).priority (getN a2 x).priority = true := by
      intro d x hx
      rw [hprio2 fm1, hprio2 x]
      rcases httent2 d x hx with h | ⟨d3, h⟩
      · rw [h]
        exact hfm1c
      · exact Prior.ble_trans hfm1le (hfle d3 x h)
    have hfle2' : ∀ d x, tt2.getD d none = some x →
        Prior.ble (getN a2 fm1).priority (getN a2 x).priority = true := hfle2
    have hfuel2 : g2.roots.length < fuel := by omega
    obtain ⟨a', tt', fm, g', hdefA, hOKA, hLA, hlenA, hprioA, hfmA, hfleA,
      hdegA⟩ :=
      consolidateAll_spec rest a2 tt2 fm1 g2 fuel hOK2 htt2 hrest_roots
        (List.nodup_cons.mp hnd).2 hdisj2 hcov2 hfm1R hfle2' hfuel2
    refine ⟨a', tt', fm, g', ?_, hOKA, by rw [hLA, hL2],
      by rw [hlenA, hlen2], fun k => by rw [hprioA k, hprio2 k], hfmA, hfleA,
      hdegA⟩
    simp only [consolidateAll]
    rw [hdef]
    dsimp only
    rw [hfm1, hdefA]

/-- The root list never exceeds the node count. -/
theorem ghost_roots_length_le {g : Ghost}
    (hp : ((g.roots : Multiset Nat) +
      ∑ i in g.L, ((g.kids i : Multiset Nat))) = g.L.val) :
    g.roots.length ≤ g.L.card := by
  have h : ((g.roots : List Nat) : Multiset Nat) ≤ g.L.val :=
    le_iff_exists_add.mpr ⟨_, hp.symm⟩
  have h2 := Multiset.card_le_card h
  simpa using h2

theorem ghost_L_card_le {a : Mem} {g : Ghost}
    (hv : ∀ i ∈ g.L, i < memLen a) : g.L.card ≤ memLen a := by
  calc g.L.card ≤ (Finset.range (memLen a)).card :=
        Finset.card_le_card (fun i hi => Finset.mem_range.mpr (hv i hi))
    _ = memLen a := Finset.card_range _

/-- The post-extraction tail of `DequeueMin`: capture the rebuilt root ring
from the merge pointer, consolidate it, and retarget the min pointer.
`gMid` describes the forest after the minimum was removed. -/
theorem dq_mid_spec (a3 : Mem) (gMid : Ghost) (m0 : Nat) (fsz : Nat)
    (hOK : forestOK a3 gMid) (hhead : gMid.roots.head? = some m0)
    (hszEq : fsz = gMid.L.card) :
    ∃ a4 tt4 fm g4,
      collectRing (memLen a3 + 1) a3 m0 m0 = some gMid.roots ∧
      consolidateAll a3 [] m0 gMid.roots (memLen a3 + 1) =
        some (a4, tt4, fm) ∧
      ghostOK a4 { min := some fm, size := fsz } g4 ∧
      g4.L = gMid.L ∧ memLen a4 = memLen a3 ∧
      (∀ k, (getN a4 k).priority = (getN a3 k).priority) ∧
      (∀ r1 ∈ g4.roots, ∀ r2 ∈ g4.roots, r1 ≠ r2 →
        (getN a4 r1).degree ≠ (getN a4 r2).degree) := by
  obtain ⟨rest, hroots⟩ : ∃ rest, gMid.roots = m0 :: rest := by
    cases hr : gMid.roots with
    | nil => rw [hr] at hhead; cases hhead
    | cons x xs =>
      rw [hr] at hhead
      injection hhead with h
      exact ⟨xs, by rw [h]⟩
  have hndR : gMid.roots.Nodup := ghost_roots_nodup hOK.partEq
  have hlenR : gMid.roots.length ≤ memLen a3 :=
    le_trans (ghost_roots_length_le hOK.partEq) (ghost_L_card_le hOK.valid)
  have hm0R : m0 ∈ gMid.roots := by rw [hroots]; simp
  have hcoll : collectRing (memLen a3 + 1) a3 m0 m0 = some gMid.roots := by
    rw [hroots]
    refine collectRing_go (memLen a3 + 1) a3 m0 m0 rest ?_ ?_ ?_
    · have h := hOK.rootRing
      rw [hroots] at h
      exact h
    · rw [hroots] at hndR
      exact (List.nodup_cons.mp hndR).1
    · rw [hroots] at hlenR
      simp only [List.length_cons] at hlenR
      omega
  have httE : ttOK a3 gMid [] := by
    intro d x hx
    rw [List.getD] at hx
    simp at hx
  obtain ⟨a4, tt4, fm, g', hcons, hOK4, hL4, hlen4, hprio4, hfmR, hfmLe,
    hdeg4⟩ :=
    consolidateAll_spec gMid.roots a3 [] m0 gMid (memLen a3 + 1) hOK httE
      (fun v hv => hv) hndR
      (fun v _ d x hx => by rw [List.getD] at hx; simp at hx)
      (fun x hx => Or.inr hx) hm0R
      (fun d x hx => by rw [List.getD] at hx; simp at hx)
      (by omega)
  have hsz4 : fsz = g'.L.card := by rw [hszEq, hL4]
  obtain ⟨g4, hg4, hg4L, _, _, hg4mem⟩ :=
    ghostOK_retarget hOK4.partEq hOK4.valid hOK4.rootRing hOK4.kidRing
      hOK4.rootPar hOK4.kidPar hOK4.childEq hOK4.degEq hOK4.rnkLt
      hOK4.heapLe hsz4 hfmR hfmLe
  refine ⟨a4, tt4, fm, g4, hcoll, hcons, hg4, by rw [hg4L, hL4], hlen4,
    hprio4, ?_⟩
  intro r1 h1 r2 h2 hne
  exact hdeg4 r1 ((hg4mem r1).mp h1) r2 ((hg4mem r2).mp h2) hne

/-- Assembling the mid-extraction forest: after the minimum `m` was removed
from the root list, its children's parents cleared, and the two rings
merged into `R`. -/
theorem gMid_forestOK {a a3 : Mem} {f : FibHeap} {g : Ghost} {m : Nat}
    {rx R : List Nat}
    (hOK : ghostOK a f g) (hroots : g.roots = m :: rx)
    (hlen3 : memLen a3 = memLen a)
    (hpar3 : ∀ k, k ∉ g.kids m → (getN a3 k).parent = (getN a k).parent)
    (hparK : ∀ k ∈ g.kids m, (getN a3 k).parent = none)
    (hchild3 : ∀ k, (getN a3 k).child = (getN a k).child)
    (hdeg3 : ∀ k, (getN a3 k).degree = (getN a k).degree)
    (hprio3 : ∀ k, (getN a3 k).priority = (getN a k).priority)
    (hringR : isRing a3 R)
    (hkidR3 : ∀ i ∈ g.L.erase m, isRing a3 (g.kids i))
    (hRms : ((R : List Nat) : Multiset Nat) =
      ((rx : List Nat) : Multiset Nat) +
        ((g.kids m : List Nat) : Multiset Nat)) :
    forestOK a3 ⟨g.L.erase m, R, g.kids, g.rnk⟩ := by
  have hmR : m ∈ g.roots := by rw [hroots]; simp
  have hmL : m ∈ g.L := ghost_roots_subset hOK.partEq m hmR
  have hRmem : ∀ j, j ∈ R ↔ (j ∈ rx ∨ j ∈ g.kids m) := by
    intro j
    rw [← Multiset.mem_coe, hRms]
    simp
  have hrxR : ∀ j ∈ rx, j ∈ g.roots := by
    intro j hj
    rw [hroots]
    exact List.mem_cons_of_mem _ hj
  have hkdisj : ∀ i ∈ g.L, i ≠ m → ∀ j ∈ g.kids i, j ∉ g.kids m := by
    intro i hi hin j hj
    exact ghost_kids_disj hOK.partEq i hi m hmL hin j hj
  refine ⟨?_, ?_, hringR, ?_, ?_, ?_, ?_, ?_, ?_, ?_⟩
  · -- partition
    show ((R : List Nat) : Multiset Nat) + _ = _
    have h := hOK.partEq
    rw [hroots, ← Finset.add_sum_erase _ _ hmL] at h
    have h2 : g.L.val = ((m :: rx : List Nat) : Multiset Nat) +
        (((g.kids m : List Nat) : Multiset Nat) +
          ∑ i in g.L.erase m, ((g.kids i : List Nat) : Multiset Nat)) :=
      h.symm
    rw [Finset.erase_val, h2,
      show ((m :: rx : List Nat) : Multiset Nat) =
        m ::ₘ ((rx : List Nat) : Multiset Nat) from rfl,
      Multiset.cons_add, Multiset.erase_cons_head, hRms, ← add_assoc]
  · intro i hi
    rw [hlen3]
    exact hOK.valid i (Finset.mem_of_mem_erase hi)
  · intro i hi
    dsimp only
    exact hkidR3 i hi
  · intro j hj
    dsimp only at hj
    rcases (hRmem j).mp hj with h | h
    · rw [hpar3 j (fun hc =>
        ghost_roots_kids_disj hOK.partEq m hmL j hc (hrxR j h))]
      exact hOK.rootPar j (hrxR j h)
    · exact hparK j h
  · intro i hi j hj
    dsimp only at hi hj
    have hin : i ≠ m := Finset.ne_of_mem_erase hi
    rw [hpar3 j (hkdisj i (Finset.mem_of_mem_erase hi) hin j hj)]
    exact hOK.kidPar i (Finset.mem_of_mem_erase hi) j hj
  · intro i hi
    dsimp only at hi ⊢
    rw [hchild3 i]
    exact hOK.childEq i (Finset.mem_of_mem_erase hi)
  · intro i hi
    dsimp only at hi ⊢
    rw [hdeg3 i]
    exact hOK.degEq i (Finset.mem_of_mem_erase hi)
  · intro i hi j hj
    dsimp only at hi hj ⊢
    exact hOK.rnkLt i (Finset.mem_of_mem_erase hi) j hj
  · intro i hi j hj
    dsimp only at hi hj
    rw [hprio3 i, hprio3 j]
    exact hOK.heapLe i (Finset.mem_of_mem_erase hi) j hj

theorem ghost_kids_length_le {g : Ghost} {m : Nat}
    (hp : ((g.roots : Multiset Nat) +
      ∑ i in g.L, ((g.kids i : Multiset Nat))) = g.L.val)
    (hm : m ∈ g.L) : (g.kids m).length ≤ g.L.card := by
  have h1 : ((g.kids m : List Nat) : Multiset Nat) ≤
      ∑ i in g.L, ((g.kids i : List Nat) : Multiset Nat) :=
    Finset.single_le_sum (fun _ _ => Multiset.zero_le _) hm
  have h2 : (∑ i in g.L, ((g.kids i : List Nat) : Multiset Nat)) ≤ g.L.val :=
    le_iff_exists_add.mpr ⟨_, by rw [add_comm]; exact hp.symm⟩
  have h3 := Multiset.card_le_card (le_trans h1 h2)
  simpa using h3

/-- If the only root has no children, it is the only node. -/
theorem ghost_single_node {g : Ghost} {m : Nat}
    (hp : ((g.roots : Multiset Nat) +
      ∑ i in g.L, ((g.kids i : Multiset Nat))) = g.L.val)
    (hrnk : ∀ i ∈ g.L, ∀ j ∈ g.kids i, g.rnk j < g.rnk i)
    (hroots : g.roots = [m]) (hkm : g.kids m = []) :
    g.L.erase m = ∅ := by
  by_contra hne
  obtain ⟨j, hj, hmax⟩ := Finset.exists_max_image (g.L.erase m) g.rnk
    (Finset.nonempty_of_ne_empty hne)
  have hjL : j ∈ g.L := Finset.mem_of_mem_erase hj
  have hjm : j ≠ m := Finset.ne_of_mem_erase hj
  rcases ghost_mem_split hp j hjL with h | ⟨i, hi, hk⟩
  · rw [hroots] at h
    simp only [List.mem_singleton] at h
    exact hjm h
  · have him : i ≠ m := by
      intro hc
      rw [hc, hkm] at hk
      cases hk
    have hiE : i ∈ g.L.erase m := Finset.mem_erase.mpr ⟨him, hi⟩
    have h1 := hmax i hiE
    have h2 := hrnk i hi j hk
    omega

/-- Full specification of `DequeueMin` on a non-empty well-formed heap: it
returns the minimum-priority entry, removes exactly it, decrements the
size, preserves all priorities, and leaves a well-formed heap whose roots
have pairwise distinct degrees. -/
theorem DequeueMin_spec (a : Mem) (f : FibHeap) (g : Ghost)
    (hOK : ghostOK a f g) (hsz : ¬ f.size = 0) :
    ∃ m a' f' g', DequeueMin a f = some (a', f', some m) ∧
      f.min = some m ∧ m ∈ g.L ∧
      ghostOK a' f' g' ∧
      g'.L = g.L.erase m ∧
      f'.size = f.size - 1 ∧
      memLen a' = memLen a ∧
      (∀ k, (getN a' k).priority = (getN a k).priority) ∧
      (∀ j ∈ g.L, Prior.ble (getN a m).priority (getN a j).priority = true) ∧
      (∀ r1 ∈ g'.roots, ∀ r2 ∈ g'.roots, r1 ≠ r2 →
        (getN a' r1).degree ≠ (getN a' r2).degree) := by
  have hLne : g.L.Nonempty := by
    rw [← Finset.card_pos]
    have := hOK.sizeEq
    omega
  obtain ⟨m, rx, hroots⟩ : ∃ m rx, g.roots = m :: rx := by
    cases hr : g.roots with
    | nil => exact absurd hr (ghost_roots_nonempty hOK.partEq hOK.rnkLt hLne)
    | cons m rx => exact ⟨m, rx, rfl⟩
  have hmR : m ∈ g.roots := by rw [hroots]; simp
  have hmhead : g.roots.head? = some m := by rw [hroots]; rfl
  have hfm : f.min = some m := by rw [hOK.minHead, hmhead]
  have hmL : m ∈ g.L := ghost_roots_subset hOK.partEq m hmR
  have hmLv : m < memLen a := hOK.valid m hmL
  have hminall : ∀ j ∈ g.L,
      Prior.ble (getN a m).priority (getN a j).priority = true :=
    ghost_min_le_all hOK m hmhead
  have hndRoots : g.roots.Nodup := ghost_roots_nodup hOK.partEq
  have hrootRing : isRing a (m :: rx) := by rw [← hroots]; exact hOK.rootRing
  have hndMrx : (m :: rx).Nodup := by rw [← hroots]; exact hndRoots
  have hszL : f.size = g.L.card := hOK.sizeEq
  have hcardE : (g.L.erase m).card = f.size - 1 := by
    rw [Finset.card_erase_of_mem hmL]
    omega
  have hkN : (g.kids m).Nodup := ghost_kids_nodup hOK.partEq m hmL
  have hkL : ∀ j ∈ g.kids m, j ∈ g.L := ghost_kids_subset hOK.partEq m hmL
  have hkLv : ∀ j ∈ g.kids m, j < memLen a := fun j hj => hOK.valid j (hkL j hj)
  have hkR : ∀ j ∈ g.kids m, j ∉ g.roots := fun j hj =>
    ghost_roots_kids_disj hOK.partEq m hmL j hj
  have hkLen : (g.kids m).length ≤ g.L.card :=
    ghost_kids_length_le hOK.partEq hmL
  have hLcard : g.L.card ≤ memLen a := ghost_L_card_le hOK.valid
  obtain ⟨kl, hkl⟩ : ∃ kl, g.kids m = kl := ⟨_, rfl⟩
  cases rx with
  | nil =>
    have hnextm : (getN a m).next = m := by
      have h := (ring_next_head a m [] hrootRing).1
      exact h
    have hrmEq : removeMinFromRoots a m = (a, none) := by
      simp only [removeMinFromRoots]
      rw [hnextm, if_pos rfl]
    cases kl with
    | nil =>
      -- the heap had a single node
      have hLE : g.L.erase m = ∅ :=
        ghost_single_node hOK.partEq hOK.rnkLt (by rw [hroots]) hkl
      have hchildm : (getN a m).child = none := by
        rw [hOK.childEq m hmL, hkl]
        rfl
      refine ⟨m, a, { min := none, size := f.size - 1 },
        ⟨g.L.erase m, [], g.kids, g.rnk⟩, ?_, hfm, hmL, ?_, rfl, rfl, rfl,
        fun k => rfl, hminall, ?_⟩
      · simp only [DequeueMin]
        rw [if_neg hsz, hfm]
        dsimp only
        rw [hrmEq]
        dsimp only
        rw [hchildm]
        dsimp only
        rw [hchildm, show mergeLists a none none = (a, none) from rfl]
      · refine ⟨?_, ?_, trivial, ?_, ?_, ?_, ?_, ?_, ?_, ?_, rfl, ?_, ?_⟩
        · show 0 + _ = _
          rw [hLE]
          simp
        · intro i hi
          rw [hLE] at hi
          cases hi
        · intro i hi
          rw [hLE] at hi
          cases hi
        · intro i hi
          cases hi
        · intro i hi
          rw [hLE] at hi
          cases hi
        · intro i hi
          rw [hLE] at hi
          cases hi
        · intro i hi
          rw [hLE] at hi
          cases hi
        · intro i hi
          rw [hLE] at hi
          cases hi
        · intro i hi
          rw [hLE] at hi
          cases hi
        · intro mh hmh
          cases hmh
        · have h0 : (g.L.erase m).card = 0 := by
            rw [hLE]
            rfl
          rw [hLE]
          simp only [Finset.card_empty]
          omega
      · intro r1 h1
        cases h1
    | cons c cs =>
      have hchildm : (getN a m).child = some c := by
        rw [hOK.childEq m hmL, hkl]
        rfl
      have hringK : isRing a (c :: cs) := by
        have h := hOK.kidRing m hmL
        rwa [hkl] at h
      have hndK : (c :: cs).Nodup := by rw [← hkl]; exact hkN
      have hvK : ∀ i ∈ c :: cs, i < memLen a := by
        intro i hi
        exact hkLv i (by rw [hkl]; exact hi)
      have hfuelK : cs.length < memLen a + 1 := by
        have h : (c :: cs).length ≤ g.L.card := by rw [← hkl]; exact hkLen
        simp only [List.length_cons] at h
        omega
      obtain ⟨a2w, hclrEq, hlenW, hclW, hfrW, hstruW⟩ :=
        clearParents_go (memLen a + 1) a c c cs hringK
          (List.nodup_cons.mp hndK).1 hndK hvK hfuelK
      have hchild2w : (getN a2w m).child = some c := by
        rw [(hstruW m).2.2.1, hchildm]
      have hmidOK : forestOK a2w ⟨g.L.erase m, c :: cs, g.kids, g.rnk⟩ := by
        refine gMid_forestOK hOK hroots hlenW ?_ ?_
          (fun k => (hstruW k).2.2.1) (fun k => (hstruW k).2.2.2.1)
          (fun k => (hstruW k).2.2.2.2.2) ?_ ?_ ?_
        · intro k hk
          refine hfrW k ?_
          rw [← hkl]
          exact hk
        · intro k hk
          refine hclW k ?_
          rw [hkl] at hk
          exact hk
        · exact isRing_congr a a2w _
            (fun j _ => ⟨(hstruW j).1, (hstruW j).2.1⟩) hringK
        · intro i hi
          exact isRing_congr a a2w _
            (fun j _ => ⟨(hstruW j).1, (hstruW j).2.1⟩)
            (hOK.kidRing i (Finset.mem_of_mem_erase hi))
        · rw [hkl]
          simp
      obtain ⟨a4, tt4, fm, g4, hcoll, hcons, hg4, hg4L, hlen4, hprio4,
        hdeg4⟩ :=
        dq_mid_spec a2w ⟨g.L.erase m, c :: cs, g.kids, g.rnk⟩ c
          (f.size - 1) hmidOK rfl (by dsimp only; omega)
      refine ⟨m, a4, { min := some fm, size := f.size - 1 }, g4, ?_, hfm,
        hmL, hg4, by rw [hg4L], rfl, by rw [hlen4, hlenW],
        fun k => by rw [hprio4 k, (hstruW k).2.2.2.2.2], hminall, hdeg4⟩
      simp only [DequeueMin]
      rw [if_neg hsz, hfm]
      dsimp only
      rw [hrmEq]
      dsimp only
      rw [hchildm]
      dsimp only
      rw [hclrEq]
      dsimp only
      rw [hchild2w,
        show mergeLists a2w none (some c) = (a2w, some c) from rfl]
      dsimp only
      rw [hcoll]
      dsimp only
      rw [hcons]
  | cons rr rx' =>
    obtain ⟨hm_nin, hnd_tail⟩ := List.nodup_cons.mp hndMrx
    have hmrr : m ≠ rr := fun hc => hm_nin (hc ▸ List.mem_cons_self _ _)
    have hrrm : ¬ (rr = m) := fun hc => hmrr hc.symm
    obtain ⟨lm, hlmd⟩ : ∃ lm, (rr :: rx').getLastD m = lm := ⟨_, rfl⟩
    have hlmmem : lm ∈ rr :: rx' := hlmd ▸ getLastD_mem m _ (by simp)
    have hmlm : m ≠ lm := fun hc => hm_nin (hc ▸ hlmmem)
    have hnextm : (getN a m).next = rr := (ring_next_head a m _ hrootRing).1
    have hprevm : (getN a m).prev = lm := by
      have h := (ring_last_link a m _ hrootRing).2
      rw [hlmd] at h
      exact h
    have hvM : ∀ i ∈ m :: rr :: rx', i < memLen a := by
      intro i hi
      refine hOK.valid i (ghost_roots_subset hOK.partEq i ?_)
      rw [hroots]
      exact hi
    obtain ⟨a2v, ha2vEq, hlen2v, hring2v, hnext_fr, hnext_lm, hprev_fr,
      hprev_r1, hflds2v, hout2v⟩ :=
      spliceOutA a m rr lm (rr :: rx') rfl hlmd hrootRing hndMrx
        (by simp) hvM
    have hnext2m : (getN a2v m).next = rr := by
      rw [hnext_fr m hmlm, hnextm]
    have hrmEq : removeMinFromRoots a m = (a2v, some rr) := by
      simp only [removeMinFromRoots]
      rw [hnextm, if_neg hrrm, hprevm]
      rw [getN_updN_ne a lm m _ hmlm]
      rw [hnextm, hprevm, ha2vEq, hnext2m]
    have hroots_sub : ∀ j ∈ rr :: rx', j ∈ g.roots := by
      intro j hj
      rw [hroots]
      exact List.mem_cons_of_mem _ hj
    have hkid_fr2v : ∀ i ∈ g.L, i ≠ m → ∀ j ∈ g.kids i,
        getN a2v j = getN a j := by
      intro i hi him j hj
      have hjr : j ∉ g.roots := ghost_roots_kids_disj hOK.partEq i hi j hj
      exact hout2v j (fun hc => hjr (hc ▸ hroots_sub rr (by simp)))
        (fun hc => hjr (hc ▸ hroots_sub lm hlmmem))
    have hkm_fr2v : ∀ j ∈ g.kids m, getN a2v j = getN a j := by
      intro j hj
      exact hout2v j (fun hc => hkR j hj (hc ▸ hroots_sub rr (by simp)))
        (fun hc => hkR j hj (hc ▸ hroots_sub lm hlmmem))
    cases kl with
    | nil =>
      -- no children: the remaining roots are the old siblings
      have hchildm : (getN a m).child = none := by
        rw [hOK.childEq m hmL, hkl]
        rfl
      have hchild2v : (getN a2v m).child = none := by
        rw [(hflds2v m).2.1, hchildm]
      have hmidOK : forestOK a2v
          ⟨g.L.erase m, rr :: rx', g.kids, g.rnk⟩ := by
        refine gMid_forestOK hOK hroots hlen2v
          (fun k _ => (hflds2v k).1) ?_ (fun k => (hflds2v k).2.1)
          (fun k => (hflds2v k).2.2.1) (fun k => (hflds2v k).2.2.2.2.1)
          hring2v ?_ ?_
        · intro k hk
          rw [hkl] at hk
          cases hk
        · intro i hi
          refine isRing_congr a a2v _ ?_
            (hOK.kidRing i (Finset.mem_of_mem_erase hi))
          intro j hj
          rw [hkid_fr2v i (Finset.mem_of_mem_erase hi)
            (Finset.ne_of_mem_erase hi) j hj]
          exact ⟨rfl, rfl⟩
        · rw [hkl]
          simp
      obtain ⟨a4, tt4, fm, g4, hcoll, hcons, hg4, hg4L, hlen4, hprio4,
        hdeg4⟩ :=
        dq_mid_spec a2v ⟨g.L.erase m, rr :: rx', g.kids, g.rnk⟩ rr
          (f.size - 1) hmidOK rfl (by dsimp only; omega)
      refine ⟨m, a4, { min := some fm, size := f.size - 1 }, g4, ?_, hfm,
        hmL, hg4, by rw [hg4L], rfl, by rw [hlen4, hlen2v],
        fun k => by rw [hprio4 k, (hflds2v k).2.2.2.2.1], hminall, hdeg4⟩
      simp only [DequeueMin]
      rw [if_neg hsz, hfm]
      dsimp only
      rw [hrmEq]
      dsimp only
      rw [hchild2v]
      dsimp only
      rw [hchild2v,
        show mergeLists a2v (some rr) none = (a2v, some rr) from rfl]
      dsimp only
      rw [hcoll]
      dsimp only
      rw [hcons]
    | cons c cs =>
      -- children and siblings both: clear parents, then merge the rings
      have hchildm : (getN a m).child = some c := by
        rw [hOK.childEq m hmL, hkl]
        rfl
      have hchild2v : (getN a2v m).child = some c := by
        rw [(hflds2v m).2.1, hchildm]
      have hringK2v : isRing a2v (c :: cs) := by
        have h : isRing a (c :: cs) := by
          have h2 := hOK.kidRing m hmL
          rwa [hkl] at h2
        refine isRing_congr a a2v _ ?_ h
        intro j hj
        rw [hkm_fr2v j (by rw [hkl]; exact hj)]
        exact ⟨rfl, rfl⟩
      have hndK : (c :: cs).Nodup := by rw [← hkl]; exact hkN
      have hvK : ∀ i ∈ c :: cs, i < memLen a2v := by
        intro i hi
        rw [hlen2v]
        exact hkLv i (by rw [hkl]; exact hi)
      have hfuelK : cs.length < memLen a2v + 1 := by
        have h : (c :: cs).length ≤ g.L.card := by rw [← hkl]; exact hkLen
        simp only [List.length_cons] at h
        rw [hlen2v]
        omega
      obtain ⟨a2w, hclrEq, hlenW, hclW, hfrW, hstruW⟩ :=
        clearParents_go (memLen a2v + 1) a2v c c cs hringK2v
          (List.nodup_cons.mp hndK).1 hndK hvK hfuelK
      have hlenWa : memLen a2w = memLen a := by rw [hlenW, hlen2v]
      have hchild2w : (getN a2w m).child = some c := by
        rw [(hstruW m).2.2.1, hchild2v]
      have hring2w_roots : isRing a2w (rr :: rx') :=
        isRing_congr a2v a2w _
          (fun j _ => ⟨(hstruW j).1, (hstruW j).2.1⟩) hring2v
      have hring2w_kids : isRing a2w (c :: cs) :=
        isRing_congr a2v a2w _
          (fun j _ => ⟨(hstruW j).1, (hstruW j).2.1⟩) hringK2v
      have hkdisjM : ∀ j ∈ c :: cs, j ∉ rr :: rx' := by
        intro j hj hc
        exact hkR j (by rw [hkl]; exact hj) (hroots_sub j hc)
      have hndMg : ((rr :: rx') ++ (c :: cs)).Nodup := by
        rw [List.nodup_append]
        exact ⟨hnd_tail, hndK, fun x hx1 hx2 => hkdisjM x hx2 hx1⟩
      have hvMg : ∀ i ∈ (rr :: rx') ++ (c :: cs), i < memLen a2w := by
        intro i hi
        rw [hlenWa]
        rw [List.mem_append] at hi
        rcases hi with hi | hi
        · exact hOK.valid i (ghost_roots_subset hOK.partEq i
            (hroots_sub i hi))
        · exact hkLv i (by rw [hkl]; exact hi)
      obtain ⟨a3v, heqMg, hlenMg, hringMg, hfldsMg, houtMg⟩ :=
        mergeLists_spec a2w rr c rx' cs hring2w_roots hring2w_kids hndMg hvMg
      have hlenMgA : memLen a3v = memLen a := by rw [hlenMg, hlenWa]
      have hringMg' : isRing a3v (rr :: (cs ++ c :: rx')) := hringMg
      -- the combined field story from `a` to `a3v`
      have hpar3 : ∀ k, k ∉ g.kids m →
          (getN a3v k).parent = (getN a k).parent := by
        intro k hk
        rw [(hfldsMg k).1]
        have h1 : (getN a2w k).parent = (getN a2v k).parent := by
          refine hfrW k ?_
          rw [← hkl]
          exact hk
        rw [h1, (hflds2v k).1]
      have hparK : ∀ k ∈ g.kids m, (getN a3v k).parent = none := by
        intro k hk
        rw [(hfldsMg k).1]
        refine hclW k ?_
        rw [hkl] at hk
        exact hk
      have hchild3 : ∀ k, (getN a3v k).child = (getN a k).child := by
        intro k
        rw [(hfldsMg k).2.1, (hstruW k).2.2.1, (hflds2v k).2.1]
      have hdeg3 : ∀ k, (getN a3v k).degree = (getN a k).degree := by
        intro k
        rw [(hfldsMg k).2.2.1, (hstruW k).2.2.2.1, (hflds2v k).2.2.1]
      have hprio3 : ∀ k, (getN a3v k).priority = (getN a k).priority := by
        intro k
        rw [(hfldsMg k).2.2.2.2.1, (hstruW k).2.2.2.2.2,
          (hflds2v k).2.2.2.2.1]
      have hkidR3 : ∀ i ∈ g.L.erase m, isRing a3v (g.kids i) := by
        intro i hi
        refine isRing_congr a a3v _ ?_
          (hOK.kidRing i (Finset.mem_of_mem_erase hi))
        intro j hj
        have hfr : getN a3v j = getN a2w j := by
          refine houtMg j ?_
          intro hc
          rw [List.mem_append] at hc
          rcases hc with hc | hc
          · exact ghost_roots_kids_disj hOK.partEq i
              (Finset.mem_of_mem_erase hi) j hj (hroots_sub j hc)
          · exact ghost_kids_disj hOK.partEq i (Finset.mem_of_mem_erase hi)
              m hmL (Finset.ne_of_mem_erase hi) j hj (by rw [hkl]; exact hc)
        rw [hfr, (hstruW j).1, (hstruW j).2.1,
          hkid_fr2v i (Finset.mem_of_mem_erase hi)
            (Finset.ne_of_mem_erase hi) j hj]
        exact ⟨rfl, rfl⟩
      have hpermR : (rr :: (cs ++ c :: rx')).Perm
          ((rr :: rx') ++ (c :: cs)) := by
        refine List.Perm.cons rr ?_
        have p1 : (cs ++ c :: rx').Perm (c :: (cs ++ rx')) := List.perm_middle
        have p2 : (c :: (cs ++ rx')).Perm (c :: (rx' ++ cs)) :=
          List.Perm.cons c List.perm_append_comm
        have p3 : (c :: (rx' ++ cs)).Perm (rx' ++ c :: cs) :=
          List.perm_middle.symm
        exact (p1.trans p2).trans p3
      have hRms1 : ((rr :: (cs ++ c :: rx') : List Nat) : Multiset Nat) =
          ((rr :: rx' : List Nat) : Multiset Nat) +
            ((g.kids m : List Nat) : Multiset Nat) := by
        rw [hkl, Multiset.coe_add]
        exact Quot.sound hpermR
      by_cases hblt : Prior.blt (getN a2w rr).priority
          (getN a2w c).priority = true
      · -- the sibling entry wins: the ring is listed from `rr`
        have hmidOK : forestOK a3v
            ⟨g.L.erase m, rr :: (cs ++ c :: rx'), g.kids, g.rnk⟩ :=
          gMid_forestOK hOK hroots hlenMgA hpar3 hparK hchild3 hdeg3 hprio3
            hringMg' hkidR3 hRms1
        obtain ⟨a4, tt4, fm, g4, hcoll, hcons, hg4, hg4L, hlen4, hprio4,
          hdeg4⟩ :=
          dq_mid_spec a3v ⟨g.L.erase m, rr :: (cs ++ c :: rx'), g.kids,
            g.rnk⟩ rr (f.size - 1) hmidOK rfl (by dsimp only; omega)
        refine ⟨m, a4, { min := some fm, size := f.size - 1 }, g4, ?_, hfm,
          hmL, hg4, by rw [hg4L], rfl, by rw [hlen4, hlenMgA],
          fun k => by rw [hprio4 k, hprio3 k], hminall, hdeg4⟩
        simp only [DequeueMin]
        rw [if_neg hsz, hfm]
        dsimp only
        rw [hrmEq]
        dsimp only
        rw [hchild2v]
        dsimp only
        rw [hclrEq]
        dsimp only
        rw [hchild2w, heqMg]
        dsimp only
        rw [if_pos hblt]
        dsimp only
        rw [hcoll]
        dsimp only
        rw [hcons]
      · -- the child entry wins: rotate the merged ring to start at `c`
        have hrotEq : ((rr :: cs) ++ c :: rx').rotate (rr :: cs).length =
            c :: (rx' ++ rr :: cs) := by
          rw [show (rr :: cs) ++ c :: rx' = (rr :: cs) ++ (c :: rx') by simp,
            List.rotate_append_length_eq]
          simp
        have hringRot : isRing a3v (c :: (rx' ++ rr :: cs)) := by
          have h := isRing_rotate a3v ((rr :: cs) ++ c :: rx')
            (rr :: cs).length (by
              have h2 : (rr :: cs) ++ c :: rx' = rr :: (cs ++ c :: rx') := by
                simp
              rw [h2]
              exact hringMg')
          rwa [hrotEq] at h
        have hpermR2 : (c :: (rx' ++ rr :: cs)).Perm
            ((rr :: rx') ++ (c :: cs)) := by
          have q1 : (rx' ++ rr :: cs).Perm (rr :: (rx' ++ cs)) :=
            List.perm_middle
          have q2 : (c :: (rx' ++ rr :: cs)).Perm
              (c :: rr :: (rx' ++ cs)) := List.Perm.cons c q1
          have q3 : (c :: rr :: (rx' ++ cs)).Perm
              (rr :: c :: (rx' ++ cs)) := List.Perm.swap rr c _
          have q4 : (rr :: c :: (rx' ++ cs)).Perm
              (rr :: (rx' ++ c :: cs)) :=
            List.Perm.cons rr List.perm_middle.symm
          exact ((q2.trans q3).trans q4)
        have hRms2 : ((c :: (rx' ++ rr :: cs) : List Nat) : Multiset Nat) =
            ((rr :: rx' : List Nat) : Multiset Nat) +
              ((g.kids m : List Nat) : Multiset Nat) := by
          rw [hkl, Multiset.coe_add]
          exact Quot.sound hpermR2
        have hmidOK : forestOK a3v
            ⟨g.L.erase m, c :: (rx' ++ rr :: cs), g.kids, g.rnk⟩ :=
          gMid_forestOK hOK hroots hlenMgA hpar3 hparK hchild3 hdeg3 hprio3
            hringRot hkidR3 hRms2
        obtain ⟨a4, tt4, fm, g4, hcoll, hcons, hg4, hg4L, hlen4, hprio4,
          hdeg4⟩ :=
          dq_mid_spec a3v ⟨g.L.erase m, c :: (rx' ++ rr :: cs), g.kids,
            g.rnk⟩ c (f.size - 1) hmidOK rfl (by dsimp only; omega)
        refine ⟨m, a4, { min := some fm, size := f.size - 1 }, g4, ?_, hfm,
          hmL, hg4, by rw [hg4L], rfl, by rw [hlen4, hlenMgA],
          fun k => by rw [hprio4 k, hprio3 k], hminall, hdeg4⟩
        simp only [DequeueMin]
        rw [if_neg hsz, hfm]
        dsimp only
        rw [hrmEq]
        dsimp only
        rw [hchild2v]
        dsimp only
        rw [hclrEq]
        dsimp only
        rw [hchild2w, heqMg]
        dsimp only
        rw [if_neg hblt]
        dsimp only
        rw [hcoll]
        dsimp only
        rw [hcons]

theorem DequeueMin_size_zero (a : Mem) (f : FibHeap) (h : f.size = 0) :
    DequeueMin a f = some (a, f, none) := by
  simp [DequeueMin, h]

/-- Draining a well-formed heap: `extractAll` terminates and produces the
multiset of all stored priorities in non-decreasing order. -/
theorem extractAll_spec : ∀ (fuel : Nat) (a : Mem) (f : FibHeap) (g : Ghost),
    ghostOK a f g → f.size ≤ fuel →
    ∃ l, extractAll fuel a f = some l ∧
      List.Chain' (fun p q => Prior.ble p q = true) l ∧
      (∀ p ∈ l, ∃ j ∈ g.L, p = (getN a j).priority) ∧
      ((l : Multiset Prior) =
        Multiset.map (fun i => (getN a i).priority) g.L.val) := by
  intro fuel
  induction fuel with
  | zero =>
    intro a f g hOK hle
    have hsz : f.size = 0 := by omega
    have hL0 : g.L = ∅ := by
      have h := hOK.sizeEq
      rw [hsz] at h
      exact Finset.card_eq_zero.mp h.symm
    refine ⟨[], ?_, trivial, by simp, by rw [hL0]; rfl⟩
    simp [extractAll, hsz]
  | succ fuel ih =>
    intro a f g hOK hle
    by_cases hsz : f.size = 0
    · have hL0 : g.L = ∅ := by
        have h := hOK.sizeEq
        rw [hsz] at h
        exact Finset.card_eq_zero.mp h.symm
      refine ⟨[], ?_, trivial, by simp, by rw [hL0]; rfl⟩
      have hdq := DequeueMin_size_zero a f hsz
      simp only [extractAll]
      rw [hdq]
    · obtain ⟨m, a', f', g', hdq, hfm, hmL, hOK', hL', hsz', hlen', hprio',
        hminall, _⟩ := DequeueMin_spec a f g hOK hsz
      have hle' : f'.size ≤ fuel := by omega
      obtain ⟨l', hex', hch', hmem', hms'⟩ := ih a' f' g' hOK' hle'
      refine ⟨(getN a' m).priority :: l', ?_, ?_, ?_, ?_⟩
      · simp only [extractAll]
        rw [hdq]
        dsimp only
        rw [hex']
        rfl
      · rw [List.chain'_cons']
        refine ⟨?_, hch'⟩
        intro q hq
        have hqm : q ∈ l' := List.mem_of_mem_head? hq
        obtain ⟨j, hj, hqj⟩ := hmem' q hqm
        have hjL : j ∈ g.L := by
          rw [hL'] at hj
          exact Finset.mem_of_mem_erase hj
        rw [hqj, hprio' m, hprio' j]
        exact hminall j hjL
      · intro p hp
        rcases List.mem_cons.mp hp with h | h
        · exact ⟨m, hmL, by rw [h, hprio' m]⟩
        · obtain ⟨j, hj, hpj⟩ := hmem' p h
          have hjL : j ∈ g.L := by
            rw [hL'] at hj
            exact Finset.mem_of_mem_erase hj
          exact ⟨j, hjL, by rw [hpj, hprio' j]⟩
      · show (getN a' m).priority ::ₘ (l' : Multiset Prior) = _
        rw [hms', hprio' m]
        have hmap : Multiset.map (fun i => (getN a' i).priority) g'.L.val =
            Multiset.map (fun i => (getN a i).priority) g'.L.val :=
          Multiset.map_congr rfl (fun i _ => hprio' i)
        rw [hmap, hL', Finset.erase_val]
        have hcons : g.L.val = m ::ₘ (g.L.val.erase m) :=
          (Multiset.cons_erase (Finset.mem_def.mp hmL)).symm
        conv_rhs => rw [hcons]
        rw [Multiset.map_cons]

/-- C1: on a non-empty well-formed heap, `Min` returns (without any
mutation — it only reads the min pointer) an entry of the heap whose
priority is least among all entries, and `DequeueMin` removes and returns
that same entry, preserving every other entry's priority. -/
theorem C1_min_correct (a : Mem) (f : FibHeap) (g : Ghost)
    (hOK : ghostOK a f g) (hsz : ¬ f.size = 0) :
    ∃ m, FibHeap.Min f = some m ∧ m ∈ g.L ∧
      (∀ j ∈ g.L, Prior.ble (getN a m).priority (getN a j).priority = true) ∧
      ∃ a' f' g', DequeueMin a f = some (a', f', some m) ∧
        ghostOK a' f' g' ∧ g'.L = g.L.erase m ∧
        (∀ k, (getN a' k).priority = (getN a k).priority) := by
  obtain ⟨m, a', f', g', hdq, hfm, hmL, hOK', hL', _, _, hprio', hminall, _⟩ :=
    DequeueMin_spec a f g hOK hsz
  exact ⟨m, hfm, hmL, hminall, a', f', g', hdq, hOK', hL', hprio'⟩

theorem C1_min_correct_witness :
    ∃ m, FibHeap.Min demoF = some m ∧ m ∈ demoG.L ∧
      (∀ j ∈ demoG.L, Prior.ble (getN demoA m).priority
        (getN demoA j).priority = true) ∧
      ∃ a' f' g', DequeueMin demoA demoF = some (a', f', some m) ∧
        ghostOK a' f' g' ∧ g'.L = demoG.L.erase m ∧
        (∀ k, (getN a' k).priority = (getN demoA k).priority) :=
  C1_min_correct demoA demoF demoG demo_ghostOK (by decide)

/-- C5: after a `DequeueMin` on a non-empty well-formed heap, the
consolidation pass has left pairwise distinct degrees across the root
list (trivially so when the heap became empty). -/
theorem C5_distinct_degrees (a : Mem) (f : FibHeap) (g : Ghost)
    (hOK : ghostOK a f g) (hsz : ¬ f.size = 0) :
    ∃ m a' f' g', DequeueMin a f = some (a', f', some m) ∧
      ghostOK a' f' g' ∧
      (∀ r1 ∈ g'.roots, ∀ r2 ∈ g'.roots, r1 ≠ r2 →
        (getN a' r1).degree ≠ (getN a' r2).degree) := by
  obtain ⟨m, a', f', g', hdq, _, _, hOK', _, _, _, _, _, hdeg⟩ :=
    DequeueMin_spec a f g hOK hsz
  exact ⟨m, a', f', g', hdq, hOK', hdeg⟩

theorem C5_distinct_degrees_witness :
    ∃ m a' f' g', DequeueMin demoA demoF = some (a', f', some m) ∧
      ghostOK a' f' g' ∧
      (∀ r1 ∈ g'.roots, ∀ r2 ∈ g'.roots, r1 ≠ r2 →
        (getN a' r1).degree ≠ (getN a' r2).degree) :=
  C5_distinct_degrees demoA demoF demoG demo_ghostOK (by decide)

/-- C10: on a well-formed heap both loops terminate — `DequeueMin` always
returns a result (never the divergence outcome), and the cascading
`cutNode` recursion started at any node succeeds within `memLen a + 1`
steps, the fuel the callers pass. -/
theorem C10_termination (a : Mem) (f : FibHeap) (g : Ghost)
    (hOK : ghostOK a f g) :
    DequeueMin a f ≠ none ∧
    (∀ e ∈ g.L, cutNode (memLen a + 1) a f.min e ≠ none) := by
  constructor
  · by_cases hsz : f.size = 0
    · rw [DequeueMin_size_zero a f hsz]
      intro h
      cases h
    · obtain ⟨m, a', f', g', hdq, _⟩ := DequeueMin_spec a f g hOK hsz
      rw [hdq]
      intro h
      cases h
  · intro e heL
    have hcut : cutOK a f.min g e (∅ : Finset Nat) :=
      ⟨hOK.partEq, hOK.valid, hOK.rootRing, hOK.kidRing,
        fun i hi _ => hOK.rootPar i hi, hOK.kidPar, hOK.childEq, hOK.degEq,
        hOK.rnkLt, fun i hi j hj _ => hOK.heapLe i hi j hj, hOK.minHead,
        hOK.minLe⟩
    have hfuel : (g.L.filter (fun y => g.rnk e < g.rnk y)).card <
        memLen a + 1 := by
      have := rnk_measure_le hOK.valid e
      omega
    obtain ⟨a', fmin', g', hdef, _⟩ :=
      cutNode_spec (memLen a + 1) a f.min g ∅ e hcut heL
        (Finset.not_mem_empty e)
        (fun s hs => absurd hs (Finset.not_mem_empty s)) hfuel
    rw [hdef]
    intro h
    cases h

theorem C10_termination_witness :
    DequeueMin demoA demoF ≠ none ∧
    (∀ e ∈ demoG.L, cutNode (memLen demoA + 1) demoA demoF.min e ≠ none) :=
  C10_termination demoA demoF demoG demo_ghostOK

/-- C2: draining any well-formed heap with repeated `DequeueMin` calls
succeeds and yields exactly the stored multiset of priorities, in
non-decreasing order. -/
theorem C2_sorted_extraction (a : Mem) (f : FibHeap) (g : Ghost)
    (hOK : ghostOK a f g) :
    ∃ l, extractAll f.size a f = some l ∧
      List.Chain' (fun p q => Prior.ble p q = true) l ∧
      ((l : Multiset Prior) =
        Multiset.map (fun i => (getN a i).priority) g.L.val) := by
  obtain ⟨l, h1, h2, _, h4⟩ := extractAll_spec f.size a f g hOK (le_refl _)
  exact ⟨l, h1, h2, h4⟩

theorem C2_sorted_extraction_witness :
    ∃ l, extractAll demoF.size demoA demoF = some l ∧
      List.Chain' (fun p q => Prior.ble p q = true) l ∧
      ((l : Multiset Prior) =
        Multiset.map (fun i => (getN demoA i).priority) demoG.L.val) :=
  C2_sorted_extraction demoA demoF demoG demo_ghostOK

/-- C7: on a well-formed heap containing `e`, `Delete(e)` succeeds,
removes exactly `e` (the node set becomes the old set minus `e`, so `e`
can never appear in a later `DequeueMin`), decrements `Len` by one, and
preserves every other entry's priority; the proof runs `Delete`'s own
decrease-to-negative-infinity followed by one `DequeueMin`, which
extracts exactly `e`. -/
theorem C7_delete (a : Mem) (f : FibHeap) (g : Ghost) (e : Nat)
    (hOK : ghostOK a f g) (heL : e ∈ g.L) :
    ∃ a' f' g', Delete a f e = some (a', f') ∧ ghostOK a' f' g' ∧
      g'.L = g.L.erase e ∧ e ∉ g'.L ∧
      FibHeap.Len f' = FibHeap.Len f - 1 ∧
      (∀ k, k ≠ e → (getN a' k).priority = (getN a k).priority) := by
  obtain ⟨a1, f1, g1, hdef1, hOK1, hL1, _, hlen1, hsz1, hne1, he1, hmin1⟩ :=
    dku_spec a f g e Prior.negInf hOK heL (Prior.negInf_ble _)
  have hfmin1 : f1.min = some e := hmin1 rfl
  have hsz1' : ¬ f1.size = 0 := by
    rw [hsz1]
    have h1 := hOK.sizeEq
    have h2 : 0 < g.L.card := Finset.card_pos.mpr ⟨e, heL⟩
    omega
  obtain ⟨m, a2, f2, g2, hdq, hfm2, _, hOK2, hL2, hsz2, _, hprio2, _, _⟩ :=
    DequeueMin_spec a1 f1 g1 hOK1 hsz1'
  have hme : m = e := by
    rw [hfmin1] at hfm2
    injection hfm2 with h
    exact h.symm
  have hL2' : g2.L = g.L.erase e := by
    rw [hL2, hme, hL1]
  refine ⟨a2, f2, g2, ?_, hOK2, hL2', ?_, ?_, ?_⟩
  · simp only [Delete]
    rw [hdef1]
    dsimp only
    rw [hdq]
  · rw [hL2']
    exact Finset.not_mem_erase e g.L
  · show f2.size = f.size - 1
    rw [hsz2, hsz1]
  · intro k hk
    rw [hprio2 k, hne1 k hk]

theorem C7_delete_witness :
    ∃ a' f' g', Delete demoA demoF 0 = some (a', f') ∧ ghostOK a' f' g' ∧
      g'.L = demoG.L.erase 0 ∧ (0 : Nat) ∉ g'.L ∧
      FibHeap.Len f' = FibHeap.Len demoF - 1 ∧
      (∀ k, k ≠ 0 → (getN a' k).priority = (getN demoA k).priority) :=
  C7_delete demoA demoF demoG 0 demo_ghostOK (by decide)

/-- A well-formed heap with no min pointer is empty. -/
theorem ghostOK_min_none {a : Mem} {f : FibHeap} {g : Ghost}
    (h : ghostOK a f g) (hm : f.min = none) : g.L = ∅ ∧ f.size = 0 := by
  have hroots : g.roots = [] := by
    cases hr : g.roots with
    | nil => rfl
    | cons x xs =>
      rw [h.minHead, hr] at hm
      cases hm
  have hL : g.L = ∅ := by
    by_contra hne
    exact absurd hroots (ghost_roots_nonempty h.partEq h.rnkLt
      (Finset.nonempty_of_ne_empty hne))
  refine ⟨hL, ?_⟩
  rw [h.sizeEq, hL]
  rfl

/-- C6: merging two well-formed heaps living in one arena on disjoint node
sets yields a heap whose size is the sum of the input lengths, whose node
set is the union, and whose full extraction sequence is the non-decreasing
arrangement of the union of the two priority multisets; both returned
input heaps are the empty heap (min cleared, `Len() = 0`). -/
theorem C6_merge (a : Mem) (f1 f2 : FibHeap) (g1 g2 : Ghost)
    (h1 : ghostOK a f1 g1) (h2 : ghostOK a f2 g2)
    (hdisj : Disjoint g1.L g2.L) :
    ∃ a' fm g', MergeFibHeap a f1 f2 =
        (a', fm, { min := none, size := 0 }, { min := none, size := 0 }) ∧
      ghostOK a' fm g' ∧ g'.L = g1.L ∪ g2.L ∧
      fm.size = FibHeap.Len f1 + FibHeap.Len f2 ∧
      FibHeap.Len ({ min := none, size := 0 } : FibHeap) = 0 ∧
      memLen a' = memLen a ∧
      (∀ k, (getN a' k).priority = (getN a k).priority) ∧
      ∃ l, extractAll fm.size a' fm = some l ∧
        List.Chain' (fun p q => Prior.ble p q = true) l ∧
        ((l : Multiset Prior) =
          Multiset.map (fun i => (getN a i).priority) g1.L.val +
          Multiset.map (fun i => (getN a i).priority) g2.L.val) := by
  by_cases h1m : f1.min = none
  · obtain ⟨hL1, hs1⟩ := ghostOK_min_none h1 h1m
    have hmrg : mergeLists a f1.min f2.min = (a, f2.min) := by
      rw [h1m]
      cases f2.min <;> rfl
    have hOKU : ghostOK a { min := f2.min, size := f1.size + f2.size } g2 :=
      ⟨h2.partEq, h2.valid, h2.rootRing, h2.kidRing, h2.rootPar, h2.kidPar,
        h2.childEq, h2.degEq, h2.rnkLt, h2.heapLe, h2.minHead, h2.minLe,
        by show f1.size + f2.size = g2.L.card; rw [hs1, h2.sizeEq]; omega⟩
    obtain ⟨l, hex, hch, _, hms⟩ := extractAll_spec (f1.size + f2.size) a
      { min := f2.min, size := f1.size + f2.size } g2 hOKU (le_refl _)
    refine ⟨a, { min := f2.min, size := f1.size + f2.size }, g2, ?_,
      hOKU, by rw [hL1, Finset.empty_union], rfl, rfl, rfl, fun k => rfl,
      l, hex, hch, ?_⟩
    · simp only [MergeFibHeap]
      rw [hmrg]
    · rw [hms, hL1]
      show _ = Multiset.map _ (0 : Multiset Nat) + _
      rw [Multiset.map_zero, zero_add]
  · by_cases h2m : f2.min = none
    · obtain ⟨hL2, hs2⟩ := ghostOK_min_none h2 h2m
      have hmrg : mergeLists a f1.min f2.min = (a, f1.min) := by
        rw [h2m]
        cases f1.min <;> rfl
      have hOKU : ghostOK a { min := f1.min, size := f1.size + f2.size }
          g1 :=
        ⟨h1.partEq, h1.valid, h1.rootRing, h1.kidRing, h1.rootPar, h1.kidPar,
          h1.childEq, h1.degEq, h1.rnkLt, h1.heapLe, h1.minHead, h1.minLe,
          by show f1.size + f2.size = g1.L.card; rw [hs2, h1.sizeEq]; omega⟩
      obtain ⟨l, hex, hch, _, hms⟩ := extractAll_spec (f1.size + f2.size) a
        { min := f1.min, size := f1.size + f2.size } g1 hOKU (le_refl _)
      refine ⟨a, { min := f1.min, size := f1.size + f2.size }, g1, ?_,
        hOKU, by rw [hL2, Finset.union_empty], rfl, rfl, rfl, fun k => rfl,
        l, hex, hch, ?_⟩
      · simp only [MergeFibHeap]
        rw [hmrg]
      · rw [hms, hL2]
        show _ = _ + Multiset.map _ (0 : Multiset Nat)
        rw [Multiset.map_zero, add_zero]
    · -- both heaps non-empty: splice the root rings
      obtain ⟨o, ho⟩ : ∃ o, f1.min = some o := by
        cases hv : f1.min with
        | none => exact absurd hv h1m
        | some z => exact ⟨z, rfl⟩
      obtain ⟨t, ht⟩ : ∃ t, f2.min = some t := by
        cases hv : f2.min with
        | none => exact absurd hv h2m
        | some z => exact ⟨z, rfl⟩
      have hohead : g1.roots.head? = some o := by rw [← h1.minHead, ho]
      have hthead : g2.roots.head? = some t := by rw [← h2.minHead, ht]
      obtain ⟨xs, hroots1⟩ : ∃ xs, g1.roots = o :: xs := by
        cases hr : g1.roots with
        | nil => rw [hr] at hohead; cases hohead
        | cons z zs =>
          rw [hr] at hohead
          injection hohead with hz
          exact ⟨zs, by rw [hz]⟩
      obtain ⟨ys, hroots2⟩ : ∃ ys, g2.roots = t :: ys := by
        cases hr : g2.roots with
        | nil => rw [hr] at hthead; cases hthead
        | cons z zs =>
          rw [hr] at hthead
          injection hthead with hz
          exact ⟨zs, by rw [hz]⟩
      have hd12 : ∀ i ∈ g1.L, i ∉ g2.L := fun i hi =>
        Finset.disjoint_left.mp hdisj hi
      have hsub1 : ∀ j ∈ o :: xs, j ∈ g1.L := fun j hj =>
        ghost_roots_subset h1.partEq j (hroots1 ▸ hj)
      have hsub2 : ∀ j ∈ t :: ys, j ∈ g2.L := fun j hj =>
        ghost_roots_subset h2.partEq j (hroots2 ▸ hj)
      have hndM : ((o :: xs) ++ (t :: ys)).Nodup := by
        rw [List.nodup_append]
        refine ⟨hroots1 ▸ ghost_roots_nodup h1.partEq,
          hroots2 ▸ ghost_roots_nodup h2.partEq, ?_⟩
        intro z hz1 hz2
        exact hd12 z (hsub1 z hz1) (hsub2 z hz2)
      have hvM : ∀ i ∈ (o :: xs) ++ (t :: ys), i < memLen a := by
        intro i hi
        rw [List.mem_append] at hi
        rcases hi with hi | hi
        · exact h1.valid i (hsub1 i hi)
        · exact h2.valid i (hsub2 i hi)
      obtain ⟨a', heqM, hlenM, hringM, hfldsM, houtM⟩ :=
        mergeLists_spec a o t xs ys (hroots1 ▸ h1.rootRing)
          (hroots2 ▸ h2.rootRing) hndM hvM
      have hprioA : ∀ k, (getN a' k).priority = (getN a k).priority :=
        fun k => (hfldsM k).2.2.2.2.1
      have hfr' : ∀ (i : Nat), (i ∈ g1.L ∧ i ∉ g1.roots) ∨
          (i ∈ g2.L ∧ i ∉ g2.roots) → getN a' i = getN a i := by
        intro i hi
        refine houtM i ?_
        intro hc
        rw [List.mem_append] at hc
        rcases hi with ⟨hiL, hiR⟩ | ⟨hiL, hiR⟩
        · rcases hc with hc | hc
          · exact hiR (hroots1 ▸ hc)
          · exact hd12 i hiL (hsub2 i hc)
        · rcases hc with hc | hc
          · exact hd12 i (hsub1 i hc) hiL
          · exact hiR (hroots2 ▸ hc)
      have hUval : (g1.L ∪ g2.L).val = g1.L.val + g2.L.val := by
        rw [← Finset.disjUnion_eq_union g1.L g2.L hdisj]
        rfl
      have hcardU : (g1.L ∪ g2.L).card = g1.L.card + g2.L.card :=
        Finset.card_union_of_disjoint hdisj
      have hcommon : ∀ R : List Nat, isRing a' R →
          ((R : Multiset Nat) =
            ((o :: xs : List Nat) : Multiset Nat) +
              ((t :: ys : List Nat) : Multiset Nat)) →
          ((if Prior.blt (getN a o).priority (getN a t).priority = true
            then some o else some t) = R.head?) →
          (∀ mh ∈ R.head?, ∀ j ∈ R,
            Prior.ble (getN a' mh).priority (getN a' j).priority = true) →
          ghostOK a'
            { min := if Prior.blt (getN a o).priority
                (getN a t).priority = true then some o else some t,
              size := f1.size + f2.size }
            ⟨g1.L ∪ g2.L, R,
              fun i => if i ∈ g1.L then g1.kids i else g2.kids i,
              fun i => if i ∈ g1.L then g1.rnk i else g2.rnk i⟩ := by
        intro R hring hms hhead hminle
        have hRmem : ∀ j, j ∈ R ↔ (j ∈ o :: xs ∨ j ∈ t :: ys) := by
          intro j
          rw [← Multiset.mem_coe, hms]
          simp
          tauto
        have hk1 : ∀ i ∈ g1.L, ∀ j ∈ g1.kids i,
            (j ∈ g1.L ∧ j ∉ g1.roots) := by
          intro i hi j hj
          exact ⟨ghost_kids_subset h1.partEq i hi j hj,
            fun hc => ghost_roots_kids_disj h1.partEq i hi j hj hc⟩
        have hk2 : ∀ i ∈ g2.L, ∀ j ∈ g2.kids i,
            (j ∈ g2.L ∧ j ∉ g2.roots) := by
          intro i hi j hj
          exact ⟨ghost_kids_subset h2.partEq i hi j hj,
            fun hc => ghost_roots_kids_disj h2.partEq i hi j hj hc⟩
        refine ⟨?_, ?_, hring, ?_, ?_, ?_, ?_, ?_, ?_, ?_, hhead, hminle, ?_⟩
        · show (R : Multiset Nat) + _ = _
          have hsum : (∑ i in g1.L ∪ g2.L,
              (((if i ∈ g1.L then g1.kids i else g2.kids i : List Nat))
                : Multiset Nat)) =
              (∑ i in g1.L, ((g1.kids i : List Nat) : Multiset Nat)) +
              (∑ i in g2.L, ((g2.kids i : List Nat) : Multiset Nat)) := by
            rw [Finset.sum_union hdisj]
            congr 1
            · exact Finset.sum_congr rfl (fun i hi => by rw [if_pos hi])
            · exact Finset.sum_congr rfl
                (fun i hi => by rw [if_neg (fun hc => hd12 i hc hi)])
          rw [hsum, hms, hUval]
          have e1 := h1.partEq
          have e2 := h2.partEq
          rw [hroots1] at e1
          rw [hroots2] at e2
          rw [← e1, ← e2]
          rw [add_add_add_comm]
        · intro i hi
          rw [hlenM]
          rcases Finset.mem_union.mp hi with h | h
          · exact h1.valid i h
          · exact h2.valid i h
        · intro i hi
          dsimp only
          rcases Finset.mem_union.mp hi with h | h
          · rw [if_pos h]
            refine isRing_congr a a' _ ?_ (h1.kidRing i h)
            intro j hj
            rw [hfr' j (Or.inl (hk1 i h j hj))]
            exact ⟨rfl, rfl⟩
          · rw [if_neg (fun hc => hd12 i hc h)]
            refine isRing_congr a a' _ ?_ (h2.kidRing i h)
            intro j hj
            rw [hfr' j (Or.inr (hk2 i h j hj))]
            exact ⟨rfl, rfl⟩
        · intro j hj
          dsimp only at hj
          rw [(hfldsM j).1]
          rcases (hRmem j).mp hj with h | h
          · exact h1.rootPar j (hroots1 ▸ h)
          · exact h2.rootPar j (hroots2 ▸ h)
        · intro i hi j hj
          dsimp only at hj
          rw [(hfldsM j).1]
          rcases Finset.mem_union.mp hi with h | h
          · rw [if_pos h] at hj
            exact h1.kidPar i h j hj
          · rw [if_neg (fun hc => hd12 i hc h)] at hj
            exact h2.kidPar i h j hj
        · intro i hi
          dsimp only
          rw [(hfldsM i).2.1]
          rcases Finset.mem_union.mp hi with h | h
          · rw [if_pos h]
            exact h1.childEq i h
          · rw [if_neg (fun hc => hd12 i hc h)]
            exact h2.childEq i h
        · intro i hi
          dsimp only
          rw [(hfldsM i).2.2.1]
          rcases Finset.mem_union.mp hi with h | h
          · rw [if_pos h]
            exact h1.degEq i h
          · rw [if_neg (fun hc => hd12 i hc h)]
            exact h2.degEq i h
        · intro i hi j hj
          dsimp only at hj ⊢
          rcases Finset.mem_union.mp hi with h | h
          · rw [if_pos h] at hj
            rw [if_pos h, if_pos (hk1 i h j hj).1]
            exact h1.rnkLt i h j hj
          · rw [if_neg (fun hc => hd12 i hc h)] at hj
            rw [if_neg (fun hc => hd12 i hc h),
              if_neg (fun hc => hd12 j hc (hk2 i h j hj).1)]
            exact h2.rnkLt i h j hj
        · intro i hi j hj
          dsimp only at hj
          rw [hprioA i, hprioA j]
          rcases Finset.mem_union.mp hi with h | h
          · rw [if_pos h] at hj
            exact h1.heapLe i h j hj
          · rw [if_neg (fun hc => hd12 i hc h)] at hj
            exact h2.heapLe i h j hj
        · show f1.size + f2.size = _
          rw [hcardU, h1.sizeEq, h2.sizeEq]
      have hoble : ∀ j ∈ o :: xs,
          Prior.ble (getN a o).priority (getN a j).priority = true := by
        intro j hj
        exact h1.minLe o hohead j (hroots1 ▸ hj)
      have htble : ∀ j ∈ t :: ys,
          Prior.ble (getN a t).priority (getN a j).priority = true := by
        intro j hj
        exact h2.minLe t hthead j (hroots2 ▸ hj)
      obtain ⟨R, hring, hms, hhead, hminle⟩ :
          ∃ R : List Nat, isRing a' R ∧
            ((R : Multiset Nat) =
              ((o :: xs : List Nat) : Multiset Nat) +
                ((t :: ys : List Nat) : Multiset Nat)) ∧
            ((if Prior.blt (getN a o).priority (getN a t).priority = true
              then some o else some t) = R.head?) ∧
            (∀ mh ∈ R.head?, ∀ j ∈ R,
              Prior.ble (getN a' mh).priority (getN a' j).priority
                = true) := by
        by_cases hblt :
            Prior.blt (getN a o).priority (getN a t).priority = true
        · refine ⟨o :: (ys ++ t :: xs), hringM, ?_, by rw [if_pos hblt]; rfl,
            ?_⟩
          · rw [Multiset.coe_add]
            refine Quot.sound ?_
            refine List.Perm.cons o ?_
            have p1 : (ys ++ t :: xs).Perm (t :: (ys ++ xs)) :=
              List.perm_middle
            have p2 : (t :: (ys ++ xs)).Perm (t :: (xs ++ ys)) :=
              List.Perm.cons t List.perm_append_comm
            have p3 : (t :: (xs ++ ys)).Perm (xs ++ t :: ys) :=
              List.perm_middle.symm
            exact (p1.trans p2).trans p3
          · intro mh hmh j hj
            simp only [List.head?_cons, Option.mem_def,
              Option.some.injEq] at hmh
            rw [← hmh, hprioA o, hprioA j]
            simp only [List.mem_cons, List.mem_append] at hj
            rcases hj with h | h | h | h
            · rw [h]
              exact Prior.ble_refl _
            · exact Prior.ble_trans (Prior.blt_ble hblt)
                (htble j (List.mem_cons_of_mem _ h))
            · rw [h]
              exact Prior.blt_ble hblt
            · exact hoble j (List.mem_cons_of_mem _ h)
        · have hrotEq : ((o :: ys) ++ t :: xs).rotate (o :: ys).length =
              t :: (xs ++ o :: ys) := by
            rw [show (o :: ys) ++ t :: xs = (o :: ys) ++ (t :: xs) by simp,
              List.rotate_append_length_eq]
            simp
          have hringRot : isRing a' (t :: (xs ++ o :: ys)) := by
            have h := isRing_rotate a' ((o :: ys) ++ t :: xs)
              (o :: ys).length (by
                have h2 : (o :: ys) ++ t :: xs = o :: (ys ++ t :: xs) := by
                  simp
                rw [h2]
                exact hringM)
            rwa [hrotEq] at h
          refine ⟨t :: (xs ++ o :: ys), hringRot, ?_,
            by rw [if_neg hblt]; rfl, ?_⟩
          · rw [Multiset.coe_add]
            refine Quot.sound ?_
            have q1 : (xs ++ o :: ys).Perm (o :: (xs ++ ys)) :=
              List.perm_middle
            have q2 : (t :: (xs ++ o :: ys)).Perm (t :: o :: (xs ++ ys)) :=
              List.Perm.cons t q1
            have q3 : (t :: o :: (xs ++ ys)).Perm (o :: t :: (xs ++ ys)) :=
              List.Perm.swap o t _
            have q4 : (o :: t :: (xs ++ ys)).Perm (o :: xs ++ t :: ys) := by
              refine List.Perm.cons o ?_
              exact List.perm_middle.symm.trans
                (by exact List.Perm.refl _) |>.symm.symm
            exact ((q2.trans q3).trans q4)
          · intro mh hmh j hj
            have hto : Prior.ble (getN a t).priority (getN a o).priority
                = true := Prior.ble_of_not_blt hblt
            simp only [List.head?_cons, Option.mem_def,
              Option.some.injEq] at hmh
            rw [← hmh, hprioA t, hprioA j]
            simp only [List.mem_cons, List.mem_append] at hj
            rcases hj with h | h | h | h
            · rw [h]
              exact Prior.ble_refl _
            · exact Prior.ble_trans hto (hoble j (List.mem_cons_of_mem _ h))
            · rw [h]
              exact hto
            · exact htble j (List.mem_cons_of_mem _ h)
      have hOKU := hcommon R hring hms hhead hminle
      obtain ⟨l, hex, hch, _, hmsl⟩ := extractAll_spec (f1.size + f2.size) a'
        { min := if Prior.blt (getN a o).priority (getN a t).priority = true
            then some o else some t, size := f1.size + f2.size }
        ⟨g1.L ∪ g2.L, R, fun i => if i ∈ g1.L then g1.kids i else g2.kids i,
          fun i => if i ∈ g1.L then g1.rnk i else g2.rnk i⟩ hOKU (le_refl _)
      refine ⟨a',
        { min := if Prior.blt (getN a o).priority (getN a t).priority = true
            then some o else some t, size := f1.size + f2.size },
        ⟨g1.L ∪ g2.L, R, fun i => if i ∈ g1.L then g1.kids i else g2.kids i,
          fun i => if i ∈ g1.L then g1.rnk i else g2.rnk i⟩,
        ?_, hOKU, rfl, rfl, rfl, hlenM, hprioA, l, hex, hch, ?_⟩
      · simp only [MergeFibHeap]
        rw [ho, ht, heqM]
      · rw [hmsl]
        show Multiset.map _ (⟨g1.L ∪ g2.L, R, _, _⟩ : Ghost).L.val = _
        have hmap : Multiset.map (fun i => (getN a' i).priority)
            (g1.L ∪ g2.L).val =
            Multiset.map (fun i => (getN a i).priority)
              (g1.L ∪ g2.L).val :=
          Multiset.map_congr rfl (fun i _ => hprioA i)
        rw [hmap, hUval, Multiset.map_add]

theorem demo2a_ghostOK : ghostOK demoA2 demoF2a demoG2a := by
  refine ⟨by decide, by decide, ?_, ?_, by decide, by decide,
    by decide, by decide, by decide, by decide, by decide, ?_, by decide⟩
  · exact isRing_singleton demoA2 0 rfl rfl
  · intro i _
    trivial
  · intro m hm j hj
    have hm0 : m = 0 := by
      rw [Option.mem_def] at hm
      injection hm.symm
    have hj0 : j = 0 := by
      have h : j ∈ ([0] : List Nat) := hj
      simpa using h
    rw [hm0, hj0]
    decide

theorem demo2b_ghostOK : ghostOK demoA2 demoF2b demoG2b := by
  refine ⟨by decide, by decide, ?_, ?_, by decide, by decide,
    by decide, by decide, by decide, by decide, by decide, ?_, by decide⟩
  · exact isRing_singleton demoA2 1 rfl rfl
  · intro i _
    trivial
  · intro m hm j hj
    have hm0 : m = 1 := by
      rw [Option.mem_def] at hm
      injection hm.symm
    have hj0 : j = 1 := by
      have h : j ∈ ([1] : List Nat) := hj
      simpa using h
    rw [hm0, hj0]
    decide

theorem C6_merge_witness :
    ∃ a' fm g', MergeFibHeap demoA2 demoF2a demoF2b =
        (a', fm, { min := none, size := 0 }, { min := none, size := 0 }) ∧
      ghostOK a' fm g' ∧ g'.L = demoG2a.L ∪ demoG2b.L ∧
      fm.size = FibHeap.Len demoF2a + FibHeap.Len demoF2b ∧
      FibHeap.Len ({ min := none, size := 0 } : FibHeap) = 0 ∧
      memLen a' = memLen demoA2 ∧
      (∀ k, (getN a' k).priority = (getN demoA2 k).priority) ∧
      ∃ l, extractAll fm.size a' fm = some l ∧
        List.Chain' (fun p q => Prior.ble p q = true) l ∧
        ((l : Multiset Prior) =
          Multiset.map (fun i => (getN demoA2 i).priority) demoG2a.L.val +
          Multiset.map (fun i => (getN demoA2 i).priority) demoG2b.L.val) :=
  C6_merge demoA2 demoF2a demoF2b demoG2a demoG2b demo2a_ghostOK
    demo2b_ghostOK (by decide)
